import Mathlib

/-!
Adaptive quadrature over MPI (`AQI-mpi.cpp`).

A shallow embedding of the numerical kernel (`function`, `trapezoidal_actual`,
`trapezoidal_rule`, `check_error`, `adaptive_quadrature`) and of the
coordinator/worker protocol (`master`, `slave`) of `AQI-mpi.cpp`.

* Arithmetic is exact: `float`/`double` become an arbitrary linearly ordered
  field `α` (the runs that are evaluated use `ℚ`). Such a field has no infinity
  and no NaN; the last section of the definitions, namespace `IEEE`, gives the
  numerical kernel a second time over `float` values that have them.
* The integrand is the body of `function()`; the functions that call it take
  it as the parameter `f`, the program's own integrand is `function cos sin`.
* MPI is modelled by one FIFO queue per direction and per worker rank
  (messages between two ranks do not overtake each other), a step function
  `step` on the global state, and schedules (lists of actions).
-/

namespace AQI

variable {α : Type} [LinearOrderedField α]

/-! ## Numerical kernel -/

/-- The integrand of line 40, `fabs((5*x) * (cos(6*x) * sin(x))) / 20`; the two
`<cmath>` functions are parameters. -/
def function (cos sin : α → α) (x : α) : α :=
  |(5 * x) * (cos (6 * x) * sin x)| / 20

/-- The constant `int interval = 1000` of `trapezoidal_actual`. -/
def interval : Nat := 1000

/-- Lines 54-64: the reference estimate. The `for` loop runs `i = 1 .. interval - 1`. -/
def trapezoidal_actual (f : α → α) (lower_bound upper_bound : α) : α :=
  let grid := (upper_bound - lower_bound) / (interval : α)
  let s := f lower_bound + f upper_bound
  let s := (List.range' 1 (interval - 1)).foldl
    (fun (s : α) (i : Nat) => s + 2 * f (lower_bound + (i : α) * grid)) s
  (grid / 2) * s

/-- Lines 74-76: one trapezoid. -/
def trapezoidal_rule (f : α → α) (a b : α) : α :=
  0.5 * (b - a) * (f a + f b)

/-- Lines 90-95, in exact arithmetic: every value is a number, so the test of line 91 is
false only when the difference is within `error`. For the NaN of `float` see
`IEEE.check_error`. -/
def check_error (calculated actual error : α) : Bool :=
  if |actual - calculated| > error then false else true

/-- Lines 105-122; the first argument bounds the recursion depth, `none` means that
the depth was not enough. -/
def adaptive_quadrature (f : α → α) : Nat → α → α → α → Option α
  | 0, _, _, _ => none
  | fuel + 1, lower, upper, error =>
    let trapezoidal_area := trapezoidal_rule f lower upper
    let actual_integration := trapezoidal_actual f lower upper
    let aqi_integration : α := 0
    if !check_error trapezoidal_area actual_integration error then
      let midpoint := (upper + lower) / 2
      match adaptive_quadrature f fuel lower midpoint error with
      | none => none
      | some left =>
        match adaptive_quadrature f fuel midpoint upper error with
        | none => none
        | some right => some (aqi_integration + left + right)
    else
      some (aqi_integration + trapezoidal_area)

/-- The recursion tree of `adaptive_quadrature`: the intervals that take the `else`
branch (accepted leaves), left to right, and the intervals that take the `if`
branch (splits), in the order of the calls. -/
def aqTrace (f : α → α) : Nat → α → α → α → Option (List (α × α) × List (α × α))
  | 0, _, _, _ => none
  | fuel + 1, lower, upper, error =>
    if !check_error (trapezoidal_rule f lower upper) (trapezoidal_actual f lower upper) error then
      let midpoint := (upper + lower) / 2
      match aqTrace f fuel lower midpoint error with
      | none => none
      | some left =>
        match aqTrace f fuel midpoint upper error with
        | none => none
        | some right => some (left.1 ++ right.1, (lower, upper) :: (left.2 ++ right.2))
    else
      some ([(lower, upper)], [])

/-! ## Messages and process states -/

/-- The record `float values[3]` / `struct fStruct {float data[3];}`. -/
structure fStruct (α : Type) where
  d0 : α
  d1 : α
  d2 : α
deriving DecidableEq, Repr

/-- A message in flight: the MPI tag and the three floats. Tags: 0 is READY (worker to
master) and ASSIGN (master to worker), 1 SPLIT, 2 DONE, 3 TERMINATE. -/
structure Msg (α : Type) where
  tag : Nat
  values : fStruct α
deriving DecidableEq, Repr

/-- Where a worker is in `slave`: before the send of line 189, in the `while(1)` loop,
or after the `break`. -/
inductive SlavePc where
  | start
  | serving
  | returned
deriving DecidableEq, Repr

/-- A worker rank together with its two channels: `inbox` holds what rank 0 has sent to
it and it has not yet received, `outbox` what it has sent to rank 0 and rank 0 has not
yet received; both oldest first. -/
structure SlaveState (α : Type) where
  pc : SlavePc
  inbox : List (Msg α)
  outbox : List (Msg α)
deriving DecidableEq, Repr

/-- Where rank 0 is in `master`: at the loop test of line 141, or after the sends of
lines 174-176. -/
inductive MasterPc where
  | loop
  | returned
deriving DecidableEq, Repr

/-- The local variables of `master`; `tasks` has `top()` at its head. -/
structure MasterState (α : Type) where
  values : fStruct α
  result : α
  tasks : List (fStruct α)
  busy : List Bool
  isBusy : Bool
  pc : MasterPc
deriving DecidableEq, Repr

/-- The global state: rank 0, ranks `1 .. numProcesses - 1` (worker `i` is rank `i + 1`),
and the log of every message rank 0 has received, newest first. -/
structure Sys (α : Type) where
  master : MasterState α
  slaves : List (SlaveState α)
  received : List (Msg α)
deriving DecidableEq, Repr

/-- The size of the communicator. -/
def Sys.numProcesses (s : Sys α) : Nat := s.slaves.length + 1

/-- The state in which worker `i` is replaced by `w`. -/
def Sys.setSlave (s : Sys α) (i : Nat) (w : SlaveState α) : Sys α :=
  { s with slaves := s.slaves.set i w }

/-! ## The worker -/

/-- Lines 198-216: the messages a worker sends to rank 0 for a received record. -/
def slaveReply (f : α → α) (error : α) (values : fStruct α) : List (Msg α) :=
  let lower := values.d0
  let upper := values.d1
  let trapezoidal_area := trapezoidal_rule f lower upper
  let actual_integration := trapezoidal_actual f lower upper
  if !check_error trapezoidal_area actual_integration error then
    let midpoint := (upper + lower) / 2
    let values1 : fStruct α := { values with d0 := lower, d1 := midpoint }
    let values2 : fStruct α := { values1 with d0 := midpoint, d1 := upper }
    [⟨1, values1⟩, ⟨1, values2⟩]
  else
    [⟨2, { values with d2 := trapezoidal_area }⟩]

/-- Line 189: the worker announces itself with tag 0 and `{0,0,0}`. -/
def slaveStart (s : Sys α) (i : Nat) : Option (Sys α) :=
  match s.slaves[i]? with
  | some w =>
    if w.pc = SlavePc.start then
      some (s.setSlave i { w with pc := SlavePc.serving, outbox := w.outbox ++ [⟨0, ⟨0, 0, 0⟩⟩] })
    else none
  | none => none

/-- Lines 191-218, one pass of the `while(1)` loop: receive the oldest message from
rank 0; leave on tag 3, otherwise answer it. -/
def slaveServe (f : α → α) (error : α) (s : Sys α) (i : Nat) : Option (Sys α) :=
  match s.slaves[i]? with
  | some w =>
    if w.pc = SlavePc.serving then
      match w.inbox with
      | m :: rest =>
        if m.tag = 3 then
          some (s.setSlave i { w with pc := SlavePc.returned, inbox := rest })
        else
          some (s.setSlave i
            { w with inbox := rest, outbox := w.outbox ++ slaveReply f error m.values })
      | [] => none
    else none
  | none => none

/-! ## The coordinator -/

/-- `MPI_Recv` with a fixed tag: the oldest message of the channel that carries the tag. -/
def recvTag (tag : Nat) : List (Msg α) → Option (Msg α × List (Msg α))
  | [] => none
  | m :: ms =>
    if m.tag = tag then some (m, ms)
    else
      match recvTag tag ms with
      | some (m', ms') => some (m', m :: ms')
      | none => none

/-- Line 142: `MPI_Recv` from `MPI_ANY_SOURCE` with `MPI_ANY_TAG`, when the message that
arrives is the oldest one of worker `src`. Returns `status.MPI_TAG`. -/
def recvAny (s : Sys α) (src : Nat) : Option (Nat × Sys α) :=
  match s.slaves[src]? with
  | some w =>
    match w.outbox with
    | m :: rest =>
      some (m.tag, { s with
        master := { s.master with values := m.values }
        slaves := s.slaves.set src { w with outbox := rest }
        received := m :: s.received })
    | [] => none
  | none => none

/-- Line 148: `MPI_Recv` from `status.MPI_SOURCE` with `status.MPI_TAG`. -/
def recvFrom (s : Sys α) (src tag : Nat) : Option (Sys α) :=
  match s.slaves[src]? with
  | some w =>
    match recvTag tag w.outbox with
    | some (m, rest) =>
      some { s with
        master := { s.master with values := m.values }
        slaves := s.slaves.set src { w with outbox := rest }
        received := m :: s.received }
    | none => none
  | none => none

/-- Lines 146-147 and 149-150: `temp = values; tasks.push(temp)`. -/
def pushValues (s : Sys α) : Sys α :=
  { s with master := { s.master with tasks := s.master.values :: s.master.tasks } }

/-- Lines 157-165, the body of the dispatch loop for index `i` (rank `i + 1`). -/
def dispatchStep (s : Sys α) (i : Nat) : Sys α :=
  match s.master.tasks, s.slaves[i]? with
  | temp :: rest, some w =>
    if !(s.master.busy.getD i false) then
      { s with
        master := { s.master with
          tasks := rest, values := temp, busy := s.master.busy.set i true }
        slaves := s.slaves.set i { w with inbox := w.inbox ++ [⟨0, temp⟩] } }
    else s
  | _, _ => s

/-- Lines 156-166. -/
def dispatch (s : Sys α) : Sys α :=
  (List.range (s.numProcesses - 1)).foldl dispatchStep s

/-- Lines 168-172 on the array alone: the disjunction of `busy[0 .. numProcesses - 2]`. -/
def computeIsBusy (numProcesses : Nat) (busy : List Bool) : Bool :=
  (List.range (numProcesses - 1)).foldl
    (fun (isBusy : Bool) (i : Nat) => if isBusy || busy.getD i false then true else isBusy) false

/-- Lines 168-172. -/
def updateIsBusy (s : Sys α) : Sys α :=
  { s with master := { s.master with isBusy := computeIsBusy s.numProcesses s.master.busy } }

/-- Lines 145-151: on tag 1 push the record, receive the second leg from the same
source with the same tag, push it too. `none` when that leg is not there to receive. -/
def recvSplit (s : Sys α) (src tag : Nat) : Option (Sys α) :=
  if tag = 1 then
    match recvFrom (pushValues s) src tag with
    | some s' => some (pushValues s')
    | none => none
  else some s

/-- Lines 152-154: on tag 2, `result += values[2]`. -/
def addDone (s : Sys α) (tag : Nat) : Sys α :=
  if tag = 2 then
    { s with master := { s.master with result := s.master.result + s.master.values.d2 } }
  else s

/-- Lines 142-172: one pass of the `while` loop, when the message received at line 142
comes from worker `src`. `none` when no message of `src` is there to receive. -/
def masterIter (s : Sys α) (src : Nat) : Option (Sys α) :=
  match recvAny s src with
  | none => none
  | some (tag, s1) =>
    let s2 : Sys α := { s1 with master := { s1.master with busy := s1.master.busy.set src false } }
    match recvSplit s2 src tag with
    | none => none
    | some s3 =>
      some (updateIsBusy (dispatch (addDone s3 tag)))

/-- The loop test of line 141. -/
def loopCond (m : MasterState α) : Bool :=
  decide (m.tasks.length > 0) || m.isBusy

/-- Line 175 for index `i`. -/
def terminateStep (s : Sys α) (i : Nat) : Sys α :=
  match s.slaves[i]? with
  | some w => s.setSlave i { w with inbox := w.inbox ++ [⟨3, s.master.values⟩] }
  | none => s

/-- Lines 174-178: after the loop. -/
def masterExit (s : Sys α) : Sys α :=
  let s' := (List.range (s.numProcesses - 1)).foldl terminateStep s
  { s' with master := { s'.master with pc := MasterPc.returned } }

/-! ## The system -/

/-- The moves of the system. -/
inductive Action where
  | slaveStart (i : Nat)
  | slaveServe (i : Nat)
  | masterRecv (src : Nat)
  | masterExit
deriving DecidableEq, Repr

/-- One move; `none` when the move is not possible in the state. -/
def step (f : α → α) (error : α) (s : Sys α) : Action → Option (Sys α)
  | Action.slaveStart i => slaveStart s i
  | Action.slaveServe i => slaveServe f error s i
  | Action.masterRecv src =>
    if s.master.pc = MasterPc.loop ∧ loopCond s.master = true then masterIter s src else none
  | Action.masterExit =>
    if s.master.pc = MasterPc.loop ∧ loopCond s.master = false then some (masterExit s) else none

/-- A schedule, run from a state. -/
def exec (f : α → α) (error : α) : Sys α → List Action → Option (Sys α)
  | s, [] => some s
  | s, a :: rest =>
    match step f error s a with
    | some s' => exec f error s' rest
    | none => none

/-- The state when `master` reaches line 141 for the first time and no worker has run
yet. `bool busy[numProcesses - 1]` (line 138) has no initialiser: `busy0 i` is what
cell `i` holds. -/
def init (lower upper : α) (numProcesses : Nat) (busy0 : Nat → Bool) : Sys α :=
  { master :=
      { values := ⟨lower, upper, 0⟩
        result := 0
        tasks := [⟨lower, upper, 0⟩]
        busy := (List.range (numProcesses - 1)).map busy0
        isBusy := false
        pc := MasterPc.loop }
    slaves := List.replicate (numProcesses - 1) ⟨SlavePc.start, [], []⟩
    received := [] }

/-- The states of the runs of the program. -/
def Reachable (f : α → α) (error lower upper : α) (numProcesses : Nat) (busy0 : Nat → Bool)
    (s : Sys α) : Prop :=
  ∃ sched : List Action, exec f error (init lower upper numProcesses busy0) sched = some s

/-! ## What the claims observe in a state -/

/-- The interval `[data[0], data[1]]` of a task on the stack. -/
def fStruct.iv (t : fStruct α) : α × α := (t.d0, t.d1)

/-- The interval `[values[0], values[1]]` a message carries. -/
def Msg.iv (m : Msg α) : α × α := (m.values.d0, m.values.d1)

/-- The tasks sent to a worker that it has not yet received: every message of its inbox
that `slave` does not take for TERMINATE. -/
def SlaveState.assigned (w : SlaveState α) : List (Msg α) :=
  w.inbox.filter (fun m => m.tag != 3)

/-- The SPLIT legs and DONE replies of a worker that rank 0 has not yet received. -/
def SlaveState.replies (w : SlaveState α) : List (Msg α) :=
  w.outbox.filter (fun m => m.tag == 1 || m.tag == 2)

/-- The intervals a worker is answerable for: its undelivered tasks and its replies in
transit. -/
def SlaveState.intervals (w : SlaveState α) : List (α × α) :=
  w.assigned.map Msg.iv ++ w.replies.map Msg.iv

/-- The DONE messages rank 0 has received. -/
def Sys.accepted (s : Sys α) : List (Msg α) :=
  s.received.filter (fun m => m.tag == 2)

/-- Every interval of the system: the task stack, then the workers, then the accepted
leaves. -/
def Sys.intervals (s : Sys α) : List (α × α) :=
  s.master.tasks.map fStruct.iv ++ (s.slaves.map SlaveState.intervals).flatten
    ++ s.accepted.map Msg.iv

/-- The list is `[x0,x1], [x1,x2], ..., [x(k-1),xk]` with `x0 = a` and `xk = b`. -/
def IsChain : α → α → List (α × α) → Prop
  | a, b, [] => a = b
  | a, b, p :: rest => p.1 = a ∧ IsChain p.2 b rest

/-- The number of tasks sent to a worker whose answer rank 0 has not yet received: tasks
not yet taken by the worker, DONE replies in transit, and pairs of SPLIT legs in
transit. -/
def SlaveState.outstanding (w : SlaveState α) : Nat :=
  w.assigned.length + (w.outbox.filter (fun m => m.tag == 2)).length
    + (w.outbox.filter (fun m => m.tag == 1)).length / 2

/-- No task and no reply is in flight anywhere. -/
def Sys.Quiet (s : Sys α) : Prop :=
  ∀ w ∈ s.slaves, w.assigned = [] ∧ w.replies = []

/-- The loop test of line 141 has just failed: `master` leaves the `while` loop. -/
def Sys.LoopExits (s : Sys α) : Prop :=
  s.master.pc = MasterPc.loop ∧ loopCond s.master = false

/-! ## Multisets of intervals and invariants of the runs -/

/-- The multiset of intervals of a worker. -/
def SlaveState.M (w : SlaveState α) : Multiset (α × α) := Multiset.ofList w.intervals

/-- The multiset of intervals of the workers. -/
def slavesM (ws : List (SlaveState α)) : Multiset (α × α) := (ws.map SlaveState.M).sum

/-- The multiset of intervals of the system. -/
def Sys.M (s : Sys α) : Multiset (α × α) :=
  Multiset.ofList (s.master.tasks.map fStruct.iv) + slavesM s.slaves
    + Multiset.ofList (s.accepted.map Msg.iv)

/-- The intervals of the tasks in an inbox. -/
def inM (l : List (Msg α)) : Multiset (α × α) :=
  Multiset.ofList ((l.filter (fun m => m.tag != 3)).map Msg.iv)

/-- The intervals of the replies in an outbox. -/
def outM (l : List (Msg α)) : Multiset (α × α) :=
  Multiset.ofList ((l.filter (fun m => m.tag == 1 || m.tag == 2)).map Msg.iv)

/-- A move of the system either keeps the multiset of intervals or replaces one interval
by its two halves. -/
def Bisects (M M' : Multiset (α × α)) : Prop :=
  M' = M ∨ ∃ l u : α, (l, u) ∈ M ∧
    M' + {(l, u)} = M + {(l, (u + l) / 2)} + {((u + l) / 2, u)}

/-- The state after lines 142-143 when the message `m` of worker `src` is received and
`rest` stays in its channel. -/
def recvState (s : Sys α) (src : Nat) (w : SlaveState α) (m : Msg α) (rest : List (Msg α)) :
    Sys α :=
  { master := { s.master with values := m.values, busy := s.master.busy.set src false }
    slaves := s.slaves.set src ⟨w.pc, w.inbox, rest⟩
    received := m :: s.received }

/-- The state after lines 142-151 when the two legs `m`, `m2` of a split are received. -/
def splitState (s : Sys α) (src : Nat) (w : SlaveState α) (m m2 : Msg α)
    (rest2 : List (Msg α)) : Sys α :=
  { master := { s.master with
      values := m2.values, busy := s.master.busy.set src false
      tasks := m2.values :: m.values :: s.master.tasks }
    slaves := s.slaves.set src ⟨w.pc, w.inbox, rest2⟩
    received := m2 :: m :: s.received }

/-- A multiset of intervals can be laid out as a chain from `a` to `b`. -/
def Covers (a b : α) (M : Multiset (α × α)) : Prop :=
  ∃ c : List (α × α), Multiset.ofList c = M ∧ IsChain a b c

/-- Every DONE reply in transit carries `trapezoidal_rule` of the interval it carries. -/
def DoneOK (f : α → α) (ws : List (SlaveState α)) : Prop :=
  ∀ w ∈ ws, ∀ m ∈ w.outbox, m.tag = 2 →
    m.values.d2 = trapezoidal_rule f m.values.d0 m.values.d1

instance (s : Sys α) : Decidable s.Quiet := by
  unfold Sys.Quiet
  infer_instance

instance (s : Sys α) : Decidable s.LoopExits := by
  unfold Sys.LoopExits
  infer_instance

/-- How the flag `busy[i]` and the state of worker `i` go together in a run in which every
cell of `busy` is `true` at first: a cleared flag belongs to an idle worker with empty
channels; a set flag to a worker that has not announced itself, whose READY is in
transit, that holds one undelivered task, or whose one reply (a DONE or two SPLIT legs)
is in transit. -/
def Tracked (b : Bool) (w : SlaveState α) : Prop :=
  (b = false ∧ w.pc = SlavePc.serving ∧ w.inbox = [] ∧ w.outbox = []) ∨
  (b = true ∧
    ((w.pc = SlavePc.start ∧ w.inbox = [] ∧ w.outbox = []) ∨
     (w.pc = SlavePc.serving ∧ w.inbox = [] ∧ ∃ v, w.outbox = [⟨0, v⟩]) ∨
     (w.pc = SlavePc.serving ∧ w.outbox = [] ∧ ∃ v, w.inbox = [⟨0, v⟩]) ∨
     (w.pc = SlavePc.serving ∧ w.inbox = [] ∧ ∃ v, w.outbox = [⟨2, v⟩]) ∨
     (w.pc = SlavePc.serving ∧ w.inbox = [] ∧ ∃ v v', w.outbox = [⟨1, v⟩, ⟨1, v'⟩])))

/-- The invariant of the runs in which every cell of `busy` is `true` at first. -/
def BusyInv (s : Sys α) : Prop :=
  (s.master.pc = MasterPc.loop →
    List.Forall₂ Tracked s.master.busy s.slaves ∧
    (loopCond s.master = false →
      s.master.isBusy = computeIsBusy s.numProcesses s.master.busy)) ∧
  (s.master.pc = MasterPc.returned →
    ∀ w ∈ s.slaves, w.pc ≠ SlavePc.start ∧ w.assigned = [] ∧ w.outbox = [])

/-- The number of TERMINATE messages (tag 3) sent to a worker so far: those still in its
inbox, and the one it has received if it has left its loop. -/
def SlaveState.terminates (w : SlaveState α) : Nat :=
  (w.inbox.filter (fun m => m.tag == 3)).length + (if w.pc = SlavePc.returned then 1 else 0)

/-- The worker after one TERMINATE carrying `v` has been sent to it (line 175). -/
def SlaveState.addTerminate (v : fStruct α) (w : SlaveState α) : SlaveState α :=
  ⟨w.pc, w.inbox ++ [⟨3, v⟩], w.outbox⟩

/-- The dispatch step as the specification words it: the workers are visited in
increasing index order; a worker whose flag is `false` is sent the task on top of the
stack, which is popped, and its flag is set; a worker whose flag is `true`, or that is
reached when the stack is empty, is left alone. Returns the stack, the flags, the workers
and the record last sent (`values`). -/
def dispatchSpec : List (SlaveState α) → List Bool → List (fStruct α) → fStruct α →
    List (fStruct α) × List Bool × List (SlaveState α) × fStruct α
  | w :: ws, b :: bs, tasks, values =>
    match tasks, b with
    | t :: rest, false =>
      let r := dispatchSpec ws bs rest t
      (r.1, true :: r.2.1, ⟨w.pc, w.inbox ++ [⟨0, t⟩], w.outbox⟩ :: r.2.2.1, r.2.2.2)
    | _, _ =>
      let r := dispatchSpec ws bs tasks values
      (r.1, b :: r.2.1, w :: r.2.2.1, r.2.2.2)
  | ws, bs, tasks, values => (tasks, bs, ws, values)

/-- The messages appended to the inboxes between two lists of workers, in the order of
the workers. -/
def newMessages : List (SlaveState α) → List (SlaveState α) → List (Msg α)
  | w :: ws, w' :: ws' => w'.inbox.drop w.inbox.length ++ newMessages ws ws'
  | _, _ => []

/-! ## `main` -/

/-- What `main` does, in order: the MPI calls, the messages written to standard output,
the parsing of an argument, the calls of `master` and `slave`, and how it ends. -/
inductive MainEvent (α : Type) where
  /-- Line 234, `MPI_Init`. -/
  | mpiInit
  /-- Line 235, `MPI_Comm_size`. -/
  | commSize
  /-- Line 236, `MPI_Comm_rank`. -/
  | commRank
  /-- Lines 240-242, the three lines of the usage message. -/
  | printUsage
  /-- Line 248, the message that two or more nodes are needed. -/
  | printNodes
  /-- Lines 243, 249 and 281, `MPI_Finalize`. -/
  | mpiFinalize
  /-- Lines 244 and 250, `exit(code)`. -/
  | exit (code : Int)
  /-- Lines 254 and 267, `MPI_Wtime`. -/
  | wtime
  /-- Lines 256-258, `stof(argv[i])`. -/
  | stof (i : Nat)
  /-- Line 261, the call of `master`. -/
  | master (lower upper error : α) (numProcesses myProcessID : Int)
  /-- Line 263, the call of `slave`. -/
  | slave (myProcessID : Int) (error : α)
  /-- Lines 269-278, the formatted report. -/
  | printReport
  /-- Line 282, `return(0)`. -/
  | ret (code : Int)
deriving DecidableEq, Repr

/-- Lines 231-283. `argc` is the argument count after `MPI_Init`, `numProc` and `myProcID`
are what `MPI_Comm_size` and `MPI_Comm_rank` store, `argv i` is the value `stof` gives
for `argv[i]`. -/
def main (argc numProc myProcID : Int) (argv : Nat → α) : List (MainEvent α) :=
  [MainEvent.mpiInit, MainEvent.commSize, MainEvent.commRank] ++
  if argc < 4 then
    [MainEvent.printUsage, MainEvent.mpiFinalize, MainEvent.exit 1]
  else if numProc < 2 then
    [MainEvent.printNodes, MainEvent.mpiFinalize, MainEvent.exit 1]
  else
    [MainEvent.wtime, MainEvent.stof 1, MainEvent.stof 2, MainEvent.stof 3] ++
    (if myProcID = 0 then [MainEvent.master (argv 1) (argv 2) (argv 3) numProc myProcID]
      else [MainEvent.slave myProcID (argv 3)]) ++
    (if myProcID = 0 then [MainEvent.wtime, MainEvent.printReport] else []) ++
    [MainEvent.mpiFinalize, MainEvent.ret 0]

/-- The exit code of the process: the argument of the `exit` or `return` that ends it. -/
def exitCode (trace : List (MainEvent α)) : Option Int :=
  match trace.getLast? with
  | some (MainEvent.exit code) => some code
  | some (MainEvent.ret code) => some code
  | _ => none

/-- The event is a call of `master` or of `slave`. -/
def MainEvent.isCall : MainEvent α → Bool
  | MainEvent.master _ _ _ _ _ => true
  | MainEvent.slave _ _ => true
  | _ => false

/-- The event parses an argument. -/
def MainEvent.isParse : MainEvent α → Bool
  | MainEvent.stof _ => true
  | _ => false

/-! ## Runs with one worker -/

/-- One worker, in the loop: the worker has been sent `t` and has not yet received it, the
stack holds `ts`, the accumulator `r`. -/
def holdingState (values t : fStruct α) (ts : List (fStruct α)) (r : α)
    (received : List (Msg α)) : Sys α :=
  Sys.mk ⟨values, r, ts, [true], true, MasterPc.loop⟩
    [⟨SlavePc.serving, [⟨0, t⟩], []⟩] received

/-- One worker, in the loop: the worker is idle and its flag cleared, the stack is empty,
the accumulator holds `r`. -/
def idleState (values : fStruct α) (r : α) (received : List (Msg α)) : Sys α :=
  Sys.mk ⟨values, r, [], [false], false, MasterPc.loop⟩
    [⟨SlavePc.serving, [], []⟩] received

/-- The state after the task in hand has been resolved completely: the next task of the
stack is in the worker's hands, or nothing is left. -/
def afterState (values : fStruct α) (ts : List (fStruct α)) (r : α)
    (received : List (Msg α)) : Sys α :=
  match ts with
  | [] => idleState values r received
  | t :: rest => holdingState t t rest r received

/-! ## The numerical kernel over `float` values: infinities and NaN

Above, `float` and `double` are an ordered field, in which every value is a number. The
C++ types also hold the two infinities and NaN, and `check_error` meets them. In this
section a finite value is the rational number it stands for; an arithmetic result whose
magnitude is out of the range of its format is an infinity; `inf - inf` and `0 * inf` are
NaN; an operation with a NaN operand gives NaN; a comparison with a NaN operand is false.
The rounding of a finite result inside the range of the format is not modelled. -/

/-- A value of type `float` or `double`: a finite number, `+inf` (`negative = false`),
`-inf` (`negative = true`), or NaN. -/
inductive FValue where
  | fin (x : ℚ)
  | inf (negative : Bool)
  | nan
deriving DecidableEq

/-- The least magnitude that rounds to an infinity in `float` (binary32, round to
nearest): `FLT_MAX` plus half a unit in its last place. -/
def floatRange : ℚ := ((2 ^ 128 - 2 ^ 103 : Nat) : ℚ)

/-- The least magnitude that rounds to an infinity in `double` (binary64). -/
def doubleRange : ℚ := ((2 ^ 1024 - 2 ^ 970 : Nat) : ℚ)

/-- The value of a format for an exact result `x`: an infinity when `x` is out of range. -/
def FValue.ofRat (range x : ℚ) : FValue :=
  if range ≤ x then FValue.inf false
  else if x ≤ -range then FValue.inf true
  else FValue.fin x

/-- Conversion to a format of range `range` (the `double` to `float` conversion of a
`return`). -/
def FValue.conv (range : ℚ) : FValue → FValue
  | FValue.fin x => FValue.ofRat range x
  | FValue.inf n => FValue.inf n
  | FValue.nan => FValue.nan

/-- Unary minus. -/
def FValue.neg : FValue → FValue
  | FValue.fin x => FValue.fin (-x)
  | FValue.inf n => FValue.inf (!n)
  | FValue.nan => FValue.nan

/-- Addition in a format of range `range`; `inf + (-inf)` is NaN. -/
def FValue.add (range : ℚ) : FValue → FValue → FValue
  | FValue.fin x, FValue.fin y => FValue.ofRat range (x + y)
  | FValue.fin _, FValue.inf m => FValue.inf m
  | FValue.inf n, FValue.fin _ => FValue.inf n
  | FValue.inf n, FValue.inf m => if n = m then FValue.inf n else FValue.nan
  | FValue.nan, _ => FValue.nan
  | _, FValue.nan => FValue.nan

/-- Subtraction: `x - y` is `x + (-y)`. -/
def FValue.sub (range : ℚ) (x y : FValue) : FValue :=
  FValue.add range x (FValue.neg y)

/-- Multiplication in a format of range `range`; `0 * inf` is NaN. -/
def FValue.mul (range : ℚ) : FValue → FValue → FValue
  | FValue.fin x, FValue.fin y => FValue.ofRat range (x * y)
  | FValue.fin x, FValue.inf m =>
    if x = 0 then FValue.nan else FValue.inf (if x < 0 then !m else m)
  | FValue.inf n, FValue.fin y =>
    if y = 0 then FValue.nan else FValue.inf (if y < 0 then !n else n)
  | FValue.inf n, FValue.inf m => FValue.inf (n != m)
  | FValue.nan, _ => FValue.nan
  | _, FValue.nan => FValue.nan

/-- Division by the integer constant `n` of the source (`1000` and `2`), `n > 0`. -/
def FValue.divNat (range : ℚ) (x : FValue) (n : Nat) : FValue :=
  match x with
  | FValue.fin q => FValue.ofRat range (q / (n : ℚ))
  | FValue.inf s => FValue.inf s
  | FValue.nan => FValue.nan

/-- The function `fabs`. -/
def FValue.abs : FValue → FValue
  | FValue.fin x => FValue.fin |x|
  | FValue.inf _ => FValue.inf false
  | FValue.nan => FValue.nan

/-- The comparison `x > y`; false when an operand is NaN. -/
def FValue.gt : FValue → FValue → Bool
  | FValue.fin x, FValue.fin y => decide (y < x)
  | FValue.fin _, FValue.inf m => m
  | FValue.inf n, FValue.fin _ => !n
  | FValue.inf n, FValue.inf m => !n && m
  | FValue.nan, _ => false
  | _, FValue.nan => false

namespace IEEE

/-- Lines 54-64 over `float`: every operation is a `float` operation (`interval`, `i`
and `2` are converted to `float`). -/
def trapezoidal_actual (f : FValue → FValue) (lower_bound upper_bound : FValue) : FValue :=
  let grid := FValue.divNat floatRange (FValue.sub floatRange upper_bound lower_bound) interval
  let s := FValue.add floatRange (f lower_bound) (f upper_bound)
  let s := (List.range' 1 (interval - 1)).foldl
    (fun (s : FValue) (i : Nat) => FValue.add floatRange s
      (FValue.mul floatRange (FValue.fin 2)
        (f (FValue.add floatRange lower_bound (FValue.mul floatRange (FValue.fin (i : ℚ)) grid))))) s
  FValue.mul floatRange (FValue.divNat floatRange grid 2) s

/-- Lines 74-76 over `float`: `b - a` and `function(a) + function(b)` are `float`
operations, the two products with the `double` constant `0.5` are `double` operations,
and the `return` converts to `float`. -/
def trapezoidal_rule (f : FValue → FValue) (a b : FValue) : FValue :=
  FValue.conv floatRange
    (FValue.mul doubleRange
      (FValue.mul doubleRange (FValue.fin (1 / 2)) (FValue.sub floatRange b a))
      (FValue.add floatRange (f a) (f b)))

/-- Lines 90-95 over `float`: when `actual - calculated` is NaN the test of line 91 is
false and the `else` branch returns `true`. -/
def check_error (calculated actual error : FValue) : Bool :=
  if FValue.gt (FValue.abs (FValue.sub floatRange actual calculated)) error = true then false
  else true

/-- Lines 105-122 over `float`; the first argument bounds the recursion depth. -/
def adaptive_quadrature (f : FValue → FValue) : Nat → FValue → FValue → FValue → Option FValue
  | 0, _, _, _ => none
  | fuel + 1, lower, upper, error =>
    let trapezoidal_area := trapezoidal_rule f lower upper
    let actual_integration := trapezoidal_actual f lower upper
    let aqi_integration : FValue := FValue.fin 0
    if !check_error trapezoidal_area actual_integration error then
      let midpoint := FValue.divNat floatRange (FValue.add floatRange upper lower) 2
      match adaptive_quadrature f fuel lower midpoint error with
      | none => none
      | some left =>
        match adaptive_quadrature f fuel midpoint upper error with
        | none => none
        | some right =>
          some (FValue.add floatRange (FValue.add floatRange aqi_integration left) right)
    else
      some (FValue.add floatRange aqi_integration trapezoidal_area)

/-- Lines 198-216 over `float`: the messages a worker sends for a received record. -/
def slaveReply (f : FValue → FValue) (error : FValue) (values : fStruct FValue) :
    List (Msg FValue) :=
  let lower := values.d0
  let upper := values.d1
  let trapezoidal_area := trapezoidal_rule f lower upper
  let actual_integration := trapezoidal_actual f lower upper
  if !check_error trapezoidal_area actual_integration error then
    let midpoint := FValue.divNat floatRange (FValue.add floatRange upper lower) 2
    let values1 : fStruct FValue := { values with d0 := lower, d1 := midpoint }
    let values2 : fStruct FValue := { values1 with d0 := midpoint, d1 := upper }
    [⟨1, values1⟩, ⟨1, values2⟩]
  else
    [⟨2, { values with d2 := trapezoidal_area }⟩]

end IEEE

set_option linter.unusedSectionVars false

/-! ## The numerical kernel -/

theorem foldl_add_const (d : α) (l : List Nat) (s0 : α) :
    l.foldl (fun (s : α) (_ : Nat) => s + d) s0 = s0 + (l.length : α) * d := by
  induction l generalizing s0 with
  | nil => simp
  | cons x xs ih => simp [List.foldl_cons, ih]; ring

theorem trapezoidal_rule_const (c a b : α) :
    trapezoidal_rule (fun _ => c) a b = c * (b - a) := by
  unfold trapezoidal_rule
  norm_num
  ring

theorem trapezoidal_actual_const (c a b : α) :
    trapezoidal_actual (fun _ => c) a b = c * (b - a) := by
  unfold trapezoidal_actual
  simp only [foldl_add_const, List.length_range', interval]
  norm_num
  ring

theorem check_error_eq_true_iff (calculated actual error : α) :
    check_error calculated actual error = true ↔ |actual - calculated| ≤ error := by
  unfold check_error
  split <;> simp_all [not_le, not_lt]

theorem check_error_eq_false_iff (calculated actual error : α) :
    check_error calculated actual error = false ↔ error < |actual - calculated| := by
  unfold check_error
  split <;> simp_all [not_le, not_lt]

theorem check_error_of_neg (calculated actual : α) {error : α} (h : error < 0) :
    check_error calculated actual error = false :=
  (check_error_eq_false_iff _ _ _).2 (lt_of_lt_of_le h (abs_nonneg _))

theorem check_error_mono (calculated actual : α) {e1 e2 : α} (h : e2 ≤ e1)
    (h1 : check_error calculated actual e1 = false) : check_error calculated actual e2 = false :=
  (check_error_eq_false_iff _ _ _).2 (lt_of_le_of_lt h ((check_error_eq_false_iff _ _ _).1 h1))

theorem aqTrace_succ_split (f : α → α) (n : Nat) (l u e : α)
    (h : check_error (trapezoidal_rule f l u) (trapezoidal_actual f l u) e = false) :
    aqTrace f (n + 1) l u e =
      match aqTrace f n l ((u + l) / 2) e with
      | none => none
      | some left =>
        match aqTrace f n ((u + l) / 2) u e with
        | none => none
        | some right => some (left.1 ++ right.1, (l, u) :: (left.2 ++ right.2)) := by
  simp [aqTrace, h]

theorem aqTrace_succ_accept (f : α → α) (n : Nat) (l u e : α)
    (h : check_error (trapezoidal_rule f l u) (trapezoidal_actual f l u) e = true) :
    aqTrace f (n + 1) l u e = some ([(l, u)], []) := by
  simp [aqTrace, h]

theorem aqTrace_split_inv (f : α → α) (n : Nat) (l u e : α) (t : List (α × α) × List (α × α))
    (h : check_error (trapezoidal_rule f l u) (trapezoidal_actual f l u) e = false)
    (ht : aqTrace f (n + 1) l u e = some t) :
    ∃ left right, aqTrace f n l ((u + l) / 2) e = some left ∧
      aqTrace f n ((u + l) / 2) u e = some right ∧
      t = (left.1 ++ right.1, (l, u) :: (left.2 ++ right.2)) := by
  rw [aqTrace_succ_split f n l u e h] at ht
  cases hl : aqTrace f n l ((u + l) / 2) e with
  | none => simp [hl] at ht
  | some left =>
    cases hr : aqTrace f n ((u + l) / 2) u e with
    | none => simp [hl, hr] at ht
    | some right =>
      simp [hl, hr] at ht
      exact ⟨left, right, rfl, rfl, ht.symm⟩

theorem aqTrace_leaves_pos (f : α → α) (n : Nat) (l u e : α) (t : List (α × α) × List (α × α))
    (ht : aqTrace f n l u e = some t) : 1 ≤ t.1.length := by
  induction n generalizing l u t with
  | zero => simp [aqTrace] at ht
  | succ n ih =>
    cases h : check_error (trapezoidal_rule f l u) (trapezoidal_actual f l u) e with
    | true =>
      rw [aqTrace_succ_accept f n l u e h] at ht
      cases ht
      simp
    | false =>
      obtain ⟨left, right, hl, _, rfl⟩ := aqTrace_split_inv f n l u e t h ht
      have := ih _ _ _ hl
      simp only [List.length_append]
      omega

theorem aqTrace_mono (f : α → α) (l u e1 e2 : α) (n1 n2 : Nat)
    (t1 t2 : List (α × α) × List (α × α)) (he : e2 ≤ e1)
    (h1 : aqTrace f n1 l u e1 = some t1) (h2 : aqTrace f n2 l u e2 = some t2) :
    t1.1.length ≤ t2.1.length ∧ ∀ p ∈ t1.2, p ∈ t2.2 := by
  induction n1 generalizing n2 l u t1 t2 with
  | zero => simp [aqTrace] at h1
  | succ n1 ih =>
    cases n2 with
    | zero => simp [aqTrace] at h2
    | succ n2 =>
      cases c1 : check_error (trapezoidal_rule f l u) (trapezoidal_actual f l u) e1 with
      | true =>
        rw [aqTrace_succ_accept f n1 l u e1 c1] at h1
        cases h1
        exact ⟨aqTrace_leaves_pos f _ l u e2 t2 h2, by simp⟩
      | false =>
        have c2 := check_error_mono _ _ he c1
        obtain ⟨a1, b1, ha1, hb1, rfl⟩ := aqTrace_split_inv f n1 l u e1 t1 c1 h1
        obtain ⟨a2, b2, ha2, hb2, rfl⟩ := aqTrace_split_inv f n2 l u e2 t2 c2 h2
        obtain ⟨hla, hsa⟩ := ih _ _ _ _ _ ha1 ha2
        obtain ⟨hlb, hsb⟩ := ih _ _ _ _ _ hb1 hb2
        refine ⟨by simp only [List.length_append]; omega, ?_⟩
        intro p hp
        simp only [List.mem_cons, List.mem_append] at hp ⊢
        rcases hp with hp | hp | hp
        · exact Or.inl hp
        · exact Or.inr (Or.inl (hsa p hp))
        · exact Or.inr (Or.inr (hsb p hp))

theorem adaptive_quadrature_eq_aqTrace (f : α → α) (n : Nat) (l u e : α) :
    adaptive_quadrature f n l u e =
      (aqTrace f n l u e).map (fun t => (t.1.map (fun p => trapezoidal_rule f p.1 p.2)).sum) := by
  induction n generalizing l u with
  | zero => simp [adaptive_quadrature, aqTrace]
  | succ n ih =>
    cases h : check_error (trapezoidal_rule f l u) (trapezoidal_actual f l u) e with
    | true => simp [adaptive_quadrature, aqTrace, h]
    | false =>
      simp only [adaptive_quadrature, aqTrace, h, ih]
      cases aqTrace f n l ((u + l) / 2) e with
      | none => simp
      | some left =>
        cases aqTrace f n ((u + l) / 2) u e with
        | none => simp
        | some right => simp [List.sum_append]

/-! ## Lists and multisets -/

theorem sum_map_set {β M : Type} [AddCommMonoid M] (g : β → M) (ws : List β) (i : Nat)
    (w w' : β) (h : ws[i]? = some w) :
    ((ws.set i w').map g).sum + g w = (ws.map g).sum + g w' := by
  induction ws generalizing i with
  | nil => simp at h
  | cons x xs ih =>
    cases i with
    | zero =>
      simp at h
      subst h
      simp [add_comm, add_left_comm]
    | succ i =>
      simp at h
      have := ih i h
      simp only [List.set_cons_succ, List.map_cons, List.sum_cons, add_assoc, this]

theorem sum_map_set_eq {β M : Type} [AddCancelCommMonoid M] (g : β → M) (ws : List β) (i : Nat)
    (w w' : β) (h : ws[i]? = some w) (hg : g w' = g w) :
    ((ws.set i w').map g).sum = (ws.map g).sum := by
  have := sum_map_set g ws i w w' h
  rw [hg] at this
  exact add_right_cancel this

theorem coe_flatten {β : Type} (ls : List (List β)) :
    Multiset.ofList ls.flatten = (ls.map Multiset.ofList).sum := by
  induction ls with
  | nil => simp
  | cons l ls ih => simp [← ih]

theorem coe_intervals (s : Sys α) : Multiset.ofList s.intervals = s.M := by
  simp only [Sys.intervals, Sys.M, slavesM, ← Multiset.coe_add, coe_flatten, List.map_map]
  rfl

theorem slavesM_set (ws : List (SlaveState α)) (i : Nat) (w w' : SlaveState α)
    (h : ws[i]? = some w) : slavesM (ws.set i w') + w.M = slavesM ws + w'.M :=
  sum_map_set SlaveState.M ws i w w' h

theorem slavesM_set_eq (ws : List (SlaveState α)) (i : Nat) (w w' : SlaveState α)
    (h : ws[i]? = some w) (hg : w'.M = w.M) : slavesM (ws.set i w') = slavesM ws :=
  sum_map_set_eq SlaveState.M ws i w w' h hg

/-! ## Effect of the worker moves on the intervals -/

theorem SlaveState.M_eq (w : SlaveState α) : w.M = inM w.inbox + outM w.outbox := by
  simp [SlaveState.M, SlaveState.intervals, SlaveState.assigned, SlaveState.replies, inM, outM]

theorem SlaveState.M_mk (pc : SlavePc) (i o : List (Msg α)) :
    (⟨pc, i, o⟩ : SlaveState α).M = inM i + outM o := SlaveState.M_eq _

theorem inM_nil : inM ([] : List (Msg α)) = 0 := rfl

theorem outM_nil : outM ([] : List (Msg α)) = 0 := rfl

theorem inM_append (l l' : List (Msg α)) : inM (l ++ l') = inM l + inM l' := by
  simp [inM]

theorem outM_append (l l' : List (Msg α)) : outM (l ++ l') = outM l + outM l' := by
  simp [outM]

theorem inM_cons (m : Msg α) (l : List (Msg α)) :
    inM (m :: l) = (if m.tag = 3 then 0 else {m.iv}) + inM l := by
  by_cases h : m.tag = 3 <;> simp [inM, h, ← Multiset.cons_coe]

theorem outM_cons (m : Msg α) (l : List (Msg α)) :
    outM (m :: l) = (if m.tag = 1 ∨ m.tag = 2 then {m.iv} else 0) + outM l := by
  by_cases h : m.tag = 1 ∨ m.tag = 2
  · rw [if_pos h]
    have : (m.tag == 1 || m.tag == 2) = true := by simpa using h
    simp [outM, List.filter_cons, this, ← Multiset.cons_coe]
  · rw [if_neg h]
    have : (m.tag == 1 || m.tag == 2) = false := by simpa using h
    simp [outM, List.filter_cons, this]

theorem mem_slavesM (ws : List (SlaveState α)) (i : Nat) (w : SlaveState α)
    (h : ws[i]? = some w) (p : α × α) (hp : p ∈ w.M) : p ∈ slavesM ws := by
  induction ws generalizing i with
  | nil => simp at h
  | cons x xs ih =>
    cases i with
    | zero =>
      simp at h
      subst h
      simp [slavesM, hp]
    | succ i =>
      simp at h
      have := ih i h
      simp only [slavesM, List.map_cons, List.sum_cons, Multiset.mem_add] at this ⊢
      exact Or.inr this

theorem Sys.M_setSlave (s : Sys α) (i : Nat) (w : SlaveState α) :
    (s.setSlave i w).M =
      Multiset.ofList (s.master.tasks.map fStruct.iv) + slavesM (s.slaves.set i w)
        + Multiset.ofList (s.accepted.map Msg.iv) := rfl

theorem slaveStart_spec (s s' : Sys α) (i : Nat) (h : slaveStart s i = some s') :
    ∃ w, s.slaves[i]? = some w ∧ w.pc = SlavePc.start ∧
      s' = s.setSlave i ⟨SlavePc.serving, w.inbox, w.outbox ++ [⟨0, ⟨0, 0, 0⟩⟩]⟩ := by
  unfold slaveStart at h
  cases hw : s.slaves[i]? with
  | none => simp [hw] at h
  | some w =>
    simp only [hw] at h
    by_cases hpc : w.pc = SlavePc.start
    · rw [if_pos hpc, Option.some.injEq] at h
      exact ⟨w, rfl, hpc, h.symm⟩
    · simp [hpc] at h

theorem slaveStart_M (s s' : Sys α) (i : Nat) (h : slaveStart s i = some s') : s'.M = s.M := by
  obtain ⟨w, hw, _, rfl⟩ := slaveStart_spec s s' i h
  rw [Sys.M_setSlave, slavesM_set_eq _ _ w _ hw]
  · rfl
  · simp [SlaveState.M_eq, outM_append, outM_cons, outM_nil]

theorem slaveServe_spec (f : α → α) (error : α) (s s' : Sys α) (i : Nat)
    (h : slaveServe f error s i = some s') :
    ∃ w m rest, s.slaves[i]? = some w ∧ w.pc = SlavePc.serving ∧ w.inbox = m :: rest ∧
      ((m.tag = 3 ∧
          s' = s.setSlave i ⟨SlavePc.returned, rest, w.outbox⟩)
        ∨ (m.tag ≠ 3 ∧
          s' = s.setSlave i ⟨w.pc, rest, w.outbox ++ slaveReply f error m.values⟩)) := by
  unfold slaveServe at h
  cases hw : s.slaves[i]? with
  | none => simp [hw] at h
  | some w =>
    simp only [hw] at h
    by_cases hpc : w.pc = SlavePc.serving
    · rw [if_pos hpc] at h
      cases hin : w.inbox with
      | nil => simp [hin] at h
      | cons m rest =>
        simp only [hin] at h
        by_cases ht : m.tag = 3
        · rw [if_pos ht, Option.some.injEq] at h
          exact ⟨w, m, rest, rfl, hpc, hin, Or.inl ⟨ht, h.symm⟩⟩
        · rw [if_neg ht, Option.some.injEq] at h
          exact ⟨w, m, rest, rfl, hpc, hin, Or.inr ⟨ht, h.symm⟩⟩
    · simp [hpc] at h

theorem slaveReply_eq (f : α → α) (error : α) (values : fStruct α) :
    slaveReply f error values =
      if check_error (trapezoidal_rule f values.d0 values.d1)
          (trapezoidal_actual f values.d0 values.d1) error = true then
        [⟨2, ⟨values.d0, values.d1, trapezoidal_rule f values.d0 values.d1⟩⟩]
      else
        [⟨1, ⟨values.d0, (values.d1 + values.d0) / 2, values.d2⟩⟩,
         ⟨1, ⟨(values.d1 + values.d0) / 2, values.d1, values.d2⟩⟩] := by
  unfold slaveReply
  cases h : check_error (trapezoidal_rule f values.d0 values.d1)
    (trapezoidal_actual f values.d0 values.d1) error <;> simp [h]

theorem slaveServe_M (f : α → α) (error : α) (s s' : Sys α) (i : Nat)
    (h : slaveServe f error s i = some s') : Bisects s.M s'.M := by
  obtain ⟨w, m, rest, hw, _, hin, h | h⟩ := slaveServe_spec f error s s' i h
  · obtain ⟨ht, rfl⟩ := h
    left
    rw [Sys.M_setSlave, slavesM_set_eq _ _ w _ hw]
    · rfl
    · simp [SlaveState.M_eq, hin, inM_cons, ht]
  · obtain ⟨ht, rfl⟩ := h
    have hsum := slavesM_set s.slaves i w
      ⟨w.pc, rest, w.outbox ++ slaveReply f error m.values⟩ hw
    by_cases hc : check_error (trapezoidal_rule f m.values.d0 m.values.d1)
        (trapezoidal_actual f m.values.d0 m.values.d1) error = true
    · left
      rw [Sys.M_setSlave, slavesM_set_eq _ _ w _ hw]
      · rfl
      · simp only [SlaveState.M_eq, hin, inM_cons, if_neg ht, slaveReply_eq, if_pos hc,
          outM_append, outM_cons, outM_nil, Msg.iv]
        simp only [or_true, if_true, add_zero]
        abel
    · right
      refine ⟨m.values.d0, m.values.d1, ?_, ?_⟩
      · have : (m.values.d0, m.values.d1) ∈ w.M := by
          simp [SlaveState.M_eq, hin, inM_cons, ht, Msg.iv]
        have := mem_slavesM _ _ _ hw _ this
        simp [Sys.M, this]
      · rw [Sys.M_setSlave]
        simp only [SlaveState.M_eq, hin, inM_cons, if_neg ht, slaveReply_eq, if_neg hc,
          outM_append, outM_cons, outM_nil, Msg.iv] at hsum
        simp only [true_or, if_true, add_zero] at hsum
        apply add_right_cancel (b := inM rest + outM w.outbox)
        calc Multiset.ofList (s.master.tasks.map fStruct.iv)
              + slavesM (s.slaves.set i ⟨w.pc, rest, w.outbox ++ slaveReply f error m.values⟩)
              + Multiset.ofList (s.accepted.map Msg.iv) + {(m.values.d0, m.values.d1)}
              + (inM rest + outM w.outbox)
            = Multiset.ofList (s.master.tasks.map fStruct.iv)
              + Multiset.ofList (s.accepted.map Msg.iv)
              + (slavesM (s.slaves.set i ⟨w.pc, rest, w.outbox ++ slaveReply f error m.values⟩)
                + ({(m.values.d0, m.values.d1)} + inM rest + outM w.outbox)) := by abel
          _ = Multiset.ofList (s.master.tasks.map fStruct.iv)
              + Multiset.ofList (s.accepted.map Msg.iv)
              + (slavesM s.slaves + (inM rest + (outM w.outbox
                  + ({(m.values.d0, (m.values.d1 + m.values.d0) / 2)}
                    + {((m.values.d1 + m.values.d0) / 2, m.values.d1)})))) := by
              rw [slaveReply_eq, if_neg hc, hsum]
          _ = _ := by
              simp only [Sys.M]
              abel

/-! ## The coordinator's loop body in closed form -/

theorem recvTag_spec (tag : Nat) (l : List (Msg α)) (m : Msg α) (rest : List (Msg α))
    (h : recvTag tag l = some (m, rest)) : m.tag = tag ∧ l.Perm (m :: rest) := by
  induction l generalizing rest with
  | nil => simp [recvTag] at h
  | cons x xs ih =>
    unfold recvTag at h
    by_cases hx : x.tag = tag
    · rw [if_pos hx] at h
      simp only [Option.some.injEq, Prod.mk.injEq] at h
      obtain ⟨rfl, rfl⟩ := h
      exact ⟨hx, List.Perm.refl _⟩
    · rw [if_neg hx] at h
      cases hr : recvTag tag xs with
      | none => simp [hr] at h
      | some p =>
        obtain ⟨m', ms'⟩ := p
        simp only [hr, Option.some.injEq, Prod.mk.injEq] at h
        obtain ⟨rfl, rfl⟩ := h
        obtain ⟨ht, hp⟩ := ih ms' hr
        exact ⟨ht, (List.Perm.cons x hp).trans (List.Perm.swap _ _ _)⟩

theorem getElem?_set_self_of_some {β : Type} (l : List β) (i : Nat) (a b : β)
    (h : l[i]? = some a) : (l.set i b)[i]? = some b := by
  have hi : i < l.length := by
    by_contra hc
    rw [List.getElem?_eq_none (by omega)] at h
    cases h
  simp [List.getElem?_set, hi]

theorem masterIter_spec (s s' : Sys α) (src : Nat) (h : masterIter s src = some s') :
    ∃ w m rest, s.slaves[src]? = some w ∧ w.outbox = m :: rest ∧
      ((m.tag ≠ 1 ∧ s' = updateIsBusy (dispatch (addDone (recvState s src w m rest) m.tag))) ∨
       (m.tag = 1 ∧ ∃ m2 rest2, recvTag 1 rest = some (m2, rest2) ∧
          s' = updateIsBusy (dispatch (splitState s src w m m2 rest2)))) := by
  unfold masterIter recvAny at h
  cases hw : s.slaves[src]? with
  | none => simp [hw] at h
  | some w =>
    simp only [hw] at h
    cases ho : w.outbox with
    | nil => simp [ho] at h
    | cons m rest =>
      simp only [ho] at h
      refine ⟨w, m, rest, rfl, ho, ?_⟩
      by_cases ht : m.tag = 1
      · right
        refine ⟨ht, ?_⟩
        simp only [recvSplit, ht, if_true, recvFrom, pushValues,
          getElem?_set_self_of_some _ _ _ _ hw] at h
        cases hr : recvTag 1 rest with
        | none => simp [hr] at h
        | some p =>
          obtain ⟨m2, rest2⟩ := p
          simp only [hr, Option.some.injEq] at h
          refine ⟨m2, rest2, rfl, ?_⟩
          rw [← h]
          simp [addDone, splitState, List.set_set]
      · left
        refine ⟨ht, ?_⟩
        simp only [recvSplit, ht, if_false, Option.some.injEq] at h
        rw [← h]
        rfl

/-! ## Effect of the coordinator moves on the intervals -/

theorem outM_perm (l l' : List (Msg α)) (h : l.Perm l') : outM l = outM l' := by
  unfold outM
  exact Multiset.coe_eq_coe.2 ((h.filter _).map _)

theorem Sys.M_def (s : Sys α) :
    s.M = Multiset.ofList (s.master.tasks.map fStruct.iv) + slavesM s.slaves
      + Multiset.ofList ((s.received.filter (fun m => m.tag == 2)).map Msg.iv) := rfl

theorem accM_cons (m : Msg α) (l : List (Msg α)) :
    Multiset.ofList (((m :: l).filter (fun m => m.tag == 2)).map Msg.iv) =
      (if m.tag = 2 then {m.iv} else 0)
        + Multiset.ofList ((l.filter (fun m => m.tag == 2)).map Msg.iv) := by
  by_cases h : m.tag = 2 <;> simp [List.filter_cons, h, ← Multiset.cons_coe]

theorem tasksM_cons (t : fStruct α) (l : List (fStruct α)) :
    Multiset.ofList ((t :: l).map fStruct.iv) = {t.iv} + Multiset.ofList (l.map fStruct.iv) := by
  simp [← Multiset.cons_coe]

theorem recvState_M (s : Sys α) (src : Nat) (w : SlaveState α) (m : Msg α) (rest : List (Msg α))
    (hw : s.slaves[src]? = some w) (ho : w.outbox = m :: rest) :
    (recvState s src w m rest).M + (if m.tag = 1 then {m.iv} else 0) = s.M := by
  have hsum := slavesM_set s.slaves src w ⟨w.pc, w.inbox, rest⟩ hw
  simp only [SlaveState.M_eq, ho, outM_cons] at hsum
  simp only [Sys.M_def, recvState, accM_cons]
  apply add_right_cancel (b := inM w.inbox + outM rest)
  by_cases h1 : m.tag = 1
  · have h2 : ¬ m.tag = 2 := by omega
    simp only [h1, h2, if_true, if_false, true_or, zero_add] at hsum ⊢
    calc _ = Multiset.ofList (s.master.tasks.map fStruct.iv)
            + Multiset.ofList ((s.received.filter (fun m => m.tag == 2)).map Msg.iv)
            + (slavesM (s.slaves.set src ⟨w.pc, w.inbox, rest⟩)
              + (inM w.inbox + ({m.iv} + outM rest))) := by abel
      _ = _ := by rw [hsum]; abel
  · by_cases h2 : m.tag = 2
    · simp only [h1, h2, if_true, if_false, or_true, add_zero] at hsum ⊢
      calc _ = Multiset.ofList (s.master.tasks.map fStruct.iv)
            + Multiset.ofList ((s.received.filter (fun m => m.tag == 2)).map Msg.iv)
            + (slavesM (s.slaves.set src ⟨w.pc, w.inbox, rest⟩)
              + (inM w.inbox + ({m.iv} + outM rest))) := by abel
        _ = _ := by rw [hsum]; abel
    · simp only [h1, h2, if_false, or_self, add_zero, zero_add] at hsum ⊢
      calc _ = Multiset.ofList (s.master.tasks.map fStruct.iv)
            + Multiset.ofList ((s.received.filter (fun m => m.tag == 2)).map Msg.iv)
            + (slavesM (s.slaves.set src ⟨w.pc, w.inbox, rest⟩)
              + (inM w.inbox + outM rest)) := by abel
        _ = _ := by rw [hsum]; abel

theorem splitState_M (s : Sys α) (src : Nat) (w : SlaveState α) (m m2 : Msg α)
    (rest rest2 : List (Msg α)) (hw : s.slaves[src]? = some w) (ho : w.outbox = m :: rest)
    (h1 : m.tag = 1) (hr : recvTag 1 rest = some (m2, rest2)) :
    (splitState s src w m m2 rest2).M = s.M := by
  obtain ⟨h2, hp⟩ := recvTag_spec 1 rest m2 rest2 hr
  have hsum := slavesM_set s.slaves src w ⟨w.pc, w.inbox, rest2⟩ hw
  simp only [SlaveState.M_eq, ho, outM_cons, outM_perm _ _ hp] at hsum
  have h1' : ¬ m.tag = 2 := by omega
  have h2' : ¬ m2.tag = 2 := by omega
  simp only [h1, h2, if_true, true_or] at hsum
  simp only [Sys.M_def, splitState, accM_cons, tasksM_cons, h1', h2', if_false, zero_add]
  apply add_right_cancel (b := inM w.inbox + outM rest2)
  calc _ = Multiset.ofList (s.master.tasks.map fStruct.iv)
            + Multiset.ofList ((s.received.filter (fun m => m.tag == 2)).map Msg.iv)
            + (slavesM (s.slaves.set src ⟨w.pc, w.inbox, rest2⟩)
              + (inM w.inbox + ({m.iv} + ({m2.iv} + outM rest2)))) := by
            simp only [fStruct.iv, Msg.iv]; abel
      _ = _ := by rw [hsum]; abel

theorem addDone_M (s : Sys α) (tag : Nat) : (addDone s tag).M = s.M := by
  unfold addDone
  split <;> rfl

theorem updateIsBusy_M (s : Sys α) : (updateIsBusy s).M = s.M := rfl

theorem dispatchStep_M (s : Sys α) (i : Nat) : (dispatchStep s i).M = s.M := by
  unfold dispatchStep
  split
  · rename_i temp rest w ht hw
    split
    · have hsum := slavesM_set s.slaves i w ⟨w.pc, w.inbox ++ [⟨0, temp⟩], w.outbox⟩ hw
      simp only [SlaveState.M_eq, inM_append, inM_cons, inM_nil, Msg.iv] at hsum
      simp only [Sys.M_def, ht, tasksM_cons, fStruct.iv]
      have h03 : ¬ (0 = 3) := by decide
      simp only [h03, if_false, add_zero] at hsum
      apply add_right_cancel (b := inM w.inbox + outM w.outbox)
      calc _ = Multiset.ofList (rest.map fStruct.iv)
            + Multiset.ofList ((s.received.filter (fun m => m.tag == 2)).map Msg.iv)
            + (slavesM (s.slaves.set i ⟨w.pc, w.inbox ++ [⟨0, temp⟩], w.outbox⟩)
              + (inM w.inbox + outM w.outbox)) := by abel
        _ = _ := by rw [hsum]; abel
    · rfl
  · rfl

theorem foldl_preserves {β γ : Type} (g : β → γ) (step : β → Nat → β)
    (h : ∀ s i, g (step s i) = g s) (l : List Nat) (s : β) : g (l.foldl step s) = g s := by
  induction l generalizing s with
  | nil => rfl
  | cons x xs ih => rw [List.foldl_cons, ih, h]

theorem dispatch_M (s : Sys α) : (dispatch s).M = s.M :=
  foldl_preserves Sys.M dispatchStep dispatchStep_M _ s

theorem terminateStep_M (s : Sys α) (i : Nat) : (terminateStep s i).M = s.M := by
  unfold terminateStep
  split
  · rename_i w hw
    rw [Sys.M_setSlave, slavesM_set_eq _ _ w _ hw]
    · rfl
    · simp [SlaveState.M_eq, inM_append, inM_cons, inM_nil]
  · rfl

theorem masterExit_M (s : Sys α) : (masterExit s).M = s.M := by
  unfold masterExit
  exact foldl_preserves Sys.M terminateStep terminateStep_M _ s

theorem masterIter_M (s s' : Sys α) (src : Nat) (h : masterIter s src = some s') :
    s'.M = s.M := by
  obtain ⟨w, m, rest, hw, ho, h | h⟩ := masterIter_spec s s' src h
  · obtain ⟨h1, rfl⟩ := h
    rw [updateIsBusy_M, dispatch_M, addDone_M]
    have := recvState_M s src w m rest hw ho
    rwa [if_neg h1, add_zero] at this
  · obtain ⟨h1, m2, rest2, hr, rfl⟩ := h
    rw [updateIsBusy_M, dispatch_M]
    exact splitState_M s src w m m2 rest rest2 hw ho h1 hr

theorem step_M (f : α → α) (error : α) (s s' : Sys α) (a : Action)
    (h : step f error s a = some s') : Bisects s.M s'.M := by
  cases a with
  | slaveStart i => exact Or.inl (slaveStart_M s s' i h)
  | slaveServe i => exact slaveServe_M f error s s' i h
  | masterRecv src =>
    simp only [step] at h
    split at h
    · exact Or.inl (masterIter_M s s' src h)
    · cases h
  | masterExit =>
    simp only [step] at h
    split at h
    · simp only [Option.some.injEq] at h
      subst h
      exact Or.inl (masterExit_M s)
    · cases h

/-! ## Induction over the runs -/

theorem exec_invariant (f : α → α) (error : α) (P : Sys α → Prop)
    (hstep : ∀ s a s', P s → step f error s a = some s' → P s')
    (sched : List Action) (s s' : Sys α) (hs : P s) (h : exec f error s sched = some s') :
    P s' := by
  induction sched generalizing s with
  | nil =>
    simp only [exec, Option.some.injEq] at h
    exact h ▸ hs
  | cons a rest ih =>
    simp only [exec] at h
    cases hst : step f error s a with
    | none => simp [hst] at h
    | some s1 =>
      simp only [hst] at h
      exact ih s1 (hstep s a s1 hs hst) h

theorem Reachable.invariant {f : α → α} {error lower upper : α} {numProcesses : Nat}
    {busy0 : Nat → Bool} (P : Sys α → Prop) (h0 : P (init lower upper numProcesses busy0))
    (hstep : ∀ s a s', P s → step f error s a = some s' → P s')
    {s : Sys α} (hr : Reachable f error lower upper numProcesses busy0 s) : P s := by
  obtain ⟨sched, h⟩ := hr
  exact exec_invariant f error P hstep sched _ s h0 h

/-! ## Chains of intervals -/

theorem isChain_bisect (a b l m u : α) (c1 c2 : List (α × α))
    (h : IsChain a b (c1 ++ (l, u) :: c2)) : IsChain a b (c1 ++ (l, m) :: (m, u) :: c2) := by
  induction c1 generalizing a with
  | nil =>
    simp only [List.nil_append, IsChain] at h ⊢
    exact ⟨h.1, trivial, h.2⟩
  | cons p ps ih =>
    simp only [List.cons_append, IsChain] at h ⊢
    exact ⟨h.1, ih _ h.2⟩

theorem isChain_lower_le (a b : α) (c : List (α × α)) (h : IsChain a b c)
    (hle : ∀ p ∈ c, p.1 ≤ p.2) : ∀ p ∈ c, a ≤ p.1 := by
  induction c generalizing a with
  | nil => simp
  | cons q qs ih =>
    intro p hp
    simp only [IsChain] at h
    rcases List.mem_cons.1 hp with rfl | hp
    · exact le_of_eq h.1.symm
    · have h1 := ih _ h.2 (fun r hr => hle r (List.mem_cons_of_mem _ hr)) p hp
      have h2 := hle q (List.mem_cons_self _ _)
      rw [h.1] at h2
      exact le_trans h2 h1

theorem isChain_nodup (a b : α) (c : List (α × α)) (h : IsChain a b c)
    (hlt : ∀ p ∈ c, p.1 < p.2) : c.Nodup := by
  induction c generalizing a with
  | nil => exact List.nodup_nil
  | cons q qs ih =>
    simp only [IsChain] at h
    refine List.nodup_cons.2 ⟨?_, ih _ h.2 (fun r hr => hlt r (List.mem_cons_of_mem _ hr))⟩
    intro hq
    have h1 := isChain_lower_le _ _ _ h.2
      (fun r hr => le_of_lt (hlt r (List.mem_cons_of_mem _ hr))) q hq
    have h2 := hlt q (List.mem_cons_self _ _)
    exact absurd h2 (not_lt.2 h1)

theorem Covers.bisects {a b : α} {M M' : Multiset (α × α)} (h : Covers a b M)
    (hb : Bisects M M') : Covers a b M' := by
  rcases hb with rfl | ⟨l, u, hmem, heq⟩
  · exact h
  · obtain ⟨c, rfl, hc⟩ := h
    obtain ⟨c1, c2, rfl⟩ := List.append_of_mem (Multiset.mem_coe.1 hmem)
    refine ⟨c1 ++ (l, (u + l) / 2) :: ((u + l) / 2, u) :: c2, ?_, isChain_bisect _ _ _ _ _ _ _ hc⟩
    apply add_right_cancel (b := ({(l, u)} : Multiset (α × α)))
    rw [heq]
    simp only [← Multiset.coe_add, ← Multiset.cons_coe, ← Multiset.singleton_add]
    abel

theorem forall_bisects (R : α → α → Prop)
    (hR : ∀ l u, R l u → R l ((u + l) / 2) ∧ R ((u + l) / 2) u)
    {M M' : Multiset (α × α)} (h : ∀ p ∈ M, R p.1 p.2) (hb : Bisects M M') :
    ∀ p ∈ M', R p.1 p.2 := by
  rcases hb with rfl | ⟨l, u, hmem, heq⟩
  · exact h
  · intro p hp
    have : p ∈ M' + {(l, u)} := Multiset.mem_add.2 (Or.inl hp)
    rw [heq] at this
    simp only [Multiset.mem_add, Multiset.mem_singleton] at this
    rcases this with (hp | rfl) | rfl
    · exact h p hp
    · exact (hR l u (h _ hmem)).1
    · exact (hR l u (h _ hmem)).2

theorem init_M (lower upper : α) (numProcesses : Nat) (busy0 : Nat → Bool) :
    (init lower upper numProcesses busy0).M = {(lower, upper)} := by
  have : ∀ n : Nat, slavesM (List.replicate n (⟨SlavePc.start, [], []⟩ : SlaveState α)) = 0 := by
    intro n
    induction n with
    | zero => rfl
    | succ n ih =>
      simp only [slavesM, List.replicate_succ, List.map_cons, List.sum_cons] at ih ⊢
      rw [ih]
      rfl
  simp only [Sys.M_def, init, this]
  rfl

theorem reachable_covers {f : α → α} {error lower upper : α} {numProcesses : Nat}
    {busy0 : Nat → Bool} {s : Sys α}
    (hr : Reachable f error lower upper numProcesses busy0 s) : Covers lower upper s.M := by
  refine Reachable.invariant (fun s => Covers lower upper s.M) ?_ ?_ hr
  · show Covers lower upper (init lower upper numProcesses busy0).M
    rw [init_M]
    exact ⟨[(lower, upper)], rfl, rfl, rfl⟩
  · intro s a s' hs hst
    exact hs.bisects (step_M f error s s' a hst)

theorem reachable_forall {f : α → α} {error lower upper : α} {numProcesses : Nat}
    {busy0 : Nat → Bool} {s : Sys α} (R : α → α → Prop)
    (hR : ∀ l u, R l u → R l ((u + l) / 2) ∧ R ((u + l) / 2) u) (h0 : R lower upper)
    (hr : Reachable f error lower upper numProcesses busy0 s) : ∀ p ∈ s.M, R p.1 p.2 := by
  refine Reachable.invariant (fun s => ∀ p ∈ s.M, R p.1 p.2) ?_ ?_ hr
  · show ∀ p ∈ (init lower upper numProcesses busy0).M, R p.1 p.2
    rw [init_M]
    intro p hp
    rw [Multiset.mem_singleton.1 hp]
    exact h0
  · intro s a s' hs hst
    exact forall_bisects R hR hs (step_M f error s s' a hst)

theorem le_bisect (l u : α) (h : l ≤ u) : l ≤ (u + l) / 2 ∧ (u + l) / 2 ≤ u := by
  constructor
  · rw [le_div_iff₀ (by norm_num : (0 : α) < 2)]; linarith
  · rw [div_le_iff₀ (by norm_num : (0 : α) < 2)]; linarith

theorem lt_bisect (l u : α) (h : l < u) : l < (u + l) / 2 ∧ (u + l) / 2 < u := by
  constructor
  · rw [lt_div_iff₀ (by norm_num : (0 : α) < 2)]; linarith
  · rw [div_lt_iff₀ (by norm_num : (0 : α) < 2)]; linarith

/-! ## The accumulator and the log of received messages -/

theorem dispatchStep_result (s : Sys α) (i : Nat) :
    (dispatchStep s i).master.result = s.master.result := by
  unfold dispatchStep
  split
  · split <;> rfl
  · rfl

theorem dispatchStep_received (s : Sys α) (i : Nat) :
    (dispatchStep s i).received = s.received := by
  unfold dispatchStep
  split
  · split <;> rfl
  · rfl

theorem dispatch_result (s : Sys α) : (dispatch s).master.result = s.master.result :=
  foldl_preserves (fun s : Sys α => s.master.result) dispatchStep dispatchStep_result _ s

theorem dispatch_received (s : Sys α) : (dispatch s).received = s.received :=
  foldl_preserves (fun s : Sys α => s.received) dispatchStep dispatchStep_received _ s

theorem terminateStep_master (s : Sys α) (i : Nat) : (terminateStep s i).master = s.master := by
  unfold terminateStep
  split <;> rfl

theorem terminateStep_received (s : Sys α) (i : Nat) :
    (terminateStep s i).received = s.received := by
  unfold terminateStep
  split <;> rfl

theorem masterExit_result (s : Sys α) : (masterExit s).master.result = s.master.result := by
  show ((List.range (s.numProcesses - 1)).foldl terminateStep s).master.result = _
  exact congrArg MasterState.result
    (foldl_preserves (fun s : Sys α => s.master) terminateStep terminateStep_master _ s)

theorem masterExit_received (s : Sys α) : (masterExit s).received = s.received := by
  unfold masterExit
  exact foldl_preserves (fun s : Sys α => s.received) terminateStep terminateStep_received _ s

theorem masterIter_result (s s' : Sys α) (src : Nat) (h : masterIter s src = some s') :
    ∃ w m rest, s.slaves[src]? = some w ∧ w.outbox = m :: rest ∧
      s'.master.result = (if m.tag = 2 then s.master.result + m.values.d2 else s.master.result) ∧
      s'.accepted = (if m.tag = 2 then m :: s.accepted else s.accepted) := by
  obtain ⟨w, m, rest, hw, ho, h | h⟩ := masterIter_spec s s' src h
  · obtain ⟨_, rfl⟩ := h
    refine ⟨w, m, rest, hw, ho, ?_, ?_⟩
    · show (dispatch _).master.result = _
      rw [dispatch_result]
      by_cases h2 : m.tag = 2 <;> simp [addDone, recvState, h2]
    · show (dispatch _).received.filter _ = _
      rw [dispatch_received]
      by_cases h2 : m.tag = 2 <;> simp [addDone, recvState, h2, Sys.accepted, List.filter_cons]
  · obtain ⟨h1, m2, rest2, hr, rfl⟩ := h
    obtain ⟨h2, _⟩ := recvTag_spec 1 rest m2 rest2 hr
    refine ⟨w, m, rest, hw, ho, ?_, ?_⟩
    · show (dispatch _).master.result = _
      rw [dispatch_result]
      simp [splitState, h1]
    · show (dispatch _).received.filter _ = _
      rw [dispatch_received]
      simp [splitState, h1, h2, Sys.accepted, List.filter_cons]

theorem step_slave_master (f : α → α) (error : α) (s s' : Sys α) (a : Action)
    (h : step f error s a = some s') (ha : ∀ src, a ≠ Action.masterRecv src) :
    s'.master.result = s.master.result ∧ s'.received = s.received := by
  cases a with
  | slaveStart i =>
    obtain ⟨w, _, _, rfl⟩ := slaveStart_spec s s' i h
    exact ⟨rfl, rfl⟩
  | slaveServe i =>
    obtain ⟨w, m, rest, _, _, _, h | h⟩ := slaveServe_spec f error s s' i h
    · obtain ⟨_, rfl⟩ := h
      exact ⟨rfl, rfl⟩
    · obtain ⟨_, rfl⟩ := h
      exact ⟨rfl, rfl⟩
  | masterRecv src => exact absurd rfl (ha src)
  | masterExit =>
    simp only [step] at h
    split at h
    · simp only [Option.some.injEq] at h
      subst h
      exact ⟨masterExit_result s, masterExit_received s⟩
    · cases h

theorem step_masterRecv (f : α → α) (error : α) (s s' : Sys α) (src : Nat)
    (h : step f error s (Action.masterRecv src) = some s') : masterIter s src = some s' := by
  simp only [step] at h
  split at h
  · exact h
  · cases h

theorem reachable_result {f : α → α} {error lower upper : α} {numProcesses : Nat}
    {busy0 : Nat → Bool} {s : Sys α}
    (hr : Reachable f error lower upper numProcesses busy0 s) :
    s.master.result = (s.accepted.map (fun m => m.values.d2)).sum := by
  refine Reachable.invariant
    (fun s => s.master.result = (s.accepted.map (fun m => m.values.d2)).sum) ?_ ?_ hr
  · simp [init, Sys.accepted]
  · intro s a s' hs hst
    by_cases ha : ∃ src, a = Action.masterRecv src
    · obtain ⟨src, rfl⟩ := ha
      obtain ⟨w, m, rest, _, _, hres, hacc⟩ := masterIter_result s s' src (step_masterRecv f error s s' src hst)
      show s'.master.result = (s'.accepted.map (fun m => m.values.d2)).sum
      rw [hres, hacc]
      by_cases h2 : m.tag = 2
      · simp only [h2, if_true, List.map_cons, List.sum_cons, hs]
        ring
      · simp only [h2, if_false, hs]
    · obtain ⟨h1, h2⟩ := step_slave_master f error s s' a hst (fun src hsrc => ha ⟨src, hsrc⟩)
      show s'.master.result = (s'.accepted.map (fun m => m.values.d2)).sum
      rw [h1, Sys.accepted, h2]
      exact hs

/-! ## The DONE replies in transit -/

theorem foldl_invariant {β : Type} (P : β → Prop) (step : β → Nat → β)
    (h : ∀ s i, P s → P (step s i)) (l : List Nat) (s : β) (hs : P s) : P (l.foldl step s) := by
  induction l generalizing s with
  | nil => exact hs
  | cons x xs ih => exact ih _ (h s x hs)

theorem DoneOK.set {f : α → α} {ws : List (SlaveState α)} (h : DoneOK f ws) (i : Nat)
    (w' : SlaveState α)
    (hw' : ∀ m ∈ w'.outbox, m.tag = 2 →
      m.values.d2 = trapezoidal_rule f m.values.d0 m.values.d1) :
    DoneOK f (ws.set i w') := by
  intro w hw
  rcases List.mem_or_eq_of_mem_set hw with hw | rfl
  · exact h w hw
  · exact hw'

theorem dispatchStep_doneOK (f : α → α) (s : Sys α) (i : Nat) (h : DoneOK f s.slaves) :
    DoneOK f (dispatchStep s i).slaves := by
  unfold dispatchStep
  split
  · rename_i temp rest w ht hw
    split
    · exact h.set i _ (h w (List.getElem?_mem hw))
    · exact h
  · exact h

theorem dispatch_doneOK (f : α → α) (s : Sys α) (h : DoneOK f s.slaves) :
    DoneOK f (dispatch s).slaves :=
  foldl_invariant (fun s : Sys α => DoneOK f s.slaves) dispatchStep
    (dispatchStep_doneOK f) _ s h

theorem terminateStep_doneOK (f : α → α) (s : Sys α) (i : Nat) (h : DoneOK f s.slaves) :
    DoneOK f (terminateStep s i).slaves := by
  unfold terminateStep
  split
  · rename_i w hw
    exact h.set i _ (h w (List.getElem?_mem hw))
  · exact h

theorem step_doneOK (f : α → α) (error : α) (s s' : Sys α) (a : Action)
    (h : DoneOK f s.slaves) (hst : step f error s a = some s') : DoneOK f s'.slaves := by
  cases a with
  | slaveStart i =>
    obtain ⟨w, hw, _, rfl⟩ := slaveStart_spec s s' i hst
    refine h.set i _ ?_
    intro m hm h2
    rcases List.mem_append.1 hm with hm | hm
    · exact h w (List.getElem?_mem hw) m hm h2
    · simp only [List.mem_singleton] at hm
      subst hm
      cases h2
  | slaveServe i =>
    obtain ⟨w, m0, rest, hw, _, _, hc | hc⟩ := slaveServe_spec f error s s' i hst
    · obtain ⟨_, rfl⟩ := hc
      exact h.set i _ (h w (List.getElem?_mem hw))
    · obtain ⟨_, rfl⟩ := hc
      refine h.set i _ ?_
      intro m hm h2
      rcases List.mem_append.1 hm with hm | hm
      · exact h w (List.getElem?_mem hw) m hm h2
      · rw [slaveReply_eq] at hm
        split at hm
        · simp only [List.mem_singleton] at hm
          subst hm
          rfl
        · simp only [List.mem_cons, List.mem_singleton, List.not_mem_nil, or_false] at hm
          rcases hm with rfl | rfl <;> cases h2
  | masterRecv src =>
    obtain ⟨w, m0, rest, hw, ho, hc | hc⟩ :=
      masterIter_spec s s' src (step_masterRecv f error s s' src hst)
    · obtain ⟨_, rfl⟩ := hc
      refine dispatch_doneOK f _ ?_
      have : (addDone (recvState s src w m0 rest) m0.tag).slaves
          = s.slaves.set src ⟨w.pc, w.inbox, rest⟩ := by
        unfold addDone
        split <;> rfl
      rw [this]
      refine h.set src _ ?_
      intro m hm h2
      exact h w (List.getElem?_mem hw) m (by rw [ho]; exact List.mem_cons_of_mem _ hm) h2
    · obtain ⟨_, m2, rest2, hr, rfl⟩ := hc
      refine dispatch_doneOK f _ ?_
      refine h.set src _ ?_
      intro m hm h2
      obtain ⟨_, hp⟩ := recvTag_spec 1 rest m2 rest2 hr
      have hm' : m ∈ rest := hp.mem_iff.2 (List.mem_cons_of_mem _ hm)
      exact h w (List.getElem?_mem hw) m (by rw [ho]; exact List.mem_cons_of_mem _ hm') h2
  | masterExit =>
    simp only [step] at hst
    split at hst
    · simp only [Option.some.injEq] at hst
      subst hst
      exact foldl_invariant (fun s : Sys α => DoneOK f s.slaves) terminateStep
        (terminateStep_doneOK f) _ s h
    · cases hst

theorem reachable_doneOK {f : α → α} {error lower upper : α} {numProcesses : Nat}
    {busy0 : Nat → Bool} {s : Sys α}
    (hr : Reachable f error lower upper numProcesses busy0 s) : DoneOK f s.slaves := by
  refine Reachable.invariant (fun s => DoneOK f s.slaves) ?_ ?_ hr
  · intro w hw m hm
    simp only [init, List.mem_replicate] at hw
    rw [hw.2] at hm
    cases hm
  · intro s a s' hs hst
    exact step_doneOK f error s s' a hs hst

theorem trapezoidal_rule_nonneg (f : α → α) (hf : ∀ x, 0 ≤ f x) (a b : α) (h : a ≤ b) :
    0 ≤ trapezoidal_rule f a b := by
  unfold trapezoidal_rule
  have h1 : (0 : α) ≤ 0.5 := by norm_num
  have h2 : 0 ≤ b - a := sub_nonneg.2 h
  exact mul_nonneg (mul_nonneg h1 h2) (add_nonneg (hf a) (hf b))

theorem function_nonneg (cos sin : α → α) (x : α) : 0 ≤ function cos sin x := by
  unfold function
  exact div_nonneg (abs_nonneg _) (by norm_num)

theorem mem_M_of_outbox (s : Sys α) (w : SlaveState α) (hw : w ∈ s.slaves) (m : Msg α)
    (hm : m ∈ w.outbox) (ht : m.tag = 1 ∨ m.tag = 2) : m.iv ∈ s.M := by
  obtain ⟨i, hi⟩ := List.mem_iff_getElem?.1 hw
  have h1 : m.iv ∈ w.M := by
    rw [SlaveState.M_eq, Multiset.mem_add]
    right
    unfold outM
    rw [Multiset.mem_coe]
    exact List.mem_map_of_mem _ (List.mem_filter.2 ⟨hm, by simpa using ht⟩)
  have := mem_slavesM _ _ _ hi _ h1
  simp [Sys.M, this]

theorem exec_snoc (f : α → α) (error : α) (l : List Action) (x : Action) (a b c : Sys α)
    (hab : exec f error a l = some b) (hbc : step f error b x = some c) :
    exec f error a (l ++ [x]) = some c := by
  induction l generalizing a with
  | nil =>
    simp only [exec, Option.some.injEq] at hab
    subst hab
    simp [exec, hbc]
  | cons y ys ih =>
    simp only [exec, List.cons_append] at hab ⊢
    cases hy : step f error a y with
    | none => simp [hy] at hab
    | some a' =>
      simp only [hy] at hab ⊢
      exact ih a' hab

theorem Reachable.step {f : α → α} {error lower upper : α} {numProcesses : Nat}
    {busy0 : Nat → Bool} {s s' : Sys α} (a : Action)
    (hr : Reachable f error lower upper numProcesses busy0 s)
    (hst : AQI.step f error s a = some s') :
    Reachable f error lower upper numProcesses busy0 s' := by
  obtain ⟨sched, hsched⟩ := hr
  exact ⟨sched ++ [a], exec_snoc f error sched a _ s s' hsched hst⟩

/-! ## Runs in which `busy` is `true` at first -/

theorem forall₂_getElem? {β γ : Type} {R : β → γ → Prop} {l1 : List β} {l2 : List γ}
    (h : List.Forall₂ R l1 l2) (i : Nat) (c : γ) (hc : l2[i]? = some c) :
    ∃ b, l1[i]? = some b ∧ R b c := by
  induction h generalizing i with
  | nil => simp at hc
  | cons hab _ ih =>
    cases i with
    | zero =>
      simp at hc
      subst hc
      exact ⟨_, by simp, hab⟩
    | succ i =>
      simp at hc
      simpa using ih i hc

theorem forall₂_set {β γ : Type} {R : β → γ → Prop} {l1 : List β} {l2 : List γ}
    (h : List.Forall₂ R l1 l2) (i : Nat) (b : β) (c : γ) (hbc : R b c) :
    List.Forall₂ R (l1.set i b) (l2.set i c) := by
  induction h generalizing i with
  | nil => simp
  | cons hab hrest ih =>
    cases i with
    | zero => exact List.Forall₂.cons hbc hrest
    | succ i => exact List.Forall₂.cons hab (ih i)

theorem forall₂_set_right {β γ : Type} {R : β → γ → Prop} {l1 : List β} {l2 : List γ}
    (h : List.Forall₂ R l1 l2) (i : Nat) (c c' : γ) (hc : l2[i]? = some c)
    (hR : ∀ b, R b c → R b c') : List.Forall₂ R l1 (l2.set i c') := by
  induction h generalizing i with
  | nil => simp
  | cons hab hrest ih =>
    cases i with
    | zero =>
      simp at hc
      subst hc
      exact List.Forall₂.cons (hR _ hab) hrest
    | succ i =>
      simp at hc
      exact List.Forall₂.cons hab (ih i hc)

theorem forall₂_mem_right {β γ : Type} {R : β → γ → Prop} {l1 : List β} {l2 : List γ}
    (h : List.Forall₂ R l1 l2) (c : γ) (hc : c ∈ l2) : ∃ b ∈ l1, R b c := by
  obtain ⟨i, hi⟩ := List.mem_iff_getElem?.1 hc
  obtain ⟨b, hb, hR⟩ := forall₂_getElem? h i c hi
  exact ⟨b, List.getElem?_mem hb, hR⟩

theorem computeIsBusy_false (n : Nat) (busy : List Bool) (h : computeIsBusy n busy = false) :
    ∀ i, i < n - 1 → busy.getD i false = false := by
  unfold computeIsBusy at h
  generalize n - 1 = k at h
  induction k with
  | zero => intro i hi; omega
  | succ k ih =>
    rw [List.range_succ, List.foldl_append, List.foldl_cons, List.foldl_nil] at h
    intro i hi
    cases hk : List.foldl
        (fun (isBusy : Bool) (i : Nat) => if isBusy || busy.getD i false then true else isBusy)
        false (List.range k) with
    | true =>
      rw [hk] at h
      simp at h
    | false =>
      rw [hk] at h
      rcases Nat.lt_succ_iff_lt_or_eq.1 hi with hi | rfl
      · exact ih hk i hi
      · cases hb : busy.getD i false with
        | true =>
          rw [hb] at h
          simp at h
        | false => rfl

theorem Tracked.idle : Tracked false (⟨SlavePc.serving, [], []⟩ : SlaveState α) :=
  Or.inl ⟨rfl, rfl, rfl, rfl⟩

theorem Tracked.of_false {w : SlaveState α} (h : Tracked false w) :
    w.pc = SlavePc.serving ∧ w.inbox = [] ∧ w.outbox = [] := by
  rcases h with h | h
  · exact h.2
  · cases h.1

theorem Tracked.of_start {b : Bool} {w : SlaveState α} (h : Tracked b w)
    (hpc : w.pc = SlavePc.start) : b = true ∧ w.inbox = [] ∧ w.outbox = [] := by
  rcases h with h | ⟨hb, h | h | h | h | h⟩
  · rw [h.2.1] at hpc; cases hpc
  · exact ⟨hb, h.2⟩
  all_goals (rw [h.1] at hpc; cases hpc)

theorem Tracked.of_inbox {b : Bool} {w : SlaveState α} (h : Tracked b w) (m : Msg α)
    (rest : List (Msg α)) (hin : w.inbox = m :: rest) :
    b = true ∧ m.tag = 0 ∧ rest = [] ∧ w.outbox = [] ∧ w.pc = SlavePc.serving := by
  rcases h with h | ⟨hb, h | h | h | h | h⟩
  · rw [h.2.2.1] at hin; cases hin
  · rw [h.2.1] at hin; cases hin
  · rw [h.2.1] at hin; cases hin
  · obtain ⟨hpc, ho, v, hv⟩ := h
    rw [hv] at hin
    simp only [List.cons.injEq] at hin
    obtain ⟨rfl, rfl⟩ := hin
    exact ⟨hb, rfl, rfl, ho, hpc⟩
  · rw [h.2.1] at hin; cases hin
  · rw [h.2.1] at hin; cases hin

theorem Tracked.of_outbox {b : Bool} {w : SlaveState α} (h : Tracked b w) (m : Msg α)
    (rest : List (Msg α)) (ho : w.outbox = m :: rest) :
    w.pc = SlavePc.serving ∧ w.inbox = [] ∧
      ((m.tag ≠ 1 ∧ rest = []) ∨ (m.tag = 1 ∧ ∃ v', rest = [⟨1, v'⟩])) := by
  rcases h with h | ⟨hb, h | h | h | h | h⟩
  · rw [h.2.2.2] at ho; cases ho
  · rw [h.2.2] at ho; cases ho
  · obtain ⟨hpc, hi, v, hv⟩ := h
    rw [hv] at ho
    simp only [List.cons.injEq] at ho
    obtain ⟨rfl, rfl⟩ := ho
    exact ⟨hpc, hi, Or.inl ⟨(by simp), rfl⟩⟩
  · rw [h.2.1] at ho; cases ho
  · obtain ⟨hpc, hi, v, hv⟩ := h
    rw [hv] at ho
    simp only [List.cons.injEq] at ho
    obtain ⟨rfl, rfl⟩ := ho
    exact ⟨hpc, hi, Or.inl ⟨(by simp), rfl⟩⟩
  · obtain ⟨hpc, hi, v, v', hv⟩ := h
    rw [hv] at ho
    simp only [List.cons.injEq] at ho
    obtain ⟨rfl, rfl⟩ := ho
    exact ⟨hpc, hi, Or.inr ⟨rfl, v', rfl⟩⟩

theorem init_busyInv (lower upper : α) (numProcesses : Nat) (busy0 : Nat → Bool)
    (hb : ∀ i, busy0 i = true) : BusyInv (init lower upper numProcesses busy0) := by
  refine ⟨fun _ => ⟨?_, ?_⟩, ?_⟩
  · have : ∀ l : List Nat, List.Forall₂ Tracked (l.map busy0)
        (List.replicate l.length (⟨SlavePc.start, [], []⟩ : SlaveState α)) := by
      intro l
      induction l with
      | nil => exact List.Forall₂.nil
      | cons x xs ih =>
        refine List.Forall₂.cons ?_ ih
        exact Or.inr ⟨hb x, Or.inl ⟨rfl, rfl, rfl⟩⟩
    have h := this (List.range (numProcesses - 1))
    rw [List.length_range] at h
    exact h
  · intro h
    simp [init, loopCond] at h
  · intro h
    cases h

theorem dispatchStep_pc (s : Sys α) (i : Nat) :
    (dispatchStep s i).master.pc = s.master.pc := by
  unfold dispatchStep
  split
  · split <;> rfl
  · rfl

theorem dispatch_pc (s : Sys α) : (dispatch s).master.pc = s.master.pc :=
  foldl_preserves (fun s : Sys α => s.master.pc) dispatchStep dispatchStep_pc _ s

theorem dispatchStep_tracked (s : Sys α) (i : Nat)
    (h : List.Forall₂ Tracked s.master.busy s.slaves) :
    List.Forall₂ Tracked (dispatchStep s i).master.busy (dispatchStep s i).slaves := by
  unfold dispatchStep
  split
  · rename_i temp rest w ht hw
    split
    · rename_i hb
      obtain ⟨b, hbi, hR⟩ := forall₂_getElem? h i w hw
      have hb' : b = false := by
        have : s.master.busy.getD i false = b := by
          simp [List.getD_eq_getElem?_getD, hbi]
        rw [this] at hb
        simpa using hb
      subst hb'
      obtain ⟨hpc, hin, hout⟩ := hR.of_false
      refine forall₂_set h i true _ ?_
      exact Or.inr ⟨rfl, Or.inr (Or.inr (Or.inl ⟨hpc, hout, temp, by rw [hin]; rfl⟩))⟩
    · exact h
  · exact h

theorem dispatch_tracked (s : Sys α) (h : List.Forall₂ Tracked s.master.busy s.slaves) :
    List.Forall₂ Tracked (dispatch s).master.busy (dispatch s).slaves :=
  foldl_invariant (fun s : Sys α => List.Forall₂ Tracked s.master.busy s.slaves) dispatchStep
    dispatchStep_tracked _ s h

theorem numProcesses_setSlave (s : Sys α) (i : Nat) (w : SlaveState α) :
    (s.setSlave i w).numProcesses = s.numProcesses := by
  simp [Sys.numProcesses, Sys.setSlave]

theorem terminateStep_idle (s : Sys α) (i : Nat)
    (h : ∀ w ∈ s.slaves, w.pc ≠ SlavePc.start ∧ w.assigned = [] ∧ w.outbox = []) :
    ∀ w ∈ (terminateStep s i).slaves,
      w.pc ≠ SlavePc.start ∧ w.assigned = [] ∧ w.outbox = [] := by
  unfold terminateStep
  split
  · rename_i w0 hw0
    intro w hw
    rcases List.mem_or_eq_of_mem_set hw with hw | rfl
    · exact h w hw
    · obtain ⟨h1, h2, h3⟩ := h w0 (List.getElem?_mem hw0)
      refine ⟨h1, ?_, h3⟩
      simp only [SlaveState.assigned] at h2 ⊢
      simp [List.filter_append, h2]
  · exact h

theorem step_busyInv (f : α → α) (error : α) (s s' : Sys α) (a : Action)
    (h : BusyInv s) (hst : step f error s a = some s') : BusyInv s' := by
  obtain ⟨hloop, hret⟩ := h
  cases a with
  | slaveStart i =>
    obtain ⟨w, hw, hpc, rfl⟩ := slaveStart_spec s s' i hst
    refine ⟨fun hl => ⟨?_, ?_⟩, fun hr => ?_⟩
    · refine forall₂_set_right (hloop hl).1 i w _ hw ?_
      intro b hb
      obtain ⟨hb1, hin, hout⟩ := hb.of_start hpc
      exact Or.inr ⟨hb1, Or.inr (Or.inl ⟨rfl, hin, _, by rw [hout]; rfl⟩)⟩
    · intro hc
      rw [numProcesses_setSlave]
      exact (hloop hl).2 hc
    · exact absurd hpc (hret hr w (List.getElem?_mem hw)).1
  | slaveServe i =>
    obtain ⟨w, m, rest, hw, hpc, hin, hc | hc⟩ := slaveServe_spec f error s s' i hst
    · obtain ⟨ht, rfl⟩ := hc
      refine ⟨fun hl => ?_, fun hr => ?_⟩
      · obtain ⟨b, _, hb⟩ := forall₂_getElem? (hloop hl).1 i w hw
        have := (hb.of_inbox m rest hin).2.1
        omega
      · intro w' hw'
        rcases List.mem_or_eq_of_mem_set hw' with hw' | rfl
        · exact hret hr w' hw'
        · obtain ⟨_, h2, h3⟩ := hret hr w (List.getElem?_mem hw)
          refine ⟨by simp, ?_, h3⟩
          simp only [SlaveState.assigned, hin, List.filter_cons] at h2 ⊢
          split at h2
          · cases h2
          · exact h2
    · obtain ⟨ht, rfl⟩ := hc
      refine ⟨fun hl => ⟨?_, ?_⟩, fun hr => ?_⟩
      · refine forall₂_set_right (hloop hl).1 i w _ hw ?_
        intro b hb
        obtain ⟨hb1, _, hrest, hout, hpc'⟩ := hb.of_inbox m rest hin
        refine Or.inr ⟨hb1, ?_⟩
        rw [slaveReply_eq, hout, hrest, hpc']
        split
        · exact Or.inr (Or.inr (Or.inr (Or.inl ⟨rfl, rfl, _, rfl⟩)))
        · exact Or.inr (Or.inr (Or.inr (Or.inr ⟨rfl, rfl, _, _, rfl⟩)))
      · intro hc
        rw [numProcesses_setSlave]
        exact (hloop hl).2 hc
      · obtain ⟨_, h2, _⟩ := hret hr w (List.getElem?_mem hw)
        simp only [SlaveState.assigned, hin, List.filter_cons] at h2
        split at h2
        · cases h2
        · rename_i hne
          simp at hne
          exact absurd hne ht
  | masterRecv src =>
    have hiter := step_masterRecv f error s s' src hst
    have hl : s.master.pc = MasterPc.loop := by
      simp only [step] at hst
      split at hst
      · rename_i hc; exact hc.1
      · cases hst
    obtain ⟨w, m, rest, hw, ho, hc⟩ := masterIter_spec s s' src hiter
    obtain ⟨b, _, hb⟩ := forall₂_getElem? (hloop hl).1 src w hw
    obtain ⟨hpc, hin, hshape⟩ := hb.of_outbox m rest ho
    have hidle : List.Forall₂ Tracked (s.master.busy.set src false)
        (s.slaves.set src ⟨w.pc, w.inbox, []⟩) := by
      refine forall₂_set (hloop hl).1 src false _ ?_
      rw [hpc, hin]
      exact Tracked.idle
    rcases hc with ⟨h1, rfl⟩ | ⟨h1, m2, rest2, hr, rfl⟩
    · have hrest : rest = [] := by
        rcases hshape with hs | hs
        · exact hs.2
        · exact absurd hs.1 h1
      have hX : List.Forall₂ Tracked (addDone (recvState s src w m rest) m.tag).master.busy
          (addDone (recvState s src w m rest) m.tag).slaves := by
        unfold addDone
        split
        · rw [hrest]; exact hidle
        · rw [hrest]; exact hidle
      have hpcX : (addDone (recvState s src w m rest) m.tag).master.pc = MasterPc.loop := by
        unfold addDone
        split <;> exact hl
      refine ⟨fun _ => ⟨dispatch_tracked _ hX, fun _ => rfl⟩, fun hr => ?_⟩
      have : (updateIsBusy (dispatch (addDone (recvState s src w m rest) m.tag))).master.pc
          = MasterPc.loop := by
        show (dispatch _).master.pc = _
        rw [dispatch_pc, hpcX]
      rw [this] at hr
      cases hr
    · have hrest2 : rest2 = [] := by
        rcases hshape with hs | hs
        · exact absurd h1 hs.1
        · obtain ⟨_, v', hv'⟩ := hs
          rw [hv'] at hr
          simp [recvTag] at hr
          exact hr.2
      have hX : List.Forall₂ Tracked (splitState s src w m m2 rest2).master.busy
          (splitState s src w m m2 rest2).slaves := by
        rw [hrest2]; exact hidle
      refine ⟨fun _ => ⟨dispatch_tracked _ hX, fun _ => rfl⟩, fun hr => ?_⟩
      have : (updateIsBusy (dispatch (splitState s src w m m2 rest2))).master.pc
          = MasterPc.loop := by
        show (dispatch _).master.pc = _
        rw [dispatch_pc]
        exact hl
      rw [this] at hr
      cases hr
  | masterExit =>
    simp only [step] at hst
    split at hst
    · rename_i hc
      simp only [Option.some.injEq] at hst
      subst hst
      obtain ⟨hl, hcond⟩ := hc
      obtain ⟨hF, hI⟩ := hloop hl
      have hib : s.master.isBusy = false := by
        simp only [loopCond, Bool.or_eq_false_iff] at hcond
        exact hcond.2
      have hcomp := hI hcond
      rw [hib] at hcomp
      have hall := computeIsBusy_false _ _ hcomp.symm
      have hidle : ∀ w ∈ s.slaves, w.pc ≠ SlavePc.start ∧ w.assigned = [] ∧ w.outbox = [] := by
        intro w hw
        obtain ⟨i, hi⟩ := List.mem_iff_getElem?.1 hw
        obtain ⟨b, hbi, hb⟩ := forall₂_getElem? hF i w hi
        have hlt : i < s.numProcesses - 1 := by
          have : i < s.slaves.length := by
            by_contra hc
            rw [List.getElem?_eq_none (by omega)] at hi
            cases hi
          simp only [Sys.numProcesses]
          omega
        have hbf : b = false := by
          have h1 := hall i hlt
          simpa [List.getD_eq_getElem?_getD, hbi] using h1
        subst hbf
        obtain ⟨h1, h2, h3⟩ := hb.of_false
        exact ⟨by rw [h1]; simp, by simp [SlaveState.assigned, h2], h3⟩
      refine ⟨fun hl' => ?_, fun _ => ?_⟩
      · cases hl'
      · exact foldl_invariant
          (fun s : Sys α => ∀ w ∈ s.slaves, w.pc ≠ SlavePc.start ∧ w.assigned = [] ∧ w.outbox = [])
          terminateStep terminateStep_idle _ s hidle
    · cases hst

theorem reachable_busyInv {f : α → α} {error lower upper : α} {numProcesses : Nat}
    {busy0 : Nat → Bool} {s : Sys α} (hb : ∀ i, busy0 i = true)
    (hr : Reachable f error lower upper numProcesses busy0 s) : BusyInv s :=
  Reachable.invariant BusyInv (init_busyInv lower upper numProcesses busy0 hb)
    (fun s a s' hs hst => step_busyInv f error s s' a hs hst) hr

theorem Tracked.outstanding_le {b : Bool} {w : SlaveState α} (h : Tracked b w) :
    w.outstanding ≤ 1 := by
  rcases h with h | ⟨_, h | h | h | h | h⟩
  · simp [SlaveState.outstanding, SlaveState.assigned, h.2.2.1, h.2.2.2]
  · simp [SlaveState.outstanding, SlaveState.assigned, h.2.1, h.2.2]
  · obtain ⟨_, hi, v, hv⟩ := h
    simp [SlaveState.outstanding, SlaveState.assigned, hi, hv]
  · obtain ⟨_, ho, v, hv⟩ := h
    simp [SlaveState.outstanding, SlaveState.assigned, ho, hv]
  · obtain ⟨_, hi, v, hv⟩ := h
    simp [SlaveState.outstanding, SlaveState.assigned, hi, hv]
  · obtain ⟨_, hi, v, v', hv⟩ := h
    simp [SlaveState.outstanding, SlaveState.assigned, hi, hv]

/-- With every cell of `busy` set at first, `master` leaves its loop only when nothing is
in flight: the stack is empty and every worker is idle with empty channels. -/
theorem quiet_at_loop_exit_of_busy_true (f : α → α) (error lower upper : α)
    (numProcesses : Nat) (busy0 : Nat → Bool) (s : Sys α) (hb : ∀ i, busy0 i = true)
    (hr : Reachable f error lower upper numProcesses busy0 s) (hexit : s.LoopExits) :
    s.Quiet ∧ s.master.tasks = [] ∧ ∀ w ∈ s.slaves, w.inbox = [] ∧ w.outbox = [] := by
  obtain ⟨hl, hcond⟩ := hexit
  have hinv := reachable_busyInv hb hr
  obtain ⟨hF, hI⟩ := hinv.1 hl
  have hib : s.master.isBusy = false := by
    simp only [loopCond, Bool.or_eq_false_iff] at hcond
    exact hcond.2
  have htasks : s.master.tasks = [] := by
    simp only [loopCond, Bool.or_eq_false_iff, decide_eq_false_iff_not] at hcond
    exact List.length_eq_zero.1 (by omega)
  have hcomp := hI hcond
  rw [hib] at hcomp
  have hall := computeIsBusy_false _ _ hcomp.symm
  have hidle : ∀ w ∈ s.slaves, w.inbox = [] ∧ w.outbox = [] := by
    intro w hw
    obtain ⟨i, hi⟩ := List.mem_iff_getElem?.1 hw
    obtain ⟨b, hbi, hb'⟩ := forall₂_getElem? hF i w hi
    have hlt : i < s.numProcesses - 1 := by
      have : i < s.slaves.length := by
        by_contra hc
        rw [List.getElem?_eq_none (by omega)] at hi
        cases hi
      simp only [Sys.numProcesses]
      omega
    have hbf : b = false := by
      have h1 := hall i hlt
      simpa [List.getD_eq_getElem?_getD, hbi] using h1
    subst hbf
    exact hb'.of_false.2
  refine ⟨?_, htasks, hidle⟩
  intro w hw
  obtain ⟨h1, h2⟩ := hidle w hw
  simp [SlaveState.assigned, SlaveState.replies, h1, h2]

/-- With every cell of `busy` set at first, no worker ever has more than one task
outstanding. -/
theorem one_outstanding_of_busy_true (f : α → α) (error lower upper : α)
    (numProcesses : Nat) (busy0 : Nat → Bool) (s : Sys α) (hb : ∀ i, busy0 i = true)
    (hr : Reachable f error lower upper numProcesses busy0 s) :
    ∀ w ∈ s.slaves, w.outstanding ≤ 1 := by
  have hinv := reachable_busyInv hb hr
  intro w hw
  cases hpc : s.master.pc with
  | loop =>
    obtain ⟨b, _, hb'⟩ := forall₂_mem_right (hinv.1 hpc).1 w hw
    exact hb'.outstanding_le
  | returned =>
    obtain ⟨_, h2, h3⟩ := hinv.2 hpc w hw
    simp [SlaveState.outstanding, h2, h3]

theorem reachable_accepted {f : α → α} {error lower upper : α} {numProcesses : Nat}
    {busy0 : Nat → Bool} {s : Sys α}
    (hr : Reachable f error lower upper numProcesses busy0 s) :
    ∀ m ∈ s.accepted, m.values.d2 = trapezoidal_rule f m.values.d0 m.values.d1 := by
  have key : DoneOK f s.slaves ∧
      ∀ m ∈ s.accepted, m.values.d2 = trapezoidal_rule f m.values.d0 m.values.d1 := by
    refine Reachable.invariant (fun s => DoneOK f s.slaves ∧
      ∀ m ∈ s.accepted, m.values.d2 = trapezoidal_rule f m.values.d0 m.values.d1) ?_ ?_ hr
    · refine ⟨?_, ?_⟩
      · intro w hw m hm
        simp only [init, List.mem_replicate] at hw
        rw [hw.2] at hm
        cases hm
      · intro m hm
        simp [init, Sys.accepted] at hm
    · intro s a s' hs hst
      refine ⟨step_doneOK f error s s' a hs.1 hst, ?_⟩
      by_cases ha : ∃ src, a = Action.masterRecv src
      · obtain ⟨src, rfl⟩ := ha
        obtain ⟨w, m, rest, hw, ho, _, hacc⟩ :=
          masterIter_result s s' src (step_masterRecv f error s s' src hst)
        intro m' hm'
        rw [hacc] at hm'
        by_cases h2 : m.tag = 2
        · rw [if_pos h2] at hm'
          rcases List.mem_cons.1 hm' with rfl | hm'
          · exact hs.1 w (List.getElem?_mem hw) m' (by rw [ho]; exact List.mem_cons_self _ _) h2
          · exact hs.2 m' hm'
        · rw [if_neg h2] at hm'
          exact hs.2 m' hm'
      · have h2 := (step_slave_master f error s s' a hst (fun src hsrc => ha ⟨src, hsrc⟩)).2
        intro m hm
        have : s'.accepted = s.accepted := by simp only [Sys.accepted, h2]
        rw [this] at hm
        exact hs.2 m hm
  exact key.2

theorem isChain_sum_width (a b : α) (c : List (α × α)) (h : IsChain a b c) :
    (c.map (fun p => p.2 - p.1)).sum = b - a := by
  induction c generalizing a with
  | nil =>
    simp only [IsChain] at h
    simp [h]
  | cons p ps ih =>
    simp only [IsChain] at h
    simp only [List.map_cons, List.sum_cons, ih _ h.2, ← h.1]
    ring

/-- With every cell of `busy` set at first, the value `master` returns is the sum of
`trapezoidal_rule` over accepted leaves that form a chain from `lower` to `upper`. -/
theorem result_at_loop_exit_of_busy_true (f : α → α) (error lower upper : α)
    (numProcesses : Nat) (busy0 : Nat → Bool) (s : Sys α) (hb : ∀ i, busy0 i = true)
    (hr : Reachable f error lower upper numProcesses busy0 s) (hexit : s.LoopExits) :
    ∃ c : List (α × α), IsChain lower upper c ∧ c.Perm (s.accepted.map Msg.iv) ∧
      s.master.result = (c.map (fun p => trapezoidal_rule f p.1 p.2)).sum := by
  obtain ⟨_, htasks, hidle⟩ :=
    quiet_at_loop_exit_of_busy_true f error lower upper numProcesses busy0 s hb hr hexit
  obtain ⟨c, hc, hchain⟩ := reachable_covers hr
  have hM : s.M = Multiset.ofList (s.accepted.map Msg.iv) := by
    have hs : slavesM s.slaves = 0 := by
      have : ∀ ws : List (SlaveState α), (∀ w ∈ ws, w.inbox = [] ∧ w.outbox = []) →
          slavesM ws = 0 := by
        intro ws
        induction ws with
        | nil => intro _; rfl
        | cons w ws ih =>
          intro h
          have hw := h w (List.mem_cons_self _ _)
          simp only [slavesM, List.map_cons, List.sum_cons] at ih ⊢
          rw [ih (fun w' hw' => h w' (List.mem_cons_of_mem _ hw')), SlaveState.M_eq, hw.1, hw.2]
          rfl
      exact this _ hidle
    rw [Sys.M, htasks, hs]
    simp
  have hperm : c.Perm (s.accepted.map Msg.iv) := by
    rw [hM] at hc
    exact Multiset.coe_eq_coe.1 hc
  refine ⟨c, hchain, hperm, ?_⟩
  rw [reachable_result hr]
  have h1 : s.accepted.map (fun m => m.values.d2) =
      (s.accepted.map Msg.iv).map (fun p => trapezoidal_rule f p.1 p.2) := by
    rw [List.map_map]
    exact List.map_congr_left (fun m hm => reachable_accepted hr m hm)
  rw [h1]
  exact ((hperm.map _).sum_eq).symm

/-- With every cell of `busy` set at first and a constant integrand `c0`, `master` returns
`c0 * (upper - lower)` for every number of workers, threshold and arrival order. -/
theorem constant_integrand_of_busy_true (c0 error lower upper : α)
    (numProcesses : Nat) (busy0 : Nat → Bool) (s : Sys α) (hb : ∀ i, busy0 i = true)
    (hr : Reachable (fun _ => c0) error lower upper numProcesses busy0 s)
    (hexit : s.LoopExits) : s.master.result = c0 * (upper - lower) := by
  obtain ⟨c, hchain, _, hres⟩ :=
    result_at_loop_exit_of_busy_true _ error lower upper numProcesses busy0 s hb hr hexit
  rw [hres]
  have : (c.map (fun p => trapezoidal_rule (fun _ => c0) p.1 p.2)) =
      (c.map (fun p => p.2 - p.1)).map (fun d => c0 * d) := by
    rw [List.map_map]
    exact List.map_congr_left (fun p _ => trapezoidal_rule_const c0 p.1 p.2)
  rw [this, List.sum_map_mul_left, List.map_id', isChain_sum_width _ _ c hchain]

theorem foldl_add_eq_sum (g : Nat → α) (l : List Nat) (s0 : α) :
    l.foldl (fun (s : α) (i : Nat) => s + 2 * g i) s0 = s0 + 2 * (l.map g).sum := by
  induction l generalizing s0 with
  | nil => simp
  | cons x xs ih =>
    simp only [List.foldl_cons, ih, List.map_cons, List.sum_cons]
    ring

theorem sum_trapezoids (f : α → α) (a h : α) (n : Nat) :
    ((List.range (n + 1)).map
        (fun i : Nat => trapezoidal_rule f (a + (i : α) * h) (a + ((i : α) + 1) * h))).sum =
      (h / 2) * (f a + f (a + ((n : α) + 1) * h)
        + 2 * ((List.range' 1 n).map (fun i : Nat => f (a + (i : α) * h))).sum) := by
  induction n with
  | zero =>
    have h1 : List.range (0 + 1) = [0] := rfl
    have h5 : (0.5 : α) = 1 / 2 := by norm_num
    simp only [h1, List.map_cons, List.map_nil, List.sum_cons,
      List.sum_nil, List.range'_zero, trapezoidal_rule, Nat.cast_zero, h5]
    ring_nf
  | succ n ih =>
    rw [List.range_succ, List.map_append, List.sum_append, ih]
    have h1 : List.range' 1 (n + 1) = List.range' 1 n ++ [n + 1] := by
      rw [List.range'_concat]
      simp [Nat.add_comm]
    rw [h1, List.map_append, List.sum_append]
    have h5 : (0.5 : α) = 1 / 2 := by norm_num
    simp only [List.map_cons, List.map_nil, List.sum_cons, List.sum_nil, trapezoidal_rule, h5]
    push_cast
    ring


/-! ## Properties of all messages sent by the workers -/

theorem map_set_eq {β γ : Type} (g : β → γ) (ws : List β) (i : Nat) (w w' : β)
    (h : ws[i]? = some w) (hg : g w' = g w) : (ws.set i w').map g = ws.map g := by
  induction ws generalizing i with
  | nil => simp
  | cons x xs ih =>
    cases i with
    | zero =>
      simp at h
      subst h
      simp [hg]
    | succ i =>
      simp at h
      simp [ih i h]

theorem masterIter_of_not_split (s : Sys α) (src : Nat) (w : SlaveState α) (m : Msg α)
    (rest : List (Msg α)) (hw : s.slaves[src]? = some w) (ho : w.outbox = m :: rest)
    (h1 : m.tag ≠ 1) :
    masterIter s src =
      some (updateIsBusy (dispatch (addDone (recvState s src w m rest) m.tag))) := by
  simp only [masterIter, recvAny, hw, ho, recvSplit, if_neg h1]
  rfl

theorem masterIter_of_split (s : Sys α) (src : Nat) (w : SlaveState α) (m m2 : Msg α)
    (rest rest2 : List (Msg α)) (hw : s.slaves[src]? = some w) (ho : w.outbox = m :: rest)
    (h1 : m.tag = 1) (hr : recvTag 1 rest = some (m2, rest2)) :
    masterIter s src = some (updateIsBusy (dispatch (splitState s src w m m2 rest2))) := by
  simp only [masterIter, recvAny, hw, ho, recvSplit, h1, if_true, recvFrom, pushValues,
    getElem?_set_self_of_some _ _ _ _ hw, hr]
  simp [addDone, splitState, List.set_set]

theorem masterIter_of_split_blocked (s : Sys α) (src : Nat) (w : SlaveState α) (m : Msg α)
    (rest : List (Msg α)) (hw : s.slaves[src]? = some w) (ho : w.outbox = m :: rest)
    (h1 : m.tag = 1) (hr : recvTag 1 rest = none) : masterIter s src = none := by
  simp only [masterIter, recvAny, hw, ho, recvSplit, h1, if_true, recvFrom, pushValues,
    getElem?_set_self_of_some _ _ _ _ hw, hr]

/-! ## Shutdown -/

theorem getElem?_append_length {β : Type} (pre : List β) (a : β) (suf : List β) :
    (pre ++ a :: suf)[pre.length]? = some a := by
  induction pre with
  | nil => simp
  | cons x xs ih => simpa using ih

theorem set_append_length {β : Type} (pre : List β) (a b : β) (suf : List β) :
    (pre ++ a :: suf).set pre.length b = pre ++ b :: suf := by
  induction pre with
  | nil => rfl
  | cons x xs ih => simp [ih]

theorem foldl_terminateStep (suf pre : List (SlaveState α)) (s : Sys α)
    (hs : s.slaves = pre ++ suf) :
    (List.range' pre.length suf.length).foldl terminateStep s =
      Sys.mk s.master (pre ++ suf.map (SlaveState.addTerminate s.master.values)) s.received := by
  induction suf generalizing pre s with
  | nil =>
    obtain ⟨ma, sl, re⟩ := s
    simp only [List.append_nil] at hs
    subst hs
    simp
  | cons w suf ih =>
    have hk : s.slaves[pre.length]? = some w := by
      rw [hs]
      exact getElem?_append_length pre w suf
    have h1 : terminateStep s pre.length =
        s.setSlave pre.length (w.addTerminate s.master.values) := by
      simp only [terminateStep, hk]
      rfl
    have h2 : (terminateStep s pre.length).slaves =
        (pre ++ [w.addTerminate s.master.values]) ++ suf := by
      rw [h1]
      simp only [Sys.setSlave, hs, set_append_length, List.append_assoc, List.singleton_append]
    have h3 := ih (pre ++ [w.addTerminate s.master.values]) (terminateStep s pre.length) h2
    simp only [List.length_append, List.length_singleton] at h3
    rw [List.length_cons, List.range'_succ, List.foldl_cons, h3, h1]
    simp [Sys.setSlave]

theorem masterExit_eq (s : Sys α) :
    masterExit s =
      Sys.mk { s.master with pc := MasterPc.returned }
        (s.slaves.map (SlaveState.addTerminate s.master.values)) s.received := by
  have h := foldl_terminateStep s.slaves [] s rfl
  simp only [List.length_nil, List.nil_append] at h
  unfold masterExit
  simp only [Sys.numProcesses, Nat.add_sub_cancel, List.range_eq_range', h]

theorem dispatchStep_slaves (Q : SlaveState α → Prop)
    (hQ : ∀ (w : SlaveState α) (t : fStruct α), Q w → Q ⟨w.pc, w.inbox ++ [⟨0, t⟩], w.outbox⟩)
    (s : Sys α) (i : Nat) (h : ∀ w ∈ s.slaves, Q w) : ∀ w ∈ (dispatchStep s i).slaves, Q w := by
  unfold dispatchStep
  split
  · rename_i temp rest w0 ht hw0
    split
    · intro w hw
      rcases List.mem_or_eq_of_mem_set hw with hw | rfl
      · exact h w hw
      · exact hQ w0 temp (h w0 (List.getElem?_mem hw0))
    · exact h
  · exact h

theorem dispatch_slaves (Q : SlaveState α → Prop)
    (hQ : ∀ (w : SlaveState α) (t : fStruct α), Q w → Q ⟨w.pc, w.inbox ++ [⟨0, t⟩], w.outbox⟩)
    (s : Sys α) (h : ∀ w ∈ s.slaves, Q w) : ∀ w ∈ (dispatch s).slaves, Q w :=
  foldl_invariant (fun s : Sys α => ∀ w ∈ s.slaves, Q w) dispatchStep
    (dispatchStep_slaves Q hQ) _ s h

theorem masterIter_slaves (Q : SlaveState α → Prop)
    (hQ : ∀ (w : SlaveState α) (t : fStruct α), Q w → Q ⟨w.pc, w.inbox ++ [⟨0, t⟩], w.outbox⟩)
    (hout : ∀ (w : SlaveState α) (o : List (Msg α)), Q w → Q ⟨w.pc, w.inbox, o⟩)
    (s s' : Sys α) (src : Nat) (hst : masterIter s src = some s')
    (h : ∀ w ∈ s.slaves, Q w) : ∀ w ∈ s'.slaves, Q w := by
  obtain ⟨w, m0, rest, hw, _, hc | hc⟩ := masterIter_spec s s' src hst
  · obtain ⟨_, rfl⟩ := hc
    refine dispatch_slaves Q hQ _ ?_
    have hX : (addDone (recvState s src w m0 rest) m0.tag).slaves
        = s.slaves.set src ⟨w.pc, w.inbox, rest⟩ := by
      unfold addDone
      split <;> rfl
    rw [hX]
    intro w' hw'
    rcases List.mem_or_eq_of_mem_set hw' with hw' | rfl
    · exact h w' hw'
    · exact hout w rest (h w (List.getElem?_mem hw))
  · obtain ⟨_, m2, rest2, _, rfl⟩ := hc
    refine dispatch_slaves Q hQ _ ?_
    intro w' hw'
    rcases List.mem_or_eq_of_mem_set hw' with hw' | rfl
    · exact h w' hw'
    · exact hout w rest2 (h w (List.getElem?_mem hw))

theorem masterIter_pc (s s' : Sys α) (src : Nat) (hst : masterIter s src = some s') :
    s'.master.pc = s.master.pc := by
  obtain ⟨w, m0, rest, _, _, hc | hc⟩ := masterIter_spec s s' src hst
  · obtain ⟨_, rfl⟩ := hc
    show (dispatch _).master.pc = _
    rw [dispatch_pc]
    unfold addDone
    split <;> rfl
  · obtain ⟨_, m2, rest2, _, rfl⟩ := hc
    show (dispatch _).master.pc = _
    rw [dispatch_pc]
    rfl

theorem step_master_pc_loop (f : α → α) (error : α) (s s' : Sys α) (src : Nat)
    (hst : step f error s (Action.masterRecv src) = some s') :
    s.master.pc = MasterPc.loop ∧ loopCond s.master = true := by
  simp only [step] at hst
  split at hst
  · rename_i hc; exact hc
  · cases hst

theorem step_masterExit (f : α → α) (error : α) (s s' : Sys α)
    (hst : step f error s Action.masterExit = some s') :
    s.master.pc = MasterPc.loop ∧ loopCond s.master = false ∧ s' = masterExit s := by
  simp only [step] at hst
  split at hst
  · rename_i hc
    simp only [Option.some.injEq] at hst
    exact ⟨hc.1, hc.2, hst.symm⟩
  · cases hst

theorem step_terminates (f : α → α) (error : α) (s s' : Sys α) (a : Action)
    (h : ∀ w ∈ s.slaves, w.terminates = if s.master.pc = MasterPc.returned then 1 else 0)
    (hst : step f error s a = some s') :
    ∀ w ∈ s'.slaves, w.terminates = if s'.master.pc = MasterPc.returned then 1 else 0 := by
  cases a with
  | slaveStart i =>
    obtain ⟨w, hw, hpc, rfl⟩ := slaveStart_spec s s' i hst
    intro w' hw'
    rcases List.mem_or_eq_of_mem_set hw' with hw' | rfl
    · exact h w' hw'
    · have := h w (List.getElem?_mem hw)
      simp only [SlaveState.terminates, hpc] at this
      simp only [SlaveState.terminates, Sys.setSlave]
      simpa using this
  | slaveServe i =>
    obtain ⟨w, m, rest, hw, hpc, hin, hc | hc⟩ := slaveServe_spec f error s s' i hst
    · obtain ⟨ht, rfl⟩ := hc
      intro w' hw'
      rcases List.mem_or_eq_of_mem_set hw' with hw' | rfl
      · exact h w' hw'
      · have := h w (List.getElem?_mem hw)
        simp only [SlaveState.terminates, hpc, hin, List.filter_cons, ht] at this
        simp only [SlaveState.terminates, Sys.setSlave]
        simpa using this
    · obtain ⟨ht, rfl⟩ := hc
      intro w' hw'
      rcases List.mem_or_eq_of_mem_set hw' with hw' | rfl
      · exact h w' hw'
      · have := h w (List.getElem?_mem hw)
        simp only [SlaveState.terminates, hin, List.filter_cons] at this
        simp only [SlaveState.terminates, Sys.setSlave]
        simpa [ht] using this
  | masterRecv src =>
    have hiter := step_masterRecv f error s s' src hst
    rw [masterIter_pc s s' src hiter]
    refine masterIter_slaves
      (fun w => w.terminates = if s.master.pc = MasterPc.returned then 1 else 0)
      ?_ ?_ s s' src hiter h
    · intro w t hq
      simp only [SlaveState.terminates, List.filter_append] at hq ⊢
      simpa using hq
    · intro w o hq
      exact hq
  | masterExit =>
    obtain ⟨hl, _, rfl⟩ := step_masterExit f error s s' hst
    rw [masterExit_eq]
    intro w' hw'
    simp only [List.mem_map] at hw'
    obtain ⟨w, hw, rfl⟩ := hw'
    have := h w hw
    rw [hl, if_neg (by decide)] at this
    have h3 : ((⟨3, s.master.values⟩ : Msg α).tag == 3) = true := rfl
    simp only [SlaveState.terminates, SlaveState.addTerminate, List.filter_append,
      List.length_append, List.filter_cons, h3, if_true, List.filter_nil, List.length_cons,
      List.length_nil] at this ⊢
    omega

theorem reachable_terminates {f : α → α} {error lower upper : α} {numProcesses : Nat}
    {busy0 : Nat → Bool} {s : Sys α}
    (hr : Reachable f error lower upper numProcesses busy0 s) :
    ∀ w ∈ s.slaves, w.terminates = if s.master.pc = MasterPc.returned then 1 else 0 := by
  refine Reachable.invariant
    (fun s => ∀ w ∈ s.slaves, w.terminates = if s.master.pc = MasterPc.returned then 1 else 0)
    ?_ ?_ hr
  · intro w hw
    simp only [init, List.mem_replicate] at hw
    rw [hw.2]
    rfl
  · intro s a s' hs hst
    exact step_terminates f error s s' a hs hst

/-! ## The exit test -/

theorem dispatchStep_lengths (s : Sys α) (i : Nat) :
    ((dispatchStep s i).master.busy.length, (dispatchStep s i).slaves.length) =
      (s.master.busy.length, s.slaves.length) := by
  unfold dispatchStep
  split
  · split
    · simp
    · rfl
  · rfl

theorem dispatch_lengths (s : Sys α) :
    (dispatch s).master.busy.length = s.master.busy.length ∧
    (dispatch s).slaves.length = s.slaves.length := by
  have h := foldl_preserves
    (fun s : Sys α => (s.master.busy.length, s.slaves.length)) dispatchStep
    dispatchStep_lengths (List.range (s.numProcesses - 1)) s
  simp only [Prod.mk.injEq] at h
  exact h

theorem masterIter_lengths (s s' : Sys α) (src : Nat) (hst : masterIter s src = some s') :
    s'.master.busy.length = s.master.busy.length ∧ s'.slaves.length = s.slaves.length := by
  obtain ⟨w, m0, rest, _, _, hc | hc⟩ := masterIter_spec s s' src hst
  · obtain ⟨_, rfl⟩ := hc
    have h := dispatch_lengths (addDone (recvState s src w m0 rest) m0.tag)
    have h1 : (addDone (recvState s src w m0 rest) m0.tag).master.busy.length
        = s.master.busy.length := by
      unfold addDone
      split <;> simp [recvState]
    have h2 : (addDone (recvState s src w m0 rest) m0.tag).slaves.length
        = s.slaves.length := by
      unfold addDone
      split <;> simp [recvState]
    exact ⟨h.1.trans h1, h.2.trans h2⟩
  · obtain ⟨_, m2, rest2, _, rfl⟩ := hc
    have h := dispatch_lengths (splitState s src w m0 m2 rest2)
    exact ⟨h.1.trans (by simp [splitState]), h.2.trans (by simp [splitState])⟩

theorem computeIsBusy_true (n : Nat) (busy : List Bool) (i : Nat) (hi : i < n - 1)
    (hb : busy.getD i false = true) : computeIsBusy n busy = true := by
  cases h : computeIsBusy n busy with
  | true => rfl
  | false =>
    have := computeIsBusy_false n busy h i hi
    rw [hb] at this
    cases this

theorem computeIsBusy_eq_false_iff (busy : List Bool) :
    computeIsBusy (busy.length + 1) busy = false ↔ ∀ b ∈ busy, b = false := by
  constructor
  · intro h b hb
    obtain ⟨i, hi⟩ := List.mem_iff_getElem?.1 hb
    have hlt : i < busy.length := by
      by_contra hc
      rw [List.getElem?_eq_none (by omega)] at hi
      cases hi
    have := computeIsBusy_false _ busy h i (by omega)
    simpa [List.getD_eq_getElem?_getD, hi] using this
  · intro h
    cases hc : computeIsBusy (busy.length + 1) busy with
    | false => rfl
    | true =>
      exfalso
      have hall : ∀ i, i < busy.length + 1 - 1 → busy.getD i false = false := by
        intro i _
        cases hg : busy[i]? with
        | none => simp [List.getD_eq_getElem?_getD, hg]
        | some b =>
          have := h b (List.getElem?_mem hg)
          simp [List.getD_eq_getElem?_getD, hg, this]
      have : computeIsBusy (busy.length + 1) busy = false := by
        unfold computeIsBusy
        generalize busy.length + 1 - 1 = k at hall
        induction k with
        | zero => rfl
        | succ k ih =>
          rw [List.range_succ, List.foldl_append, List.foldl_cons, List.foldl_nil,
            ih (fun i hi => hall i (by omega)), hall k (by omega)]
          rfl
      rw [this] at hc
      cases hc

theorem computeIsBusy_eq_any (busy : List Bool) :
    computeIsBusy (busy.length + 1) busy = busy.any id := by
  cases h : busy.any id with
  | false =>
    rw [computeIsBusy_eq_false_iff]
    intro b hb
    cases hbv : b with
    | false => rfl
    | true =>
      have : busy.any id = true := List.any_eq_true.2 ⟨b, hb, by simp [hbv]⟩
      rw [h] at this
      cases this
  | true =>
    obtain ⟨b, hb, hbt⟩ := List.any_eq_true.1 h
    cases hc : computeIsBusy (busy.length + 1) busy with
    | true => rfl
    | false =>
      have := (computeIsBusy_eq_false_iff busy).1 hc b hb
      rw [this] at hbt
      cases hbt

theorem dispatchSpec_cons_send (w : SlaveState α) (ws : List (SlaveState α)) (bs : List Bool)
    (t : fStruct α) (rest : List (fStruct α)) (values : fStruct α) :
    dispatchSpec (w :: ws) (false :: bs) (t :: rest) values =
      ((dispatchSpec ws bs rest t).1, true :: (dispatchSpec ws bs rest t).2.1,
        ⟨w.pc, w.inbox ++ [⟨0, t⟩], w.outbox⟩ :: (dispatchSpec ws bs rest t).2.2.1,
        (dispatchSpec ws bs rest t).2.2.2) := by
  simp [dispatchSpec]

theorem dispatchSpec_cons_skip (w : SlaveState α) (ws : List (SlaveState α)) (b : Bool)
    (bs : List Bool) (tasks : List (fStruct α)) (values : fStruct α)
    (h : tasks = [] ∨ b = true) :
    dispatchSpec (w :: ws) (b :: bs) tasks values =
      ((dispatchSpec ws bs tasks values).1, b :: (dispatchSpec ws bs tasks values).2.1,
        w :: (dispatchSpec ws bs tasks values).2.2.1,
        (dispatchSpec ws bs tasks values).2.2.2) := by
  rcases h with rfl | rfl
  · simp [dispatchSpec]
  · cases tasks <;> simp [dispatchSpec]

theorem dispatchSpec_nil (bs : List Bool) (tasks : List (fStruct α)) (values : fStruct α) :
    dispatchSpec ([] : List (SlaveState α)) bs tasks values = (tasks, bs, [], values) := by
  simp [dispatchSpec]

theorem dispatchStep_send (s : Sys α) (i : Nat) (t : fStruct α) (rest : List (fStruct α))
    (w : SlaveState α) (ht : s.master.tasks = t :: rest) (hw : s.slaves[i]? = some w)
    (hb : s.master.busy.getD i false = false) :
    dispatchStep s i =
      Sys.mk ⟨t, s.master.result, rest, s.master.busy.set i true, s.master.isBusy, s.master.pc⟩
        (s.slaves.set i ⟨w.pc, w.inbox ++ [⟨0, t⟩], w.outbox⟩) s.received := by
  unfold dispatchStep
  rw [ht, hw]
  simp only [hb]
  rfl

theorem dispatchStep_skip (s : Sys α) (i : Nat)
    (h : s.master.tasks = [] ∨ s.master.busy.getD i false = true) : dispatchStep s i = s := by
  unfold dispatchStep
  split
  · rename_i temp rest w ht hw
    rcases h with h | h
    · rw [h] at ht; cases ht
    · simp only [h]
      rfl
  · rfl

theorem getD_append_length (pb : List Bool) (b : Bool) (bs : List Bool) :
    (pb ++ b :: bs).getD pb.length false = b := by
  induction pb with
  | nil => rfl
  | cons x xs ih => exact ih

theorem foldl_dispatchStep (ws : List (SlaveState α)) :
    ∀ (bs : List Bool), bs.length = ws.length →
    ∀ (pw : List (SlaveState α)) (pb : List Bool), pb.length = pw.length →
    ∀ (s : Sys α), s.slaves = pw ++ ws → s.master.busy = pb ++ bs →
      (List.range' pw.length ws.length).foldl dispatchStep s =
        Sys.mk ⟨(dispatchSpec ws bs s.master.tasks s.master.values).2.2.2, s.master.result,
            (dispatchSpec ws bs s.master.tasks s.master.values).1,
            pb ++ (dispatchSpec ws bs s.master.tasks s.master.values).2.1,
            s.master.isBusy, s.master.pc⟩
          (pw ++ (dispatchSpec ws bs s.master.tasks s.master.values).2.2.1) s.received := by
  induction ws with
  | nil =>
    intro bs hl pw pb _ s hs hb
    have : bs = [] := List.length_eq_zero.1 hl
    subst this
    obtain ⟨⟨va, re, ta, bu, ib, pc⟩, sl, rc⟩ := s
    simp only [List.append_nil] at hs hb
    subst hs hb
    simp [dispatchSpec_nil]
  | cons w ws ih =>
    intro bs hl pw pb hp s hs hb
    cases bs with
    | nil => simp at hl
    | cons b bs =>
      simp only [List.length_cons, Nat.add_right_cancel_iff] at hl
      have hk : s.slaves[pw.length]? = some w := by
        rw [hs]; exact getElem?_append_length pw w ws
      have hbk : s.master.busy.getD pw.length false = b := by
        rw [hb, ← hp]; exact getD_append_length pb b bs
      rw [List.length_cons, List.range'_succ, List.foldl_cons]
      by_cases hsend : (∃ t rest, s.master.tasks = t :: rest) ∧ b = false
      · obtain ⟨⟨t, rest, ht⟩, rfl⟩ := hsend
        rw [dispatchStep_send s pw.length t rest w ht hk hbk]
        have h1 := ih bs hl (pw ++ [⟨w.pc, w.inbox ++ [⟨0, t⟩], w.outbox⟩]) (pb ++ [true])
          (by simp [hp])
          (Sys.mk ⟨t, s.master.result, rest, s.master.busy.set pw.length true,
            s.master.isBusy, s.master.pc⟩
            (s.slaves.set pw.length ⟨w.pc, w.inbox ++ [⟨0, t⟩], w.outbox⟩) s.received)
          (by simp [hs, set_append_length])
          (by
            show s.master.busy.set pw.length true = _
            rw [hb, ← hp, set_append_length]
            simp)
        simp only [List.length_append, List.length_singleton] at h1
        rw [h1, ht, dispatchSpec_cons_send]
        simp
      · have hskip : s.master.tasks = [] ∨ b = true := by
          cases htk : s.master.tasks with
          | nil => exact Or.inl rfl
          | cons t rest =>
            right
            cases b with
            | true => rfl
            | false => exact absurd ⟨⟨t, rest, htk⟩, rfl⟩ hsend
        rw [dispatchStep_skip s pw.length (by rw [hbk]; exact hskip)]
        have h1 := ih bs hl (pw ++ [w]) (pb ++ [b]) (by simp [hp]) s
          (by simp [hs]) (by simp [hb])
        simp only [List.length_append, List.length_singleton] at h1
        rw [h1, dispatchSpec_cons_skip w ws b bs _ _ hskip]
        simp

theorem dispatch_eq_spec (s : Sys α) (hlen : s.master.busy.length = s.slaves.length) :
    dispatch s =
      Sys.mk ⟨(dispatchSpec s.slaves s.master.busy s.master.tasks s.master.values).2.2.2,
          s.master.result,
          (dispatchSpec s.slaves s.master.busy s.master.tasks s.master.values).1,
          (dispatchSpec s.slaves s.master.busy s.master.tasks s.master.values).2.1,
          s.master.isBusy, s.master.pc⟩
        (dispatchSpec s.slaves s.master.busy s.master.tasks s.master.values).2.2.1
        s.received := by
  have h := foldl_dispatchStep s.slaves s.master.busy hlen [] [] rfl s rfl rfl
  simp only [List.length_nil, List.nil_append] at h
  unfold dispatch
  simp only [Sys.numProcesses, Nat.add_sub_cancel, List.range_eq_range', h]

theorem dispatchSpec_props (ws : List (SlaveState α)) :
    ∀ (bs : List Bool), bs.length = ws.length →
    ∀ (tasks : List (fStruct α)) (values : fStruct α),
      (dispatchSpec ws bs tasks values).1
        = tasks.drop (min (bs.count false) tasks.length) ∧
      newMessages ws (dispatchSpec ws bs tasks values).2.2.1
        = (tasks.take (min (bs.count false) tasks.length)).map (fun t => ⟨0, t⟩) ∧
      (dispatchSpec ws bs tasks values).2.1.count false
        = bs.count false - min (bs.count false) tasks.length ∧
      List.Forall₂
        (fun (p q : Bool × SlaveState α) => (q.1 = p.1 ∧ q.2 = p.2) ∨
          (p.1 = false ∧ q.1 = true ∧
            ∃ t, q.2 = ⟨p.2.pc, p.2.inbox ++ [⟨0, t⟩], p.2.outbox⟩))
        (bs.zip ws)
        ((dispatchSpec ws bs tasks values).2.1.zip (dispatchSpec ws bs tasks values).2.2.1) ∧
      ((dispatchSpec ws bs tasks values).1 = [] ∨
        ∀ b ∈ (dispatchSpec ws bs tasks values).2.1, b = true) := by
  induction ws with
  | nil =>
    intro bs hl tasks values
    have : bs = [] := List.length_eq_zero.1 hl
    subst this
    simp [dispatchSpec_nil, newMessages]
  | cons w ws ih =>
    intro bs hl tasks values
    cases bs with
    | nil => simp at hl
    | cons b bs =>
      simp only [List.length_cons, Nat.add_right_cancel_iff] at hl
      by_cases hsend : (∃ t rest, tasks = t :: rest) ∧ b = false
      · obtain ⟨⟨t, rest, rfl⟩, rfl⟩ := hsend
        obtain ⟨h1, h2, h3, h4, h5⟩ := ih bs hl rest t
        rw [dispatchSpec_cons_send]
        have hk : min (List.count false (false :: bs)) (t :: rest).length
            = min (bs.count false) rest.length + 1 := by
          simp only [List.count_cons_self, List.length_cons]
          omega
        rw [hk]
        refine ⟨by simpa using h1, ?_, ?_, ?_, ?_⟩
        · simp only [newMessages, List.drop_left, List.take_succ_cons, List.map_cons, h2]
          rfl
        · simp only [List.count_cons_self]
          rw [List.count_cons_of_ne (by decide), h3]
          omega
        · simp only [List.zip_cons_cons]
          exact List.Forall₂.cons (Or.inr ⟨rfl, rfl, t, rfl⟩) h4
        · rcases h5 with h5 | h5
          · exact Or.inl h5
          · right
            intro b hb
            rcases List.mem_cons.1 hb with rfl | hb
            · rfl
            · exact h5 b hb
      · have hskip : tasks = [] ∨ b = true := by
          cases htk : tasks with
          | nil => exact Or.inl rfl
          | cons t rest =>
            right
            cases b with
            | true => rfl
            | false => exact absurd ⟨⟨t, rest, htk⟩, rfl⟩ hsend
        obtain ⟨h1, h2, h3, h4, h5⟩ := ih bs hl tasks values
        rw [dispatchSpec_cons_skip w ws b bs tasks values hskip]
        have hk : min (List.count false (b :: bs)) tasks.length
            = min (bs.count false) tasks.length := by
          rcases hskip with rfl | rfl
          · simp
          · rw [List.count_cons_of_ne (by decide)]
        rw [hk]
        refine ⟨h1, ?_, ?_, ?_, ?_⟩
        · simp only [newMessages, List.drop_length, List.nil_append, h2]
        · rcases hskip with rfl | rfl
          · simp only [List.length_nil, Nat.min_zero, Nat.sub_zero] at h3 ⊢
            simp only [List.count_cons, h3]
          · rw [List.count_cons_of_ne (by decide), List.count_cons_of_ne (by decide), h3]
        · simp only [List.zip_cons_cons]
          exact List.Forall₂.cons (Or.inl ⟨rfl, rfl⟩) h4
        · rcases hskip with rfl | rfl
          · left
            simpa using h1
          · rcases h5 with h5 | h5
            · exact Or.inl h5
            · right
              intro b hb
              rcases List.mem_cons.1 hb with rfl | hb
              · rfl
              · exact h5 b hb

/-! ## Runs with one worker -/

theorem exec_append (f : α → α) (error : α) (l1 l2 : List Action) (a b c : Sys α)
    (hab : exec f error a l1 = some b) (hbc : exec f error b l2 = some c) :
    exec f error a (l1 ++ l2) = some c := by
  induction l1 generalizing a with
  | nil =>
    simp only [exec, Option.some.injEq] at hab
    subst hab
    exact hbc
  | cons y ys ih =>
    simp only [exec, List.cons_append] at hab ⊢
    cases hy : step f error a y with
    | none => simp [hy] at hab
    | some a' =>
      simp only [hy] at hab ⊢
      exact ih a' hab

theorem exec_cons (f : α → α) (error : α) (x : Action) (l : List Action) (a c : Sys α)
    (h : exec f error a (x :: l) = some c) :
    ∃ b, step f error a x = some b ∧ exec f error b l = some c := by
  simp only [exec] at h
  cases hx : step f error a x with
  | none => simp [hx] at h
  | some b =>
    simp only [hx] at h
    exact ⟨b, rfl, h⟩

theorem round_accept (f : α → α) (error : α) (values t : fStruct α) (ts : List (fStruct α))
    (r : α) (received : List (Msg α))
    (hc : check_error (trapezoidal_rule f t.d0 t.d1) (trapezoidal_actual f t.d0 t.d1) error
      = true) :
    exec f error (holdingState values t ts r received)
        [Action.slaveServe 0, Action.masterRecv 0] =
      some (afterState ⟨t.d0, t.d1, trapezoidal_rule f t.d0 t.d1⟩ ts
        (r + trapezoidal_rule f t.d0 t.d1)
        (⟨2, ⟨t.d0, t.d1, trapezoidal_rule f t.d0 t.d1⟩⟩ :: received)) := by
  have h1 : List.range 1 = [0] := rfl
  cases ts with
  | nil =>
    simp [h1, exec, step, holdingState, slaveServe, Sys.setSlave, slaveReply_eq, hc, loopCond,
      masterIter, recvAny, recvSplit, addDone, dispatch, Sys.numProcesses, dispatchStep,
      updateIsBusy, computeIsBusy, afterState, idleState]
  | cons t' rest =>
    simp [h1, exec, step, holdingState, slaveServe, Sys.setSlave, slaveReply_eq, hc, loopCond,
      masterIter, recvAny, recvSplit, addDone, dispatch, Sys.numProcesses, dispatchStep,
      updateIsBusy, computeIsBusy, afterState]

theorem round_split (f : α → α) (error : α) (values t : fStruct α) (ts : List (fStruct α))
    (r : α) (received : List (Msg α))
    (hc : check_error (trapezoidal_rule f t.d0 t.d1) (trapezoidal_actual f t.d0 t.d1) error
      = false) :
    exec f error (holdingState values t ts r received)
        [Action.slaveServe 0, Action.masterRecv 0] =
      some (holdingState ⟨(t.d1 + t.d0) / 2, t.d1, t.d2⟩ ⟨(t.d1 + t.d0) / 2, t.d1, t.d2⟩
        (⟨t.d0, (t.d1 + t.d0) / 2, t.d2⟩ :: ts) r
        (⟨1, ⟨(t.d1 + t.d0) / 2, t.d1, t.d2⟩⟩ :: ⟨1, ⟨t.d0, (t.d1 + t.d0) / 2, t.d2⟩⟩
          :: received)) := by
  have h1 : List.range 1 = [0] := rfl
  simp [h1, exec, step, holdingState, slaveServe, Sys.setSlave, slaveReply_eq, hc, loopCond,
    masterIter, recvAny, recvSplit, recvFrom, recvTag, pushValues, addDone, dispatch,
    Sys.numProcesses, dispatchStep, updateIsBusy, computeIsBusy]

theorem round_resolves (f : α → α) (error : α) (n : Nat) :
    ∀ (values t : fStruct α) (ts : List (fStruct α)) (r : α) (received : List (Msg α))
      (tr : List (α × α) × List (α × α)),
      aqTrace f n t.d0 t.d1 error = some tr →
      ∃ (sched : List Action) (values' : fStruct α) (received' : List (Msg α)),
        exec f error (holdingState values t ts r received) sched =
          some (afterState values' ts
            (r + (tr.1.map (fun p => trapezoidal_rule f p.1 p.2)).sum) received') ∧
        (received'.filter (fun m => m.tag == 2)).map Msg.iv =
          tr.1 ++ (received.filter (fun m => m.tag == 2)).map Msg.iv := by
  induction n with
  | zero =>
    intro values t ts r received tr h
    simp [aqTrace] at h
  | succ n ih =>
    intro values t ts r received tr h
    cases hc : check_error (trapezoidal_rule f t.d0 t.d1) (trapezoidal_actual f t.d0 t.d1)
        error with
    | true =>
      rw [aqTrace_succ_accept f n _ _ _ hc] at h
      cases h
      refine ⟨[Action.slaveServe 0, Action.masterRecv 0],
        ⟨t.d0, t.d1, trapezoidal_rule f t.d0 t.d1⟩,
        ⟨2, ⟨t.d0, t.d1, trapezoidal_rule f t.d0 t.d1⟩⟩ :: received, ?_, ?_⟩
      · rw [round_accept f error values t ts r received hc]
        simp
      · simp [List.filter_cons, Msg.iv]
    | false =>
      obtain ⟨left, right, hl, hr, rfl⟩ := aqTrace_split_inv f n _ _ _ tr hc h
      have h0 := round_split f error values t ts r received hc
      obtain ⟨sched1, v1, rc1, he1, ha1⟩ := ih ⟨(t.d1 + t.d0) / 2, t.d1, t.d2⟩
        ⟨(t.d1 + t.d0) / 2, t.d1, t.d2⟩ (⟨t.d0, (t.d1 + t.d0) / 2, t.d2⟩ :: ts) r
        (⟨1, ⟨(t.d1 + t.d0) / 2, t.d1, t.d2⟩⟩ :: ⟨1, ⟨t.d0, (t.d1 + t.d0) / 2, t.d2⟩⟩
          :: received) right hr
      obtain ⟨sched2, v2, rc2, he2, ha2⟩ := ih ⟨t.d0, (t.d1 + t.d0) / 2, t.d2⟩
        ⟨t.d0, (t.d1 + t.d0) / 2, t.d2⟩ ts
        (r + (right.1.map (fun p => trapezoidal_rule f p.1 p.2)).sum) rc1 left hl
      refine ⟨[Action.slaveServe 0, Action.masterRecv 0] ++ (sched1 ++ sched2), v2, rc2, ?_, ?_⟩
      · have he12 := exec_append f error sched1 sched2 _ _ _ he1 he2
        have := exec_append f error _ _ _ _ _ h0 he12
        rw [this]
        simp only [List.map_append, List.sum_append]
        congr 2
        ring
      · rw [ha2, ha1]
        simp [List.filter_cons]

theorem one_worker_start (f : α → α) (error lower upper : α) (busy0 : Nat → Bool) :
    exec f error (init lower upper 2 busy0) [Action.slaveStart 0, Action.masterRecv 0] =
      some (holdingState ⟨lower, upper, 0⟩ ⟨lower, upper, 0⟩ [] 0 [⟨0, ⟨0, 0, 0⟩⟩]) := by
  rfl

theorem one_worker_run (f : α → α) (error lower upper : α) (busy0 : Nat → Bool) (n : Nat)
    (tr : List (α × α) × List (α × α)) (h : aqTrace f n lower upper error = some tr) :
    ∃ (rest : List Action) (s : Sys α),
      exec f error (init lower upper 2 busy0)
        (Action.slaveStart 0 :: Action.masterRecv 0 :: rest) = some s ∧
      s.master.pc = MasterPc.returned ∧
      s.master.result = (tr.1.map (fun p => trapezoidal_rule f p.1 p.2)).sum ∧
      s.accepted.map Msg.iv = tr.1 := by
  obtain ⟨sched, v', rc', he, ha⟩ := round_resolves f error n ⟨lower, upper, 0⟩
    ⟨lower, upper, 0⟩ [] 0 [⟨0, ⟨0, 0, 0⟩⟩] tr h
  have hx : step f error (afterState v' []
      (0 + (tr.1.map (fun p => trapezoidal_rule f p.1 p.2)).sum) rc') Action.masterExit =
      some (masterExit (afterState v' []
        (0 + (tr.1.map (fun p => trapezoidal_rule f p.1 p.2)).sum) rc')) := by
    simp [step, afterState, idleState, loopCond]
  have h1 := exec_snoc f error sched Action.masterExit _ _ _ he hx
  have h2 := exec_append f error [Action.slaveStart 0, Action.masterRecv 0] _ _ _ _
    (one_worker_start f error lower upper busy0) h1
  refine ⟨sched ++ [Action.masterExit], _, h2, ?_, ?_, ?_⟩
  · rw [masterExit_eq]
  · rw [masterExit_result]
    simp [afterState, idleState]
  · rw [Sys.accepted, masterExit_received]
    simpa [afterState, idleState] using ha

theorem busyInv_idle_at_exit (s : Sys α) (hinv : BusyInv s) (hexit : s.LoopExits) :
    ∀ w ∈ s.slaves, w.pc = SlavePc.serving ∧ w.inbox = [] ∧ w.outbox = [] := by
  obtain ⟨hl, hcond⟩ := hexit
  obtain ⟨hF, hI⟩ := hinv.1 hl
  have hib : s.master.isBusy = false := by
    simp only [loopCond, Bool.or_eq_false_iff] at hcond
    exact hcond.2
  have hcomp := hI hcond
  rw [hib] at hcomp
  have hall := computeIsBusy_false _ _ hcomp.symm
  intro w hw
  obtain ⟨i, hi⟩ := List.mem_iff_getElem?.1 hw
  obtain ⟨b, hbi, hb'⟩ := forall₂_getElem? hF i w hi
  have hlt : i < s.numProcesses - 1 := by
    have : i < s.slaves.length := by
      by_contra hc
      rw [List.getElem?_eq_none (by omega)] at hi
      cases hi
    simp only [Sys.numProcesses]
    omega
  have hbf : b = false := by
    have h1 := hall i hlt
    simpa [List.getD_eq_getElem?_getD, hbi] using h1
  subst hbf
  exact hb'.of_false

theorem getElem?_singleton_some {β : Type} (w w' : β) (i : Nat) (h : [w][i]? = some w') :
    i = 0 ∧ w' = w := by
  cases i with
  | zero =>
    simp at h
    exact ⟨rfl, h.symm⟩
  | succ i => simp at h

theorem step_after_return (f : α → α) (error : α) (s s' : Sys α) (a : Action)
    (hpc : s.master.pc = MasterPc.returned) (hst : step f error s a = some s') :
    s'.master = s.master ∧ s'.received = s.received := by
  cases a with
  | slaveStart i =>
    obtain ⟨w, _, _, rfl⟩ := slaveStart_spec s s' i hst
    exact ⟨rfl, rfl⟩
  | slaveServe i =>
    obtain ⟨w, m, rest, _, _, _, h | h⟩ := slaveServe_spec f error s s' i hst
    · obtain ⟨_, rfl⟩ := h
      exact ⟨rfl, rfl⟩
    · obtain ⟨_, rfl⟩ := h
      exact ⟨rfl, rfl⟩
  | masterRecv src =>
    have := (step_master_pc_loop f error s s' src hst).1
    rw [hpc] at this
    cases this
  | masterExit =>
    have := (step_masterExit f error s s' hst).1
    rw [hpc] at this
    cases this

theorem exec_after_return (f : α → α) (error : α) (l : List Action) (s s' : Sys α)
    (hpc : s.master.pc = MasterPc.returned) (h : exec f error s l = some s') :
    s'.master = s.master ∧ s'.received = s.received := by
  induction l generalizing s with
  | nil =>
    simp only [exec, Option.some.injEq] at h
    subst h
    exact ⟨rfl, rfl⟩
  | cons a rest ih =>
    obtain ⟨t, hst, hrest⟩ := exec_cons f error a rest s s' h
    obtain ⟨h1, h2⟩ := step_after_return f error s t a hpc hst
    obtain ⟨h3, h4⟩ := ih t (by rw [h1]; exact hpc) hrest
    exact ⟨h3.trans h1, h4.trans h2⟩

theorem enabled_unique (f : α → α) (error : α) (s : Sys α) (hinv : BusyInv s)
    (hone : s.slaves.length = 1) (a b : Action) (s1 s2 : Sys α)
    (ha : step f error s a = some s1) (hb : step f error s b = some s2) : a = b := by
  obtain ⟨w, hw⟩ : ∃ w, s.slaves = [w] := by
    cases hs : s.slaves with
    | nil => rw [hs] at hone; cases hone
    | cons w ws =>
      cases ws with
      | nil => exact ⟨w, rfl⟩
      | cons x xs => rw [hs] at hone; simp at hone
  have hmem : w ∈ s.slaves := by rw [hw]; exact List.mem_cons_self _ _
  have hstart : ∀ i t, step f error s (Action.slaveStart i) = some t →
      i = 0 ∧ w.pc = SlavePc.start := by
    intro i t h
    obtain ⟨w', hw', hpc, _⟩ := slaveStart_spec s t i h
    rw [hw] at hw'
    obtain ⟨hi, rfl⟩ := getElem?_singleton_some w w' i hw'
    exact ⟨hi, hpc⟩
  have hserve : ∀ i t, step f error s (Action.slaveServe i) = some t →
      i = 0 ∧ w.pc = SlavePc.serving ∧ ∃ m rest, w.inbox = m :: rest := by
    intro i t h
    obtain ⟨w', m, rest, hw', hpc, hin, _⟩ := slaveServe_spec f error s t i h
    rw [hw] at hw'
    obtain ⟨hi, rfl⟩ := getElem?_singleton_some w w' i hw'
    exact ⟨hi, hpc, m, rest, hin⟩
  have hrecv : ∀ src t, step f error s (Action.masterRecv src) = some t →
      src = 0 ∧ s.master.pc = MasterPc.loop ∧ ∃ m rest, w.outbox = m :: rest := by
    intro src t h
    obtain ⟨w', m, rest, hw', ho, _⟩ :=
      masterIter_spec s t src (step_masterRecv f error s t src h)
    rw [hw] at hw'
    obtain ⟨hi, rfl⟩ := getElem?_singleton_some w w' src hw'
    exact ⟨hi, (step_master_pc_loop f error s t src h).1, m, rest, ho⟩
  have hexit : ∀ t, step f error s Action.masterExit = some t →
      w.pc = SlavePc.serving ∧ w.inbox = [] ∧ w.outbox = [] := by
    intro t h
    obtain ⟨h1, h2, _⟩ := step_masterExit f error s t h
    exact busyInv_idle_at_exit s hinv ⟨h1, h2⟩ w hmem
  have htracked : s.master.pc = MasterPc.loop → ∃ b, Tracked b w := by
    intro hl
    obtain ⟨b, _, hb⟩ := forall₂_mem_right (hinv.1 hl).1 w hmem
    exact ⟨b, hb⟩
  cases a with
  | slaveStart i =>
    obtain ⟨hi, hpc⟩ := hstart i s1 ha
    cases b with
    | slaveStart j => rw [hi, (hstart j s2 hb).1]
    | slaveServe j =>
      have := (hserve j s2 hb).2.1
      rw [hpc] at this
      cases this
    | masterRecv src =>
      obtain ⟨_, hl, m, rest, ho⟩ := hrecv src s2 hb
      obtain ⟨b, hb'⟩ := htracked hl
      have := (hb'.of_start hpc).2.2
      rw [ho] at this
      cases this
    | masterExit =>
      have := (hexit s2 hb).1
      rw [hpc] at this
      cases this
  | slaveServe i =>
    obtain ⟨hi, hpc, m, rest, hin⟩ := hserve i s1 ha
    cases b with
    | slaveStart j =>
      have := (hstart j s2 hb).2
      rw [hpc] at this
      cases this
    | slaveServe j => rw [hi, (hserve j s2 hb).1]
    | masterRecv src =>
      obtain ⟨_, hl, m', rest', ho⟩ := hrecv src s2 hb
      obtain ⟨b, hb'⟩ := htracked hl
      have := (hb'.of_inbox m rest hin).2.2.2.1
      rw [ho] at this
      cases this
    | masterExit =>
      have := (hexit s2 hb).2.1
      rw [hin] at this
      cases this
  | masterRecv src =>
    obtain ⟨hi, hl, m, rest, ho⟩ := hrecv src s1 ha
    obtain ⟨b', hb'⟩ := htracked hl
    cases b with
    | slaveStart j =>
      have hpc := (hstart j s2 hb).2
      have := (hb'.of_start hpc).2.2
      rw [ho] at this
      cases this
    | slaveServe j =>
      obtain ⟨_, _, m', rest', hin⟩ := hserve j s2 hb
      have := (hb'.of_inbox m' rest' hin).2.2.2.1
      rw [ho] at this
      cases this
    | masterRecv src' => rw [hi, (hrecv src' s2 hb).1]
    | masterExit =>
      have := (hexit s2 hb).2.2
      rw [ho] at this
      cases this
  | masterExit =>
    obtain ⟨hpc, hin, hout⟩ := hexit s1 ha
    cases b with
    | slaveStart j =>
      have := (hstart j s2 hb).2
      rw [hpc] at this
      cases this
    | slaveServe j =>
      obtain ⟨_, _, m', rest', hin'⟩ := hserve j s2 hb
      rw [hin] at hin'
      cases hin'
    | masterRecv src =>
      obtain ⟨_, _, m, rest, ho⟩ := hrecv src s2 hb
      rw [hout] at ho
      cases ho
    | masterExit => rfl

theorem step_slaves_length (f : α → α) (error : α) (s s' : Sys α) (a : Action)
    (hst : step f error s a = some s') : s'.slaves.length = s.slaves.length := by
  cases a with
  | slaveStart i =>
    obtain ⟨w, _, _, rfl⟩ := slaveStart_spec s s' i hst
    simp [Sys.setSlave]
  | slaveServe i =>
    obtain ⟨w, m, rest, _, _, _, h | h⟩ := slaveServe_spec f error s s' i hst
    · obtain ⟨_, rfl⟩ := h
      simp [Sys.setSlave]
    · obtain ⟨_, rfl⟩ := h
      simp [Sys.setSlave]
  | masterRecv src =>
    exact (masterIter_lengths s s' src (step_masterRecv f error s s' src hst)).2
  | masterExit =>
    obtain ⟨_, _, rfl⟩ := step_masterExit f error s s' hst
    rw [masterExit_eq]
    simp

theorem exec_confluent (f : α → α) (error : α) (P : Sys α → Prop)
    (hP : ∀ s a s', P s → step f error s a = some s' → P s')
    (hdet : ∀ s a b s1 s2, P s → step f error s a = some s1 → step f error s b = some s2 →
      a = b)
    (l1 l2 : List Action) (s s1 s2 : Sys α) (hs : P s)
    (h1 : exec f error s l1 = some s1) (h2 : exec f error s l2 = some s2) :
    (∃ l, exec f error s1 l = some s2) ∨ (∃ l, exec f error s2 l = some s1) := by
  induction l1 generalizing s l2 with
  | nil =>
    simp only [exec, Option.some.injEq] at h1
    subst h1
    exact Or.inl ⟨l2, h2⟩
  | cons a rest ih =>
    cases l2 with
    | nil =>
      simp only [exec, Option.some.injEq] at h2
      subst h2
      exact Or.inr ⟨a :: rest, h1⟩
    | cons b rest2 =>
      obtain ⟨t1, hst1, hr1⟩ := exec_cons f error a rest s s1 h1
      obtain ⟨t2, hst2, hr2⟩ := exec_cons f error b rest2 s s2 h2
      have hab := hdet s a b t1 t2 hs hst1 hst2
      subst hab
      rw [hst1] at hst2
      cases hst2
      exact ih rest2 t1 (hP s a t1 hs hst1) hr1 hr2

theorem exec_append_inv (f : α → α) (error : α) (l1 l2 : List Action) (a c : Sys α)
    (h : exec f error a (l1 ++ l2) = some c) :
    ∃ b, exec f error a l1 = some b ∧ exec f error b l2 = some c := by
  induction l1 generalizing a with
  | nil => exact ⟨a, rfl, h⟩
  | cons x xs ih =>
    obtain ⟨t, hst, hrest⟩ := exec_cons f error x (xs ++ l2) a c h
    obtain ⟨b, hb1, hb2⟩ := ih t hrest
    refine ⟨b, ?_, hb2⟩
    simp only [exec, hst]
    exact hb1

theorem one_worker_first_moves (f : α → α) (error lower upper : α) (busy0 : Nat → Bool)
    (sched : List Action) (s : Sys α)
    (h : exec f error (init lower upper 2 busy0) sched = some s) :
    sched = [] ∨ sched = [Action.slaveStart 0] ∨
      ∃ rest, sched = Action.slaveStart 0 :: Action.masterRecv 0 :: rest := by
  cases sched with
  | nil => exact Or.inl rfl
  | cons a rest =>
    right
    obtain ⟨t, hst, hrest⟩ := exec_cons f error a rest _ s h
    have ha : a = Action.slaveStart 0 ∧
        t = (init lower upper 2 busy0).setSlave 0
          ⟨SlavePc.serving, [], [⟨0, ⟨0, 0, 0⟩⟩]⟩ := by
      cases a with
      | slaveStart i =>
        obtain ⟨w, hw, _, rfl⟩ := slaveStart_spec _ t i hst
        have hw' : [(⟨SlavePc.start, [], []⟩ : SlaveState α)][i]? = some w := hw
        obtain ⟨rfl, rfl⟩ := getElem?_singleton_some _ w i hw'
        exact ⟨rfl, rfl⟩
      | slaveServe i =>
        obtain ⟨w, m, rest', hw, hpc, _⟩ := slaveServe_spec f error _ t i hst
        have hw' : [(⟨SlavePc.start, [], []⟩ : SlaveState α)][i]? = some w := hw
        obtain ⟨_, rfl⟩ := getElem?_singleton_some _ w i hw'
        cases hpc
      | masterRecv src =>
        obtain ⟨w, m, rest', hw, ho, _⟩ :=
          masterIter_spec _ t src (step_masterRecv f error _ t src hst)
        have hw' : [(⟨SlavePc.start, [], []⟩ : SlaveState α)][src]? = some w := hw
        obtain ⟨_, rfl⟩ := getElem?_singleton_some _ w src hw'
        cases ho
      | masterExit =>
        have := (step_masterExit f error _ t hst).2.1
        simp [init, loopCond] at this
    obtain ⟨rfl, rfl⟩ := ha
    cases rest with
    | nil => exact Or.inl rfl
    | cons b rest' =>
      right
      obtain ⟨t2, hst2, _⟩ := exec_cons f error b rest' _ s hrest
      have hb : b = Action.masterRecv 0 := by
        cases b with
        | slaveStart i =>
          obtain ⟨w, hw, hpc, _⟩ := slaveStart_spec _ t2 i hst2
          have hw' : [(⟨SlavePc.serving, [], [⟨0, ⟨0, 0, 0⟩⟩]⟩ : SlaveState α)][i]? = some w := hw
          obtain ⟨_, rfl⟩ := getElem?_singleton_some _ w i hw'
          cases hpc
        | slaveServe i =>
          obtain ⟨w, m, rest'', hw, _, hin, _⟩ := slaveServe_spec f error _ t2 i hst2
          have hw' : [(⟨SlavePc.serving, [], [⟨0, ⟨0, 0, 0⟩⟩]⟩ : SlaveState α)][i]? = some w := hw
          obtain ⟨_, rfl⟩ := getElem?_singleton_some _ w i hw'
          cases hin
        | masterRecv src =>
          obtain ⟨w, m, rest'', hw, _, _⟩ :=
            masterIter_spec _ t2 src (step_masterRecv f error _ t2 src hst2)
          have hw' : [(⟨SlavePc.serving, [], [⟨0, ⟨0, 0, 0⟩⟩]⟩ : SlaveState α)][src]? = some w := hw
          obtain ⟨rfl, _⟩ := getElem?_singleton_some _ w src hw'
          rfl
        | masterExit =>
          have := (step_masterExit f error _ t2 hst2).2.1
          simp [init, loopCond, Sys.setSlave] at this
      exact ⟨rest', by rw [hb]⟩

theorem one_worker_any_busy (f : α → α) (error lower upper : α) (busy0 : Nat → Bool)
    (rest : List Action) (s : Sys α)
    (h : exec f error (init lower upper 2 busy0)
      (Action.slaveStart 0 :: Action.masterRecv 0 :: rest) = some s) :
    exec f error (init lower upper 2 (fun _ => true))
      (Action.slaveStart 0 :: Action.masterRecv 0 :: rest) = some s := by
  obtain ⟨b, hb1, hb2⟩ := exec_append_inv f error
    [Action.slaveStart 0, Action.masterRecv 0] rest _ s h
  rw [one_worker_start] at hb1
  cases hb1
  exact exec_append f error [Action.slaveStart 0, Action.masterRecv 0] rest _ _ _
    (one_worker_start f error lower upper (fun _ => true)) hb2

theorem one_worker_joins (f : α → α) (error lower upper : α) (busy0 : Nat → Bool)
    (hb : ∀ i, busy0 i = true) (sched1 sched2 : List Action) (s1 s2 : Sys α)
    (h1 : exec f error (init lower upper 2 busy0) sched1 = some s1)
    (h2 : exec f error (init lower upper 2 busy0) sched2 = some s2)
    (hpc : s1.master.pc = MasterPc.returned) :
    (∃ l s', exec f error s2 l = some s' ∧ s'.master = s1.master ∧ s'.received = s1.received) ∧
    (s2.master.pc = MasterPc.returned →
      s2.master = s1.master ∧ s2.received = s1.received) := by
  have hconf := exec_confluent f error (fun s => BusyInv s ∧ s.slaves.length = 1)
    (fun s a s' hs hst => ⟨step_busyInv f error s s' a hs.1 hst,
      (step_slaves_length f error s s' a hst).trans hs.2⟩)
    (fun s a b t1 t2 hs ha hb' => enabled_unique f error s hs.1 hs.2 a b t1 t2 ha hb')
    sched1 sched2 _ s1 s2 ⟨init_busyInv lower upper 2 busy0 hb, rfl⟩ h1 h2
  rcases hconf with ⟨l, hl⟩ | ⟨l, hl⟩
  · obtain ⟨hm, hrc⟩ := exec_after_return f error l s1 s2 hpc hl
    exact ⟨⟨[], s2, rfl, hm, hrc⟩, fun _ => ⟨hm, hrc⟩⟩
  · refine ⟨⟨l, s1, hl, rfl, rfl⟩, fun hpc2 => ?_⟩
    obtain ⟨hm, hrc⟩ := exec_after_return f error l s2 s1 hpc2 hl
    exact ⟨hm.symm, hrc.symm⟩

/-- C5: a worker in its serve loop whose oldest undelivered message `m` is an ASSIGN (tag 0)
receives it and sends, when `check_error` of the two estimates of `[m.d0, m.d1]` holds,
exactly one message, tagged 2 (DONE), with third field `trapezoidal_rule`; otherwise exactly
two messages, both tagged 1 (SPLIT), carrying `(lower, mid)` and then `(mid, upper)` with
`mid = (upper + lower) / 2`. Nothing else of the state changes. -/
theorem worker_reply_to_assign (f : α → α) (error : α) (s : Sys α) (i : Nat)
    (w : SlaveState α) (m : Msg α) (rest : List (Msg α))
    (hw : s.slaves[i]? = some w) (hpc : w.pc = SlavePc.serving)
    (hin : w.inbox = m :: rest) (htag : m.tag = 0) :
    slaveServe f error s i = some (s.setSlave i ⟨SlavePc.serving, rest, w.outbox ++
      (if check_error (trapezoidal_rule f m.values.d0 m.values.d1)
          (trapezoidal_actual f m.values.d0 m.values.d1) error = true then
        [⟨2, ⟨m.values.d0, m.values.d1, trapezoidal_rule f m.values.d0 m.values.d1⟩⟩]
      else
        [⟨1, ⟨m.values.d0, (m.values.d1 + m.values.d0) / 2, m.values.d2⟩⟩,
         ⟨1, ⟨(m.values.d1 + m.values.d0) / 2, m.values.d1, m.values.d2⟩⟩])⟩) := by
  have h3 : ¬ m.tag = 3 := by omega
  simp only [slaveServe, hw, hpc, if_true, hin, if_neg h3, slaveReply_eq]

/-- Witness of C5: the seed `[0, 1]` of the constant integrand `1` with threshold `1/2`
is answered by one DONE carrying `1`. -/
theorem worker_reply_to_assign_witness :
    slaveServe (fun _ : ℚ => 1) (1 / 2)
      ⟨⟨⟨0, 1, 0⟩, 0, [], [true], true, MasterPc.loop⟩,
        [⟨SlavePc.serving, [⟨0, ⟨0, 1, 0⟩⟩], []⟩], []⟩ 0 =
    some ⟨⟨⟨0, 1, 0⟩, 0, [], [true], true, MasterPc.loop⟩,
        [⟨SlavePc.serving, [], [⟨2, ⟨0, 1, 1⟩⟩]⟩], []⟩ := by
  have h := worker_reply_to_assign (fun _ : ℚ => 1) (1 / 2)
    ⟨⟨⟨0, 1, 0⟩, 0, [], [true], true, MasterPc.loop⟩,
      [⟨SlavePc.serving, [⟨0, ⟨0, 1, 0⟩⟩], []⟩], []⟩ 0
    ⟨SlavePc.serving, [⟨0, ⟨0, 1, 0⟩⟩], []⟩ ⟨0, ⟨0, 1, 0⟩⟩ [] rfl rfl rfl rfl
  rw [h]
  simp [Sys.setSlave, trapezoidal_rule_const, trapezoidal_actual_const, check_error]

/-- C6: when a worker splits a record with `lower ≤ upper`, the two legs are
`[lower, mid]` and `[mid, upper]` with `mid = (upper + lower) / 2`; each has its lower
bound below its upper bound, their union is `[lower, upper]` and their intersection is
`{mid}`. The recursive calls of `adaptive_quadrature` are made on the same two intervals. -/
theorem split_geometry (f : α → α) (error : α) (values : fStruct α)
    (hle : values.d0 ≤ values.d1)
    (hsplit : check_error (trapezoidal_rule f values.d0 values.d1)
      (trapezoidal_actual f values.d0 values.d1) error = false) :
    ∃ mid : α, mid = (values.d1 + values.d0) / 2 ∧
      slaveReply f error values =
        [⟨1, ⟨values.d0, mid, values.d2⟩⟩, ⟨1, ⟨mid, values.d1, values.d2⟩⟩] ∧
      (∀ fuel, adaptive_quadrature f (fuel + 1) values.d0 values.d1 error =
        (adaptive_quadrature f fuel values.d0 mid error).bind (fun left =>
          (adaptive_quadrature f fuel mid values.d1 error).map (fun right => 0 + left + right))) ∧
      values.d0 ≤ mid ∧ mid ≤ values.d1 ∧
      Set.Icc values.d0 mid ∪ Set.Icc mid values.d1 = Set.Icc values.d0 values.d1 ∧
      Set.Icc values.d0 mid ∩ Set.Icc mid values.d1 = {mid} := by
  obtain ⟨h1, h2⟩ := le_bisect _ _ hle
  refine ⟨(values.d1 + values.d0) / 2, rfl, ?_, ?_, h1, h2, Set.Icc_union_Icc_eq_Icc h1 h2, ?_⟩
  · rw [slaveReply_eq, hsplit]
    simp
  · intro fuel
    simp only [adaptive_quadrature, hsplit]
    cases adaptive_quadrature f fuel values.d0 ((values.d1 + values.d0) / 2) error with
    | none => simp
    | some left =>
      cases adaptive_quadrature f fuel ((values.d1 + values.d0) / 2) values.d1 error <;> simp
  · ext x
    simp only [Set.mem_inter_iff, Set.mem_Icc, Set.mem_singleton_iff]
    constructor
    · rintro ⟨⟨_, hx1⟩, hx2, _⟩
      exact le_antisymm hx1 hx2
    · rintro rfl
      exact ⟨⟨h1, le_refl _⟩, le_refl _, h2⟩

/-- Witness of C6: `[0, 1]` under the threshold `-1` is split at `1/2`. -/
theorem split_geometry_witness :
    ∃ mid : ℚ, mid = ((1 : ℚ) + 0) / 2 ∧
      slaveReply (fun x : ℚ => x) (-1) ⟨0, 1, 0⟩ = [⟨1, ⟨0, mid, 0⟩⟩, ⟨1, ⟨mid, 1, 0⟩⟩] ∧
      (∀ fuel, adaptive_quadrature (fun x : ℚ => x) (fuel + 1) 0 1 (-1) =
        (adaptive_quadrature (fun x : ℚ => x) fuel 0 mid (-1)).bind (fun left =>
          (adaptive_quadrature (fun x : ℚ => x) fuel mid 1 (-1)).map
            (fun right => 0 + left + right))) ∧
      (0 : ℚ) ≤ mid ∧ mid ≤ 1 ∧
      Set.Icc (0 : ℚ) mid ∪ Set.Icc mid 1 = Set.Icc 0 1 ∧
      Set.Icc (0 : ℚ) mid ∩ Set.Icc mid 1 = {mid} :=
  split_geometry (fun x : ℚ => x) (-1) ⟨0, 1, 0⟩ (by norm_num)
    (check_error_of_neg _ _ (by norm_num))

/-- C8: for one integrand and one interval, if `adaptive_quadrature` returns under the
thresholds `e1` and `e2 ≤ e1`, then its recursion tree under `e2` has at least as many
accepted leaves as under `e1`, and every interval split under `e1` is split under `e2`;
each returned value is the sum of `trapezoidal_rule` over the accepted leaves. -/
theorem leaves_monotone_in_epsilon (f : α → α) (lower upper e1 e2 : α) (n1 n2 : Nat)
    (v1 v2 : α) (he : e2 ≤ e1)
    (h1 : adaptive_quadrature f n1 lower upper e1 = some v1)
    (h2 : adaptive_quadrature f n2 lower upper e2 = some v2) :
    ∃ t1 t2, aqTrace f n1 lower upper e1 = some t1 ∧ aqTrace f n2 lower upper e2 = some t2 ∧
      v1 = (t1.1.map (fun p => trapezoidal_rule f p.1 p.2)).sum ∧
      v2 = (t2.1.map (fun p => trapezoidal_rule f p.1 p.2)).sum ∧
      t1.1.length ≤ t2.1.length ∧ ∀ p ∈ t1.2, p ∈ t2.2 := by
  rw [adaptive_quadrature_eq_aqTrace] at h1 h2
  cases ht1 : aqTrace f n1 lower upper e1 with
  | none => simp [ht1] at h1
  | some t1 =>
    cases ht2 : aqTrace f n2 lower upper e2 with
    | none => simp [ht2] at h2
    | some t2 =>
      simp only [ht1, ht2, Option.map_some', Option.some.injEq] at h1 h2
      obtain ⟨hl, hs⟩ := aqTrace_mono f lower upper e1 e2 n1 n2 t1 t2 he ht1 ht2
      exact ⟨t1, t2, rfl, rfl, h1.symm, h2.symm, hl, hs⟩

/-- Witness of C8: for `x * x` on `[0, 1]` the threshold `1` accepts the seed, and the
threshold `1/10` splits it once and accepts the two halves. -/
theorem leaves_monotone_in_epsilon_witness :
    ∃ t1 t2, aqTrace (fun x : ℚ => x * x) 1 0 1 1 = some t1 ∧
      aqTrace (fun x : ℚ => x * x) 2 0 1 (1 / 10) = some t2 ∧
      (1 / 2 : ℚ) = (t1.1.map (fun p => trapezoidal_rule (fun x : ℚ => x * x) p.1 p.2)).sum ∧
      (3 / 8 : ℚ) = (t2.1.map (fun p => trapezoidal_rule (fun x : ℚ => x * x) p.1 p.2)).sum ∧
      t1.1.length ≤ t2.1.length ∧ ∀ p ∈ t1.2, p ∈ t2.2 :=
  leaves_monotone_in_epsilon (fun x : ℚ => x * x) 0 1 1 (1 / 10) 1 2 (1 / 2) (3 / 8)
    (by norm_num) (by decide!) (by decide!)

/-! ## The coverage invariant (C4) -/

/-- C4, as stated, fails for a degenerate domain: with `lower = upper = 0` and the
threshold `-1` the one worker splits `[0, 0]` into `[0, 0]` and `[0, 0]`, so the same
interval occurs twice among the intervals of a reachable state. -/
theorem degenerate_interval_occurs_twice :
    (0 : ℚ) ≤ 0 ∧ ∃ s : Sys ℚ, Reachable (fun _ => 0) (-1) 0 0 2 (fun _ => false) s ∧
      s.intervals = [(0, 0), (0, 0)] ∧ ¬ s.intervals.Nodup :=
  ⟨le_refl 0,
    ⟨⟨⟨0, 0, 0⟩, 0, [], [true], true, MasterPc.loop⟩,
      [⟨SlavePc.serving, [], [⟨1, ⟨0, 0, 0⟩⟩, ⟨1, ⟨0, 0, 0⟩⟩]⟩], [⟨0, ⟨0, 0, 0⟩⟩]⟩,
    ⟨[Action.slaveStart 0, Action.masterRecv 0, Action.slaveServe 0], by decide!⟩,
    by decide!, by decide!⟩

/-- C4, amended: in every reachable state, for `lower ≤ upper`, the intervals of the task
stack, of the tasks and replies in transit and of the accepted DONE messages can be
ordered, each used exactly once, as a chain `[x0,x1], [x1,x2], ..., [x(k-1),xk]` with
`x0 = lower`, `xk = upper` and `x(i-1) ≤ xi`; when `lower < upper` every link has
`x(i-1) < xi` and no interval occurs twice. -/
theorem coverage_chain (f : α → α) (error lower upper : α) (numProcesses : Nat)
    (busy0 : Nat → Bool) (s : Sys α) (hle : lower ≤ upper)
    (hr : Reachable f error lower upper numProcesses busy0 s) :
    ∃ c : List (α × α), c.Perm s.intervals ∧ IsChain lower upper c ∧
      (∀ p ∈ c, p.1 ≤ p.2) ∧
      (lower < upper → (∀ p ∈ c, p.1 < p.2) ∧ s.intervals.Nodup) := by
  obtain ⟨c, hc, hchain⟩ := reachable_covers hr
  have hperm : c.Perm s.intervals := by
    rw [← coe_intervals] at hc
    exact Multiset.coe_eq_coe.1 hc
  have hmem : ∀ p ∈ c, p ∈ s.M := fun p hp => by
    rw [← hc]
    exact Multiset.mem_coe.2 hp
  refine ⟨c, hperm, hchain, ?_, ?_⟩
  · intro p hp
    exact reachable_forall (fun l u => l ≤ u) le_bisect hle hr p (hmem p hp)
  · intro hlt
    have hall : ∀ p ∈ c, p.1 < p.2 := fun p hp =>
      reachable_forall (fun l u => l < u) lt_bisect hlt hr p (hmem p hp)
    exact ⟨hall, hperm.nodup_iff.1 (isChain_nodup _ _ c hchain hall)⟩

/-- Witness of C4 (amended): after the seed `[0, 1]` has been split and the right half
sent out again, the stack holds `[0, 1/2]` and the worker's inbox `[1/2, 1]`. -/
theorem coverage_chain_witness :
    (0 : ℚ) ≤ 1 ∧
    Reachable (fun _ : ℚ => 0) (-1) 0 1 2 (fun _ => false)
      ⟨⟨⟨1 / 2, 1, 0⟩, 0, [⟨0, 1 / 2, 0⟩], [true], true, MasterPc.loop⟩,
        [⟨SlavePc.serving, [⟨0, ⟨1 / 2, 1, 0⟩⟩], []⟩],
        [⟨1, ⟨1 / 2, 1, 0⟩⟩, ⟨1, ⟨0, 1 / 2, 0⟩⟩, ⟨0, ⟨0, 0, 0⟩⟩]⟩ ∧
    ∃ c : List (ℚ × ℚ), c.Perm [(0, 1 / 2), (1 / 2, 1)] ∧ IsChain 0 1 c ∧
      (∀ p ∈ c, p.1 ≤ p.2) ∧
      ((0 : ℚ) < 1 → (∀ p ∈ c, p.1 < p.2) ∧ [((0 : ℚ), (1 / 2 : ℚ)), (1 / 2, 1)].Nodup) := by
  have hr : Reachable (fun _ : ℚ => 0) (-1) 0 1 2 (fun _ => false)
      ⟨⟨⟨1 / 2, 1, 0⟩, 0, [⟨0, 1 / 2, 0⟩], [true], true, MasterPc.loop⟩,
        [⟨SlavePc.serving, [⟨0, ⟨1 / 2, 1, 0⟩⟩], []⟩],
        [⟨1, ⟨1 / 2, 1, 0⟩⟩, ⟨1, ⟨0, 1 / 2, 0⟩⟩, ⟨0, ⟨0, 0, 0⟩⟩]⟩ :=
    ⟨[Action.slaveStart 0, Action.masterRecv 0, Action.slaveServe 0, Action.masterRecv 0],
      by decide!⟩
  exact ⟨by norm_num, hr, coverage_chain _ _ _ _ _ _ _ (by norm_num) hr⟩

/-! ## The accumulator (C9, C10) -/

/-- C9: in every reachable state `result` is the sum of the third fields of the DONE (tag 2)
messages received so far, each once; a pass of the loop that receives a message with
another tag (READY, SPLIT) leaves `result` as it was, one that receives a DONE adds its
third field, and after the pass `result` is again that sum; the dispatch loop does not
change `result`. -/
theorem accumulator_is_sum_of_done (f : α → α) (error lower upper : α) (numProcesses : Nat)
    (busy0 : Nat → Bool) (s : Sys α)
    (hr : Reachable f error lower upper numProcesses busy0 s) :
    s.master.result = (s.accepted.map (fun m => m.values.d2)).sum ∧
    (∀ src s', step f error s (Action.masterRecv src) = some s' →
      ∃ w m rest, s.slaves[src]? = some w ∧ w.outbox = m :: rest ∧
        s'.master.result =
          (if m.tag = 2 then s.master.result + m.values.d2 else s.master.result) ∧
        s'.master.result = (s'.accepted.map (fun m => m.values.d2)).sum) ∧
    (∀ t : Sys α, (dispatch t).master.result = t.master.result) := by
  refine ⟨reachable_result hr, ?_, dispatch_result⟩
  intro src s' hst
  obtain ⟨w, m, rest, hw, ho, hres, _⟩ :=
    masterIter_result s s' src (step_masterRecv f error s s' src hst)
  exact ⟨w, m, rest, hw, ho, hres, reachable_result (hr.step _ hst)⟩

/-- Witness of C9: one worker, constant integrand `1` on `[0, 1]`; the state in which the
worker's DONE carrying `1` is the next message for rank 0. -/
theorem accumulator_is_sum_of_done_witness :
    ∃ s : Sys ℚ, Reachable (fun _ : ℚ => 1) (1 / 2) 0 1 2 (fun _ => false) s ∧
      (s.slaves.map (fun w => w.outbox)) = [[⟨2, ⟨0, 1, 1⟩⟩]] ∧
      (s.master.result = (s.accepted.map (fun m => m.values.d2)).sum ∧
      (∀ src s', step (fun _ : ℚ => 1) (1 / 2) s (Action.masterRecv src) = some s' →
        ∃ w m rest, s.slaves[src]? = some w ∧ w.outbox = m :: rest ∧
          s'.master.result =
            (if m.tag = 2 then s.master.result + m.values.d2 else s.master.result) ∧
          s'.master.result = (s'.accepted.map (fun m => m.values.d2)).sum) ∧
      (∀ t : Sys ℚ, (dispatch t).master.result = t.master.result)) := by
  have hr : Reachable (fun _ : ℚ => 1) (1 / 2) 0 1 2 (fun _ => false)
      ⟨⟨⟨0, 1, 0⟩, 0, [], [true], true, MasterPc.loop⟩,
        [⟨SlavePc.serving, [], [⟨2, ⟨0, 1, 1⟩⟩]⟩], [⟨0, ⟨0, 0, 0⟩⟩]⟩ :=
    ⟨[Action.slaveStart 0, Action.masterRecv 0, Action.slaveServe 0], by decide!⟩
  exact ⟨_, hr, rfl, accumulator_is_sum_of_done _ _ _ _ _ _ _ hr⟩

/-- C10: for an integrand with `f x ≥ 0` everywhere (the program's integrand
`|5x cos(6x) sin(x)| / 20` is one, whatever `cos` and `sin` are) and `lower ≤ upper`, in
every reachable state every interval of the system has its lower bound below its upper
bound, every DONE in transit carries `trapezoidal_rule` of its interval, which is `≥ 0`,
and no move of the system decreases `result`. -/
theorem accumulator_never_decreases (f : α → α) (error lower upper : α) (numProcesses : Nat)
    (busy0 : Nat → Bool) (s : Sys α) (hf : ∀ x, 0 ≤ f x) (hle : lower ≤ upper)
    (hr : Reachable f error lower upper numProcesses busy0 s) :
    (∀ (cos sin : α → α) (x : α), 0 ≤ function cos sin x) ∧
    (∀ p ∈ s.intervals, p.1 ≤ p.2) ∧
    (∀ w ∈ s.slaves, ∀ m ∈ w.outbox, m.tag = 2 →
      m.values.d2 = trapezoidal_rule f m.values.d0 m.values.d1 ∧ 0 ≤ m.values.d2) ∧
    (∀ a s', step f error s a = some s' → s.master.result ≤ s'.master.result) := by
  have hiv : ∀ p ∈ s.M, p.1 ≤ p.2 := reachable_forall (fun l u => l ≤ u) le_bisect hle hr
  have hdone : ∀ w ∈ s.slaves, ∀ m ∈ w.outbox, m.tag = 2 →
      m.values.d2 = trapezoidal_rule f m.values.d0 m.values.d1 ∧ 0 ≤ m.values.d2 := by
    intro w hw m hm h2
    have h := reachable_doneOK hr w hw m hm h2
    refine ⟨h, ?_⟩
    rw [h]
    exact trapezoidal_rule_nonneg f hf _ _ (hiv _ (mem_M_of_outbox s w hw m hm (Or.inr h2)))
  refine ⟨function_nonneg, ?_, hdone, ?_⟩
  · intro p hp
    refine hiv p ?_
    rw [← coe_intervals]
    exact Multiset.mem_coe.2 hp
  · intro a s' hst
    by_cases ha : ∃ src, a = Action.masterRecv src
    · obtain ⟨src, rfl⟩ := ha
      obtain ⟨w, m, rest, hw, ho, hres, _⟩ :=
        masterIter_result s s' src (step_masterRecv f error s s' src hst)
      rw [hres]
      by_cases h2 : m.tag = 2
      · rw [if_pos h2]
        have := (hdone w (List.getElem?_mem hw) m (by rw [ho]; exact List.mem_cons_self _ _) h2).2
        linarith
      · rw [if_neg h2]
    · exact le_of_eq
        (step_slave_master f error s s' a hst (fun src hsrc => ha ⟨src, hsrc⟩)).1.symm

/-- Witness of C10: the state of the witness of C9, from which the next pass of the loop
raises `result` from `0` to `1`. -/
theorem accumulator_never_decreases_witness :
    ∃ s : Sys ℚ, Reachable (fun _ : ℚ => 1) (1 / 2) 0 1 2 (fun _ => false) s ∧
      (step (fun _ : ℚ => 1) (1 / 2) s (Action.masterRecv 0)).map (fun s' => s'.master.result)
        = some 1 ∧
      ((∀ (cos sin : ℚ → ℚ) (x : ℚ), 0 ≤ function cos sin x) ∧
      (∀ p ∈ s.intervals, p.1 ≤ p.2) ∧
      (∀ w ∈ s.slaves, ∀ m ∈ w.outbox, m.tag = 2 →
        m.values.d2 = trapezoidal_rule (fun _ : ℚ => 1) m.values.d0 m.values.d1
          ∧ 0 ≤ m.values.d2) ∧
      (∀ a s', step (fun _ : ℚ => 1) (1 / 2) s a = some s' →
        s.master.result ≤ s'.master.result)) := by
  have hr : Reachable (fun _ : ℚ => 1) (1 / 2) 0 1 2 (fun _ => false)
      ⟨⟨⟨0, 1, 0⟩, 0, [], [true], true, MasterPc.loop⟩,
        [⟨SlavePc.serving, [], [⟨2, ⟨0, 1, 1⟩⟩]⟩], [⟨0, ⟨0, 0, 0⟩⟩]⟩ :=
    ⟨[Action.slaveStart 0, Action.masterRecv 0, Action.slaveServe 0], by decide!⟩
  exact ⟨_, hr, by decide!,
    accumulator_never_decreases _ _ _ _ _ _ _ (fun _ => by norm_num) (by norm_num) hr⟩

/-! ## Runs in which `busy` is read before it is written (C1, C2, C3, C7)

`bool busy[numProcesses - 1]` is never initialised. In the runs below every cell reads
`false` at first, and a task is sent to a worker whose READY rank 0 has not yet received;
that READY then clears the worker's flag while the worker still holds the task. -/

/-- The run behind C1, C2 and C7: two workers, the READY of worker 1 is received first,
the seed goes to worker 0, then the READY of worker 0 is received. -/
theorem early_exit_run (f : ℚ → ℚ) (error : ℚ) :
    exec f error (init 0 1 3 (fun _ => false))
      [Action.slaveStart 0, Action.slaveStart 1, Action.masterRecv 1, Action.masterRecv 0] =
    some ⟨⟨⟨0, 0, 0⟩, 0, [], [false, false], false, MasterPc.loop⟩,
      [⟨SlavePc.serving, [⟨0, ⟨0, 1, 0⟩⟩], []⟩, ⟨SlavePc.serving, [], []⟩],
      [⟨0, ⟨0, 0, 0⟩⟩, ⟨0, ⟨0, 0, 0⟩⟩]⟩ := by
  rfl

/-- C1 at its failing input: with two workers, `master` leaves its loop while the seed
`[0, 1]`, sent to worker 0, is still undelivered and unanswered. -/
theorem loop_exits_with_task_in_flight :
    ∃ s : Sys ℚ, Reachable (fun _ => 1) (1 / 2) 0 1 3 (fun _ => false) s ∧
      s.LoopExits ∧ ¬ s.Quiet ∧
      s.slaves.map SlaveState.assigned = [[⟨0, ⟨0, 1, 0⟩⟩], []] ∧
      s.slaves.map SlaveState.outstanding = [1, 0] :=
  ⟨_, ⟨_, early_exit_run _ _⟩, by decide!, by decide!, by decide!, by decide!⟩

/-- C2 at its failing input: for the constant integrand `1` on `[0, 1]` with threshold
`1/2`, a run with one worker leaves the loop and returns `1`, and a run with two workers
leaves the loop and returns `0`. -/
theorem result_depends_on_pool_and_order :
    ∃ s1 s2 : Sys ℚ,
      Reachable (fun _ => 1) (1 / 2) 0 1 2 (fun _ => false) s1 ∧
      Reachable (fun _ => 1) (1 / 2) 0 1 3 (fun _ => false) s2 ∧
      s1.master.pc = MasterPc.returned ∧ s2.master.pc = MasterPc.returned ∧
      s1.master.result = 1 ∧ s2.master.result = 0 ∧ s1.master.result ≠ s2.master.result := by
  have h1 : Reachable (fun _ : ℚ => 1) (1 / 2) 0 1 2 (fun _ => false)
      ⟨⟨⟨0, 1, 1⟩, 1, [], [false], false, MasterPc.returned⟩,
        [⟨SlavePc.serving, [⟨3, ⟨0, 1, 1⟩⟩], []⟩],
        [⟨2, ⟨0, 1, 1⟩⟩, ⟨0, ⟨0, 0, 0⟩⟩]⟩ :=
    ⟨[Action.slaveStart 0, Action.masterRecv 0, Action.slaveServe 0, Action.masterRecv 0,
      Action.masterExit], by decide!⟩
  have h2 : Reachable (fun _ : ℚ => 1) (1 / 2) 0 1 3 (fun _ => false)
      ⟨⟨⟨0, 0, 0⟩, 0, [], [false, false], false, MasterPc.returned⟩,
        [⟨SlavePc.serving, [⟨0, ⟨0, 1, 0⟩⟩, ⟨3, ⟨0, 0, 0⟩⟩], []⟩,
         ⟨SlavePc.serving, [⟨3, ⟨0, 0, 0⟩⟩], []⟩],
        [⟨0, ⟨0, 0, 0⟩⟩, ⟨0, ⟨0, 0, 0⟩⟩]⟩ :=
    (Reachable.step Action.masterExit ⟨_, early_exit_run _ _⟩ (by decide!))
  exact ⟨_, _, h1, h2, rfl, rfl, rfl, rfl, by norm_num⟩

/-- C3 at its failing input: two workers, threshold `-1` (every task is split). Worker 1 is
sent `[0, 1/2]` before its READY is received; when that READY is received its flag is
cleared and it is sent `[1/2, 3/4]` while `[0, 1/2]` is still unanswered. -/
theorem second_assign_before_answer :
    ∃ s s' : Sys ℚ, Reachable (fun _ => 1) (-1) 0 1 3 (fun _ => false) s ∧
      step (fun _ => 1) (-1) s (Action.masterRecv 1) = some s' ∧
      s.slaves.map SlaveState.outstanding = [1, 1] ∧
      s'.slaves.map SlaveState.outstanding = [1, 2] ∧
      s'.slaves.map SlaveState.assigned =
        [[⟨0, ⟨3 / 4, 1, 0⟩⟩], [⟨0, ⟨0, 1 / 2, 0⟩⟩, ⟨0, ⟨1 / 2, 3 / 4, 0⟩⟩]] := by
  have h : Reachable (fun _ : ℚ => 1) (-1) 0 1 3 (fun _ => false)
      ⟨⟨⟨3 / 4, 1, 0⟩, 0, [⟨1 / 2, 3 / 4, 0⟩], [true, true], true, MasterPc.loop⟩,
        [⟨SlavePc.serving, [⟨0, ⟨3 / 4, 1, 0⟩⟩], []⟩,
         ⟨SlavePc.serving, [⟨0, ⟨0, 1 / 2, 0⟩⟩], [⟨0, ⟨0, 0, 0⟩⟩]⟩],
        [⟨1, ⟨3 / 4, 1, 0⟩⟩, ⟨1, ⟨1 / 2, 3 / 4, 0⟩⟩, ⟨1, ⟨1 / 2, 1, 0⟩⟩, ⟨1, ⟨0, 1 / 2, 0⟩⟩,
         ⟨0, ⟨0, 0, 0⟩⟩]⟩ :=
    ⟨[Action.slaveStart 0, Action.masterRecv 0, Action.slaveServe 0, Action.masterRecv 0,
      Action.slaveServe 0, Action.masterRecv 0, Action.slaveStart 1], by decide!⟩
  exact ⟨_, (⟨⟨⟨1 / 2, 3 / 4, 0⟩, 0, [], [true, true], true, MasterPc.loop⟩,
        [⟨SlavePc.serving, [⟨0, ⟨3 / 4, 1, 0⟩⟩], []⟩,
         ⟨SlavePc.serving, [⟨0, ⟨0, 1 / 2, 0⟩⟩, ⟨0, ⟨1 / 2, 3 / 4, 0⟩⟩], []⟩],
        [⟨0, ⟨0, 0, 0⟩⟩, ⟨1, ⟨3 / 4, 1, 0⟩⟩, ⟨1, ⟨1 / 2, 3 / 4, 0⟩⟩, ⟨1, ⟨1 / 2, 1, 0⟩⟩,
         ⟨1, ⟨0, 1 / 2, 0⟩⟩, ⟨0, ⟨0, 0, 0⟩⟩]⟩ : Sys ℚ),
    h, by decide!, by decide!, by decide!, by decide!⟩

/-- C7 at its failing input: for the constant integrand `1` on `[0, 1]` and the threshold
`1/2 > 0` both estimates are `1 * (1 - 0)`, yet with two workers `master` can leave the
loop and return `0`. -/
theorem constant_integrand_result_lost :
    trapezoidal_rule (fun _ : ℚ => 1) 0 1 = 1 * (1 - 0) ∧
    trapezoidal_actual (fun _ : ℚ => 1) 0 1 = 1 * (1 - 0) ∧
    ∃ s : Sys ℚ, Reachable (fun _ => 1) (1 / 2) 0 1 3 (fun _ => false) s ∧
      s.master.pc = MasterPc.returned ∧ s.master.result = 0 ∧
      s.master.result ≠ 1 * (1 - 0) := by
  refine ⟨trapezoidal_rule_const 1 0 1, trapezoidal_actual_const 1 0 1, ?_⟩
  have h2 : Reachable (fun _ : ℚ => 1) (1 / 2) 0 1 3 (fun _ => false)
      ⟨⟨⟨0, 0, 0⟩, 0, [], [false, false], false, MasterPc.returned⟩,
        [⟨SlavePc.serving, [⟨0, ⟨0, 1, 0⟩⟩, ⟨3, ⟨0, 0, 0⟩⟩], []⟩,
         ⟨SlavePc.serving, [⟨3, ⟨0, 0, 0⟩⟩], []⟩],
        [⟨0, ⟨0, 0, 0⟩⟩, ⟨0, ⟨0, 0, 0⟩⟩]⟩ :=
    (Reachable.step Action.masterExit ⟨_, early_exit_run _ _⟩ (by decide!))
  exact ⟨_, h2, rfl, rfl, by norm_num⟩

/-! ## Predicates, start-up, shutdown, dispatch and the one-worker refinement (C11 to C19) -/


/-- C11: `check_error calculated actual error` is `true` exactly when
`|actual - calculated| ≤ error`; it is `true` when the difference equals `error`, and
exchanging `calculated` and `actual` does not change it. -/
theorem check_error_iff_within (calculated actual error : α) :
    (check_error calculated actual error = true ↔ |actual - calculated| ≤ error) ∧
    check_error calculated actual |actual - calculated| = true ∧
    check_error calculated actual error = check_error actual calculated error := by
  refine ⟨check_error_eq_true_iff _ _ _, (check_error_eq_true_iff _ _ _).2 (le_refl _), ?_⟩
  unfold check_error
  rw [abs_sub_comm]


/-- C12: an invocation with `argc < 4`, or with `argc ≥ 4` and `numProc < 2`, ends with
exit code 1 without calling `master` or `slave` and without parsing an argument; with
`argc < 4` it prints the usage message, whatever `numProc` is (the argument count is
tested first), otherwise the message about the number of nodes. -/
theorem startup_errors (argc numProc myProcID : Int) (argv : Nat → α)
    (h : argc < 4 ∨ (4 ≤ argc ∧ numProc < 2)) :
    exitCode (main argc numProc myProcID argv) = some 1 ∧
    (∀ e ∈ main argc numProc myProcID argv, e.isCall = false ∧ e.isParse = false) ∧
    (argc < 4 → main argc numProc myProcID argv =
      [MainEvent.mpiInit, MainEvent.commSize, MainEvent.commRank,
       MainEvent.printUsage, MainEvent.mpiFinalize, MainEvent.exit 1]) ∧
    (4 ≤ argc → main argc numProc myProcID argv =
      [MainEvent.mpiInit, MainEvent.commSize, MainEvent.commRank,
       MainEvent.printNodes, MainEvent.mpiFinalize, MainEvent.exit 1]) := by
  rcases h with h | ⟨h4, h2⟩
  · have hm : main argc numProc myProcID argv =
        [MainEvent.mpiInit, MainEvent.commSize, MainEvent.commRank,
         MainEvent.printUsage, MainEvent.mpiFinalize, MainEvent.exit 1] := by
      simp [main, h]
    refine ⟨by rw [hm]; rfl, ?_, fun _ => hm, fun h4 => by omega⟩
    rw [hm]
    intro e he
    simp only [List.mem_cons, List.mem_singleton, List.not_mem_nil, or_false] at he
    rcases he with rfl | rfl | rfl | rfl | rfl | rfl <;> exact ⟨rfl, rfl⟩
  · have hn : ¬ argc < 4 := by omega
    have hm : main argc numProc myProcID argv =
        [MainEvent.mpiInit, MainEvent.commSize, MainEvent.commRank,
         MainEvent.printNodes, MainEvent.mpiFinalize, MainEvent.exit 1] := by
      simp [main, hn, h2]
    refine ⟨by rw [hm]; rfl, ?_, fun h => absurd h hn, fun _ => hm⟩
    rw [hm]
    intro e he
    simp only [List.mem_cons, List.mem_singleton, List.not_mem_nil, or_false] at he
    rcases he with rfl | rfl | rfl | rfl | rfl | rfl <;> exact ⟨rfl, rfl⟩

/-- Witness of C12: two arguments and a single process: the usage message, exit code 1. -/
theorem startup_errors_witness :
    exitCode (main 2 1 0 (fun _ => (0 : ℚ))) = some 1 ∧
    main 2 1 0 (fun _ => (0 : ℚ)) =
      [MainEvent.mpiInit, MainEvent.commSize, MainEvent.commRank,
       MainEvent.printUsage, MainEvent.mpiFinalize, MainEvent.exit 1] :=
  ⟨(startup_errors 2 1 0 (fun _ => (0 : ℚ)) (Or.inl (by decide))).1,
   (startup_errors 2 1 0 (fun _ => (0 : ℚ)) (Or.inl (by decide))).2.2.1 (by decide)⟩


/-- C13: in every reachable state the number of TERMINATE messages (tag 3) sent to each
worker is `0` while `master` is in its loop and exactly `1` once it has left it; the move
that leaves the loop is possible only when the loop test fails and sends one TERMINATE to
every worker and nothing else; after it rank 0 makes no further move, so it sends no
ASSIGN; and a worker that receives a message leaves its serve loop exactly when the tag
is 3. -/
theorem shutdown_once (f : α → α) (error lower upper : α) (numProcesses : Nat)
    (busy0 : Nat → Bool) (s : Sys α)
    (hr : Reachable f error lower upper numProcesses busy0 s) :
    (∀ w ∈ s.slaves, w.terminates = if s.master.pc = MasterPc.returned then 1 else 0) ∧
    (∀ s', step f error s Action.masterExit = some s' →
      s.master.pc = MasterPc.loop ∧ loopCond s.master = false ∧
      s' = Sys.mk { s.master with pc := MasterPc.returned }
        (s.slaves.map (SlaveState.addTerminate s.master.values)) s.received) ∧
    (s.master.pc = MasterPc.returned →
      step f error s Action.masterExit = none ∧
      ∀ src, step f error s (Action.masterRecv src) = none) ∧
    (∀ i s' w m rest, s.slaves[i]? = some w → w.inbox = m :: rest →
      step f error s (Action.slaveServe i) = some s' →
      ∃ w', s'.slaves[i]? = some w' ∧ (w'.pc = SlavePc.returned ↔ m.tag = 3)) := by
  refine ⟨reachable_terminates hr, ?_, ?_, ?_⟩
  · intro s' hst
    obtain ⟨h1, h2, h3⟩ := step_masterExit f error s s' hst
    exact ⟨h1, h2, by rw [h3, masterExit_eq]⟩
  · intro hpc
    refine ⟨by simp [step, hpc], fun src => by simp [step, hpc]⟩
  · intro i s' w m rest hw hin hst
    obtain ⟨w0, m0, rest0, hw0, hpc, hin0, hc⟩ := slaveServe_spec f error s s' i hst
    rw [hw] at hw0
    cases hw0
    rw [hin] at hin0
    cases hin0
    rcases hc with ⟨ht, rfl⟩ | ⟨ht, rfl⟩
    · exact ⟨_, getElem?_set_self_of_some _ _ _ _ hw, by simp [ht]⟩
    · refine ⟨_, getElem?_set_self_of_some _ _ _ _ hw, ?_⟩
      simp [ht, hpc]

/-- Witness of C13: one worker, constant integrand `1` on `[0, 1]`; the state in which
`master` has left its loop and the worker has not yet received its TERMINATE. -/
theorem shutdown_once_witness :
    ∃ s : Sys ℚ, Reachable (fun _ : ℚ => 1) (1 / 2) 0 1 2 (fun _ => false) s ∧
      s.slaves.map (fun w => w.inbox) = [[⟨3, ⟨0, 1, 1⟩⟩]] ∧
      ((∀ w ∈ s.slaves, w.terminates = if s.master.pc = MasterPc.returned then 1 else 0) ∧
      (∀ s', step (fun _ : ℚ => 1) (1 / 2) s Action.masterExit = some s' →
        s.master.pc = MasterPc.loop ∧ loopCond s.master = false ∧
        s' = Sys.mk { s.master with pc := MasterPc.returned }
          (s.slaves.map (SlaveState.addTerminate s.master.values)) s.received) ∧
      (s.master.pc = MasterPc.returned →
        step (fun _ : ℚ => 1) (1 / 2) s Action.masterExit = none ∧
        ∀ src, step (fun _ : ℚ => 1) (1 / 2) s (Action.masterRecv src) = none) ∧
      (∀ i s' w m rest, s.slaves[i]? = some w → w.inbox = m :: rest →
        step (fun _ : ℚ => 1) (1 / 2) s (Action.slaveServe i) = some s' →
        ∃ w', s'.slaves[i]? = some w' ∧ (w'.pc = SlavePc.returned ↔ m.tag = 3))) := by
  have hr : Reachable (fun _ : ℚ => 1) (1 / 2) 0 1 2 (fun _ => false)
      ⟨⟨⟨0, 1, 1⟩, 1, [], [false], false, MasterPc.returned⟩,
        [⟨SlavePc.serving, [⟨3, ⟨0, 1, 1⟩⟩], []⟩],
        [⟨2, ⟨0, 1, 1⟩⟩, ⟨0, ⟨0, 0, 0⟩⟩]⟩ :=
    ⟨[Action.slaveStart 0, Action.masterRecv 0, Action.slaveServe 0, Action.masterRecv 0,
      Action.masterExit], by decide!⟩
  exact ⟨_, hr, rfl, shutdown_once _ _ _ _ _ _ _ hr⟩


/-- C14: for every stack and every flag array (one flag per worker), the dispatch loop of
lines 156-166 does what `dispatchSpec` says: it visits the workers in increasing index
order and sends each worker whose flag is `false` the task then on top of the stack.
With `k = min (number of false flags) (stack size)`: the stack loses its `k` topmost
tasks; the ASSIGN messages sent, in the order of the workers, carry those `k` tasks from
the top down; exactly `k` flags turn from `false` to `true`; every worker either keeps
its flag and its state, or had a `false` flag, now has a `true` one and one more ASSIGN in
its inbox; and afterwards the stack is empty or every flag is `true`. -/
theorem dispatch_step_spec (s : Sys α) (hlen : s.master.busy.length = s.slaves.length) :
    (dispatch s).master.tasks
      = (dispatchSpec s.slaves s.master.busy s.master.tasks s.master.values).1 ∧
    (dispatch s).master.busy
      = (dispatchSpec s.slaves s.master.busy s.master.tasks s.master.values).2.1 ∧
    (dispatch s).slaves
      = (dispatchSpec s.slaves s.master.busy s.master.tasks s.master.values).2.2.1 ∧
    (dispatch s).master.tasks
      = s.master.tasks.drop (min (s.master.busy.count false) s.master.tasks.length) ∧
    newMessages s.slaves (dispatch s).slaves
      = (s.master.tasks.take (min (s.master.busy.count false) s.master.tasks.length)).map
          (fun t => ⟨0, t⟩) ∧
    (dispatch s).master.busy.count false
      = s.master.busy.count false - min (s.master.busy.count false) s.master.tasks.length ∧
    List.Forall₂
      (fun (p q : Bool × SlaveState α) => (q.1 = p.1 ∧ q.2 = p.2) ∨
        (p.1 = false ∧ q.1 = true ∧
          ∃ t, q.2 = ⟨p.2.pc, p.2.inbox ++ [⟨0, t⟩], p.2.outbox⟩))
      (s.master.busy.zip s.slaves) ((dispatch s).master.busy.zip (dispatch s).slaves) ∧
    ((dispatch s).master.tasks = [] ∨ ∀ b ∈ (dispatch s).master.busy, b = true) := by
  obtain ⟨h1, h2, h3, h4, h5⟩ :=
    dispatchSpec_props s.slaves s.master.busy hlen s.master.tasks s.master.values
  rw [dispatch_eq_spec s hlen]
  exact ⟨rfl, rfl, rfl, h1, h2, h3, h4, h5⟩

/-- Witness of C14: three workers with flags `false, true, false` and a stack of three
tasks: workers 0 and 2 are sent the two topmost tasks, one task stays, no flag is left
`false`. -/
theorem dispatch_step_spec_witness :
    (dispatch (⟨⟨⟨0, 0, 0⟩, 0, [⟨0, 1, 0⟩, ⟨1, 2, 0⟩, ⟨2, 3, 0⟩], [false, true, false], true,
        MasterPc.loop⟩,
      [⟨SlavePc.serving, [], []⟩, ⟨SlavePc.serving, [⟨0, ⟨5, 6, 0⟩⟩], []⟩,
       ⟨SlavePc.serving, [], []⟩], []⟩ : Sys ℚ)).master.tasks = [⟨2, 3, 0⟩] ∧
    newMessages
      [⟨SlavePc.serving, [], []⟩, ⟨SlavePc.serving, [⟨0, ⟨5, 6, 0⟩⟩], []⟩,
       ⟨SlavePc.serving, [], []⟩]
      (dispatch (⟨⟨⟨0, 0, 0⟩, 0, [⟨0, 1, 0⟩, ⟨1, 2, 0⟩, ⟨2, 3, 0⟩], [false, true, false],
          true, MasterPc.loop⟩,
        [⟨SlavePc.serving, [], []⟩, ⟨SlavePc.serving, [⟨0, ⟨5, 6, 0⟩⟩], []⟩,
         ⟨SlavePc.serving, [], []⟩], []⟩ : Sys ℚ)).slaves
      = [⟨0, ⟨0, 1, 0⟩⟩, ⟨0, ⟨1, 2, 0⟩⟩] ∧
    (dispatch (⟨⟨⟨0, 0, 0⟩, 0, [⟨0, 1, 0⟩, ⟨1, 2, 0⟩, ⟨2, 3, 0⟩], [false, true, false], true,
        MasterPc.loop⟩,
      [⟨SlavePc.serving, [], []⟩, ⟨SlavePc.serving, [⟨0, ⟨5, 6, 0⟩⟩], []⟩,
       ⟨SlavePc.serving, [], []⟩], []⟩ : Sys ℚ)).master.busy.count false = 0 := by
  obtain ⟨_, _, _, h4, h5, h6, _, _⟩ :=
    dispatch_step_spec (⟨⟨⟨0, 0, 0⟩, 0, [⟨0, 1, 0⟩, ⟨1, 2, 0⟩, ⟨2, 3, 0⟩],
        [false, true, false], true, MasterPc.loop⟩,
      [⟨SlavePc.serving, [], []⟩, ⟨SlavePc.serving, [⟨0, ⟨5, 6, 0⟩⟩], []⟩,
       ⟨SlavePc.serving, [], []⟩], []⟩ : Sys ℚ) rfl
  exact ⟨h4.trans (by decide!), h5.trans (by decide!), h6.trans (by decide!)⟩


/-- C15: after a pass of the loop (receive, then dispatch) `isBusy` is the disjunction of
all `busy[i]`, computed from the flags as the dispatch loop left them; the loop test
fails, and `master` leaves the loop, exactly when the stack is empty and every flag is
`false`; another pass is possible only when that is not so. The pass itself is
`updateIsBusy (dispatch X)` for the state `X` after the receive: the test is not
evaluated between the receive and the dispatch. -/
theorem exit_predicate (f : α → α) (error : α) (s s' : Sys α) (src : Nat)
    (hlen : s.master.busy.length = s.slaves.length)
    (hst : step f error s (Action.masterRecv src) = some s') :
    s'.master.pc = MasterPc.loop ∧
    (∃ X : Sys α, s' = updateIsBusy (dispatch X)) ∧
    s'.master.isBusy = s'.master.busy.any id ∧
    (loopCond s'.master = false ↔ s'.master.tasks = [] ∧ ∀ b ∈ s'.master.busy, b = false) ∧
    ((step f error s' Action.masterExit).isSome ↔
      s'.master.tasks = [] ∧ ∀ b ∈ s'.master.busy, b = false) ∧
    (∀ src', (step f error s' (Action.masterRecv src')).isSome →
      ¬ (s'.master.tasks = [] ∧ ∀ b ∈ s'.master.busy, b = false)) := by
  have hiter := step_masterRecv f error s s' src hst
  obtain ⟨hl, _⟩ := step_master_pc_loop f error s s' src hst
  have hpc : s'.master.pc = MasterPc.loop := (masterIter_pc s s' src hiter).trans hl
  obtain ⟨hb, hs⟩ := masterIter_lengths s s' src hiter
  have hX : ∃ X : Sys α, s' = updateIsBusy (dispatch X) := by
    obtain ⟨w, m0, rest, _, _, hc | hc⟩ := masterIter_spec s s' src hiter
    · exact ⟨_, hc.2⟩
    · obtain ⟨_, m2, rest2, _, h⟩ := hc
      exact ⟨_, h⟩
  have hbusy : s'.master.isBusy = s'.master.busy.any id := by
    obtain ⟨X, rfl⟩ := hX
    show computeIsBusy (dispatch X).numProcesses (dispatch X).master.busy = _
    have : (dispatch X).numProcesses = (dispatch X).master.busy.length + 1 := by
      have h1 : (updateIsBusy (dispatch X)).master.busy = (dispatch X).master.busy := rfl
      have h2 : (updateIsBusy (dispatch X)).slaves = (dispatch X).slaves := rfl
      rw [h1] at hb
      rw [h2] at hs
      simp only [Sys.numProcesses]
      omega
    rw [this, computeIsBusy_eq_any]
    rfl
  have hcond : loopCond s'.master = false ↔
      s'.master.tasks = [] ∧ ∀ b ∈ s'.master.busy, b = false := by
    simp only [loopCond, Bool.or_eq_false_iff, decide_eq_false_iff_not, hbusy,
      List.any_eq_false]
    constructor
    · rintro ⟨h1, h2⟩
      refine ⟨List.length_eq_zero.1 (by omega), fun b hb' => ?_⟩
      have := h2 b hb'
      simpa using this
    · rintro ⟨h1, h2⟩
      refine ⟨by simp [h1], fun b hb' => ?_⟩
      simp [h2 b hb']
  refine ⟨hpc, hX, hbusy, hcond, ?_, ?_⟩
  · rw [← hcond]
    simp only [step, hpc, true_and]
    split <;> simp_all
  · intro src' hsome
    rw [← hcond]
    simp only [step, hpc, true_and] at hsome
    split at hsome
    · rename_i hc
      rw [hc]
      simp
    · simp at hsome

/-- Witness of C15: the pass that receives the DONE of the only worker leaves an empty
stack and a cleared flag, and the loop is left. -/
theorem exit_predicate_witness :
    ∃ s' : Sys ℚ,
      step (fun _ : ℚ => 1) (1 / 2)
        (⟨⟨⟨0, 1, 0⟩, 0, [], [true], true, MasterPc.loop⟩,
          [⟨SlavePc.serving, [], [⟨2, ⟨0, 1, 1⟩⟩]⟩], [⟨0, ⟨0, 0, 0⟩⟩]⟩ : Sys ℚ)
        (Action.masterRecv 0) = some s' ∧
      s'.master.tasks = [] ∧ s'.master.busy = [false] ∧
      (s'.master.pc = MasterPc.loop ∧
      (∃ X : Sys ℚ, s' = updateIsBusy (dispatch X)) ∧
      s'.master.isBusy = s'.master.busy.any id ∧
      (loopCond s'.master = false ↔ s'.master.tasks = [] ∧ ∀ b ∈ s'.master.busy, b = false) ∧
      ((step (fun _ : ℚ => 1) (1 / 2) s' Action.masterExit).isSome ↔
        s'.master.tasks = [] ∧ ∀ b ∈ s'.master.busy, b = false) ∧
      (∀ src', (step (fun _ : ℚ => 1) (1 / 2) s' (Action.masterRecv src')).isSome →
        ¬ (s'.master.tasks = [] ∧ ∀ b ∈ s'.master.busy, b = false))) := by
  have hst : step (fun _ : ℚ => 1) (1 / 2)
        (⟨⟨⟨0, 1, 0⟩, 0, [], [true], true, MasterPc.loop⟩,
          [⟨SlavePc.serving, [], [⟨2, ⟨0, 1, 1⟩⟩]⟩], [⟨0, ⟨0, 0, 0⟩⟩]⟩ : Sys ℚ)
        (Action.masterRecv 0) =
      some ⟨⟨⟨0, 1, 1⟩, 1, [], [false], false, MasterPc.loop⟩,
          [⟨SlavePc.serving, [], []⟩], [⟨2, ⟨0, 1, 1⟩⟩, ⟨0, ⟨0, 0, 0⟩⟩]⟩ := by
    decide!
  exact ⟨_, hst, rfl, rfl, exit_predicate _ _ _ _ _ rfl hst⟩


/-- C16: when the message received at line 142 has tag 1 and comes from worker `src`, the
second `MPI_Recv` takes from the channel of that same worker the oldest message with tag
1 (the next message, when that is a SPLIT leg); the stack grows by exactly the two
records, the first leg pushed first and the second on top; `result` is unchanged; and
when the dispatch loop starts every inbox is what it was before the pass, so no ASSIGN is
sent between the two legs. -/
theorem split_handling (s : Sys α) (src : Nat) (w : SlaveState α) (m m2 : Msg α)
    (rest rest2 : List (Msg α)) (hw : s.slaves[src]? = some w) (ho : w.outbox = m :: rest)
    (h1 : m.tag = 1) (hr : recvTag 1 rest = some (m2, rest2)) :
    m2.tag = 1 ∧ m2 ∈ rest ∧
    (∀ m' rest', rest = m' :: rest' → m'.tag = 1 → m2 = m' ∧ rest2 = rest') ∧
    masterIter s src = some (updateIsBusy (dispatch (splitState s src w m m2 rest2))) ∧
    (splitState s src w m m2 rest2).master.tasks = m2.values :: m.values :: s.master.tasks ∧
    (splitState s src w m m2 rest2).master.result = s.master.result ∧
    (splitState s src w m m2 rest2).slaves.map (fun w => w.inbox)
      = s.slaves.map (fun w => w.inbox) ∧
    (splitState s src w m m2 rest2).received = m2 :: m :: s.received ∧
    (updateIsBusy (dispatch (splitState s src w m m2 rest2))).master.result
      = s.master.result := by
  obtain ⟨h2, hp⟩ := recvTag_spec 1 rest m2 rest2 hr
  refine ⟨h2, hp.mem_iff.2 (List.mem_cons_self _ _), ?_,
    masterIter_of_split s src w m m2 rest rest2 hw ho h1 hr, rfl, rfl, ?_, rfl, ?_⟩
  · intro m' rest' hrest hm'
    rw [hrest, recvTag, if_pos hm'] at hr
    simp only [Option.some.injEq, Prod.mk.injEq] at hr
    exact ⟨hr.1.symm, hr.2.symm⟩
  · exact map_set_eq (fun x : SlaveState α => x.inbox) s.slaves src w
      ⟨w.pc, w.inbox, rest2⟩ hw rfl
  · show (dispatch _).master.result = _
    rw [dispatch_result]
    rfl

/-- Witness of C16: one worker whose channel holds the two legs of the split of `[0, 1]`. -/
theorem split_handling_witness :
    masterIter (⟨⟨⟨0, 1, 0⟩, 0, [], [true], true, MasterPc.loop⟩,
        [⟨SlavePc.serving, [], [⟨1, ⟨0, 1 / 2, 0⟩⟩, ⟨1, ⟨1 / 2, 1, 0⟩⟩]⟩],
        [⟨0, ⟨0, 0, 0⟩⟩]⟩ : Sys ℚ) 0 =
      some ⟨⟨⟨1 / 2, 1, 0⟩, 0, [⟨0, 1 / 2, 0⟩], [true], true, MasterPc.loop⟩,
        [⟨SlavePc.serving, [⟨0, ⟨1 / 2, 1, 0⟩⟩], []⟩],
        [⟨1, ⟨1 / 2, 1, 0⟩⟩, ⟨1, ⟨0, 1 / 2, 0⟩⟩, ⟨0, ⟨0, 0, 0⟩⟩]⟩ := by
  have h := split_handling (⟨⟨⟨0, 1, 0⟩, 0, [], [true], true, MasterPc.loop⟩,
        [⟨SlavePc.serving, [], [⟨1, ⟨0, 1 / 2, 0⟩⟩, ⟨1, ⟨1 / 2, 1, 0⟩⟩]⟩],
        [⟨0, ⟨0, 0, 0⟩⟩]⟩ : Sys ℚ) 0
      ⟨SlavePc.serving, [], [⟨1, ⟨0, 1 / 2, 0⟩⟩, ⟨1, ⟨1 / 2, 1, 0⟩⟩]⟩
      ⟨1, ⟨0, 1 / 2, 0⟩⟩ ⟨1, ⟨1 / 2, 1, 0⟩⟩ [⟨1, ⟨1 / 2, 1, 0⟩⟩] [] rfl rfl rfl rfl
  rw [h.2.2.2.1]
  rfl


/-- C18: if `adaptive_quadrature f fuel lower upper error` returns `v`, then with one
worker (`numProcesses = 2`), whatever `busy` holds at first, every run of the system can
be continued until `master` has returned, and whenever `master` has returned its result
is `v` and the intervals of the DONE messages it has accepted are exactly the accepted
leaves of the recursion tree of `adaptive_quadrature`, whose `trapezoidal_rule` values
sum to `v`. -/
theorem single_worker_refines (f : α → α) (error lower upper : α) (busy0 : Nat → Bool)
    (fuel : Nat) (v : α) (s : Sys α)
    (hq : adaptive_quadrature f fuel lower upper error = some v)
    (hr : Reachable f error lower upper 2 busy0 s) :
    ∃ tr, aqTrace f fuel lower upper error = some tr ∧
      v = (tr.1.map (fun p => trapezoidal_rule f p.1 p.2)).sum ∧
      (∃ sched s', exec f error s sched = some s' ∧ s'.master.pc = MasterPc.returned ∧
        s'.master.result = v ∧ s'.accepted.map Msg.iv = tr.1) ∧
      (s.master.pc = MasterPc.returned →
        s.master.result = v ∧ s.accepted.map Msg.iv = tr.1) := by
  rw [adaptive_quadrature_eq_aqTrace] at hq
  cases htr : aqTrace f fuel lower upper error with
  | none => simp [htr] at hq
  | some tr =>
    simp only [htr, Option.map_some', Option.some.injEq] at hq
    refine ⟨tr, rfl, hq.symm, ?_⟩
    rw [← hq]
    obtain ⟨rest, sf, hrun, hpcf, hresf, haccf⟩ :=
      one_worker_run f error lower upper busy0 fuel tr htr
    obtain ⟨sched, hsched⟩ := hr
    rcases one_worker_first_moves f error lower upper busy0 sched s hsched with
      rfl | rfl | ⟨rest2, rfl⟩
    · simp only [exec, Option.some.injEq] at hsched
      subst hsched
      exact ⟨⟨_, sf, hrun, hpcf, hresf, haccf⟩, fun h => by simp [init] at h⟩
    · obtain ⟨t, hst, ht⟩ := exec_cons f error _ _ _ s hsched
      simp only [exec, Option.some.injEq] at ht
      subst ht
      obtain ⟨t', hst', hrest⟩ := exec_cons f error _ _ _ sf hrun
      rw [hst] at hst'
      cases hst'
      refine ⟨⟨_, sf, hrest, hpcf, hresf, haccf⟩, fun h => ?_⟩
      obtain ⟨w, _, _, ht⟩ := slaveStart_spec (init lower upper 2 busy0) t 0 hst
      rw [ht] at h
      simp [init, Sys.setSlave] at h
    · have h1 := one_worker_any_busy f error lower upper busy0 rest sf hrun
      have h2 := one_worker_any_busy f error lower upper busy0 rest2 s hsched
      obtain ⟨⟨l, s', hl, hm, hrc⟩, hret⟩ := one_worker_joins f error lower upper
        (fun _ => true) (fun _ => rfl) _ _ sf s h1 h2 hpcf
      refine ⟨⟨l, s', hl, by rw [hm]; exact hpcf, by rw [hm]; exact hresf, ?_⟩, fun h => ?_⟩
      · rw [Sys.accepted, hrc]
        exact haccf
      · obtain ⟨hm2, hrc2⟩ := hret h
        exact ⟨by rw [hm2]; exact hresf, by rw [Sys.accepted, hrc2]; exact haccf⟩

/-- Witness of C18: `x * x` on `[0, 1]` with threshold `1/10`: `adaptive_quadrature`
returns `3/8` at depth 2, and so does `master` with one worker, from the initial state. -/
theorem single_worker_refines_witness :
    ∃ tr, aqTrace (fun x : ℚ => x * x) 2 0 1 (1 / 10) = some tr ∧
      (3 / 8 : ℚ) = (tr.1.map (fun p => trapezoidal_rule (fun x : ℚ => x * x) p.1 p.2)).sum ∧
      (∃ sched s', exec (fun x : ℚ => x * x) (1 / 10) (init 0 1 2 (fun _ => false)) sched
          = some s' ∧ s'.master.pc = MasterPc.returned ∧
        s'.master.result = 3 / 8 ∧ s'.accepted.map Msg.iv = tr.1) ∧
      ((init (0 : ℚ) 1 2 (fun _ => false)).master.pc = MasterPc.returned →
        (init (0 : ℚ) 1 2 (fun _ => false)).master.result = 3 / 8 ∧
        (init (0 : ℚ) 1 2 (fun _ => false)).accepted.map Msg.iv = tr.1) :=
  single_worker_refines (fun x : ℚ => x * x) (1 / 10) 0 1 (fun _ => false) 2 (3 / 8)
    (init 0 1 2 (fun _ => false)) (by decide!) ⟨[], rfl⟩


/-- C19: `trapezoidal_actual f a b` is the sum over `i = 0 .. 999` of
`trapezoidal_rule f (a + i*h) (a + (i+1)*h)` with `h = (b - a) / 1000`, that is
`(h/2) * (f a + f b + 2 * (f (a + h) + ... + f (a + 999*h)))`. -/
theorem trapezoidal_actual_is_composite (f : α → α) (a b : α) :
    trapezoidal_actual f a b =
      ((List.range 1000).map (fun i : Nat =>
        trapezoidal_rule f (a + (i : α) * ((b - a) / 1000))
          (a + ((i : α) + 1) * ((b - a) / 1000)))).sum ∧
    trapezoidal_actual f a b =
      ((b - a) / 1000 / 2) * (f a + f b
        + 2 * ((List.range' 1 999).map (fun i : Nat => f (a + (i : α) * ((b - a) / 1000)))).sum) := by
  have h2 : trapezoidal_actual f a b =
      ((b - a) / 1000 / 2) * (f a + f b
        + 2 * ((List.range' 1 999).map (fun i : Nat => f (a + (i : α) * ((b - a) / 1000)))).sum) := by
    unfold trapezoidal_actual
    simp only [foldl_add_eq_sum (fun i : Nat => f (a + (i : α) * ((b - a) / (interval : α))))]
    simp [interval]
  refine ⟨?_, h2⟩
  rw [h2]
  have h3 := sum_trapezoids f a ((b - a) / 1000) 999
  have h4 : a + (((999 : Nat) : α) + 1) * ((b - a) / 1000) = b := by
    push_cast
    ring
  rw [h4] at h3
  exact h3.symm

end AQI
